import Mathlib

/-!
Verification of the specification of a puzzle-toolkit library (parser
combinators, grid utilities, interval algebra, number theory, and a
weighted-graph shortest-path engine) against a shallow embedding of its
Rust source.

Conventions used throughout this development:
* Rust machine integers are embedded as `Int` (`i64`-style signed
  arithmetic never overflows in the scenarios covered by the claims) or
  as `Nat` where the source is used with non-negative quantities;
  Rust `%` on `i64` is `Int.tmod` and `/` is `Int.tdiv` (both truncate
  toward zero, exactly like Rust).
* `HashMap`/`BTreeSet` values are embedded as association lists / lists;
  the claims under study depend only on their key-value contents, never
  on iteration order, except where noted.
* Rust `while` loops are embedded as fuel-indexed structural recursions;
  each use picks a fuel that is proved (or commented) sufficient, so the
  out-of-fuel branch mirrors genuine divergence of the source loop or is
  unreachable.
-/

/-! ## Number theory: `bezout_coefficients` and `chinese_remainder`
    (src/number_theory/bezout_coefficients.rs, chinese_remainder.rs) -/

/-- The `BezoutCoefficients` struct from bezout_coefficients.rs. -/
structure BezoutCoefficients where
  r : ℤ
  s : ℤ
  t : ℤ
  deriving Repr, DecidableEq

/-- One `a %= b` step (the `RemAssign` impl): `q = a.r / b.r` (truncated),
then each component is decreased by the corresponding component of `b * q`. -/
def bz_rem (a b : BezoutCoefficients) : BezoutCoefficients :=
  ⟨a.r - b.r * (a.r.tdiv b.r), a.s - b.s * (a.r.tdiv b.r), a.t - b.t * (a.r.tdiv b.r)⟩

/-- The `while !b.is_terminal() { a %= b; swap(&mut a, &mut b) }` loop of
`extended_euclidean_algoritm`, with explicit fuel.  The fuel argument is
only a termination device: `|b.r|` strictly decreases at every iteration,
so any fuel larger than `b.r.natAbs` makes the out-of-fuel branch
unreachable (`eea_fuel_spec` below is proved under that bound). -/
def eea_fuel : ℕ → BezoutCoefficients → BezoutCoefficients → BezoutCoefficients
  | 0, a, _ => a
  | fuel + 1, a, b => if b.r = 0 then a else eea_fuel fuel b (bz_rem a b)

/-- `extended_euclidean_algoritm` from bezout_coefficients.rs.  `|b.r| + 1`
fuel always suffices (the remainder's absolute value strictly decreases). -/
def extended_euclidean_algoritm (a b : BezoutCoefficients) : BezoutCoefficients :=
  eea_fuel (b.r.natAbs + 1) a b

/-- `bezout_coefficients` from bezout_coefficients.rs: returns `(r, s, t)`
with `r = gcd(a, b) = s*a + t*b`. -/
def bezout_coefficients (a b : ℤ) : ℤ × ℤ × ℤ :=
  let res := extended_euclidean_algoritm ⟨a, 1, 0⟩ ⟨b, 0, 1⟩
  (res.r, res.s, res.t)

/-- `chinese_remainder_with_modulus` from chinese_remainder.rs.  Rust `%`
and `/` on signed integers are `Int.tmod` / `Int.tdiv`.  (In Rust, `%` and
`/` by zero panic; the correctness theorems below restrict the moduli to be
positive, where no zero divisor can arise.) -/
def chinese_remainder_with_modulus (remainder_a modulus_a remainder_b modulus_b : ℤ) :
    Option (ℤ × ℤ) :=
  let bez := bezout_coefficients modulus_a modulus_b
  let gcd := bez.1
  let coef_a := bez.2.1
  let coef_b := bez.2.2
  if gcd = 1 then
    let modulus := modulus_a * modulus_b
    some ((remainder_a * modulus_b * coef_b + remainder_b * modulus_a * coef_a).tmod modulus,
      modulus)
  else if remainder_a.tmod gcd = remainder_b.tmod gcd then
    let modulus := (modulus_a * modulus_b).tdiv gcd
    some ((remainder_a * modulus_b * coef_b + remainder_b * modulus_a * coef_a).tdiv gcd,
      modulus)
  else none

/-- `chinese_remainder` from chinese_remainder.rs. -/
def chinese_remainder (remainder_a modulus_a remainder_b modulus_b : ℤ) : Option ℤ :=
  (chinese_remainder_with_modulus remainder_a modulus_a remainder_b modulus_b).map
    (fun p => p.1)

theorem natAbs_tmod_eq (a b : ℤ) : (a.tmod b).natAbs = a.natAbs % b.natAbs := by
  cases a with
  | ofNat m =>
    cases b with
    | ofNat n => rfl
    | negSucc n => rfl
  | negSucc m =>
    cases b with
    | ofNat n =>
      show (-(Int.ofNat ((m + 1) % n))).natAbs = (m + 1) % n
      rw [Int.natAbs_neg]
      rfl
    | negSucc n =>
      show (-(Int.ofNat ((m + 1) % (n + 1)))).natAbs = (m + 1) % (n + 1)
      rw [Int.natAbs_neg]
      rfl

theorem gcd_tmod_step (a b : ℤ) : Int.gcd b (a.tmod b) = Int.gcd a b := by
  unfold Int.gcd
  rw [natAbs_tmod_eq]
  rw [Nat.gcd_comm a.natAbs b.natAbs, Nat.gcd_rec b.natAbs a.natAbs]
  exact (Nat.gcd_comm _ _)

theorem bz_rem_r (a b : BezoutCoefficients) : (bz_rem a b).r = a.r.tmod b.r := by
  simp [bz_rem, Int.tmod_def]

/-- Main loop invariant of the extended Euclidean algorithm: starting from
states whose `r` components are the given linear combinations of `A` and
`B`, the result's `r` is again such a combination, its absolute value is
`gcd(a.r, b.r)`, and it stays non-negative when the inputs are. -/
theorem eea_fuel_spec (A B : ℤ) :
    ∀ (fuel : ℕ) (a b : BezoutCoefficients), b.r.natAbs < fuel →
      a.r = a.s * A + a.t * B → b.r = b.s * A + b.t * B → 0 ≤ a.r → 0 ≤ b.r →
      ((eea_fuel fuel a b).r =
          (eea_fuel fuel a b).s * A + (eea_fuel fuel a b).t * B) ∧
        ((eea_fuel fuel a b).r.natAbs = Int.gcd a.r b.r) ∧
        0 ≤ (eea_fuel fuel a b).r := by
  intro fuel
  induction fuel with
  | zero => intro a b hlt; omega
  | succ n ih =>
    intro a b hlt ha hb ha0 hb0
    by_cases hz : b.r = 0
    · simp only [eea_fuel, hz, if_true]
      refine ⟨ha, ?_, ha0⟩
      simp [Int.gcd, hz]
    · simp only [eea_fuel, hz, if_false]
      have hrem : (bz_rem a b).r = a.r.tmod b.r := bz_rem_r a b
      have habs : (a.r.tmod b.r).natAbs < b.r.natAbs := by
        rw [natAbs_tmod_eq]
        exact Nat.mod_lt _ (by omega)
      have hlt' : (bz_rem a b).r.natAbs < n := by omega
      have hb' : (bz_rem a b).r = (bz_rem a b).s * A + (bz_rem a b).t * B := by
        simp only [bz_rem]
        rw [ha, hb]; ring
      have hnn : 0 ≤ (bz_rem a b).r := by
        rw [hrem]; exact Int.tmod_nonneg _ ha0
      obtain ⟨h1, h2, h3⟩ := ih b (bz_rem a b) hlt' hb hb' hb0 hnn
      refine ⟨h1, ?_, h3⟩
      rw [h2, hrem, gcd_tmod_step]

/-- Specification of `bezout_coefficients` for positive inputs: it returns
`(g, s, t)` with `g` the (positive) gcd and `g = s*a + t*b`. -/
theorem bezout_coefficients_spec (a b : ℤ) (ha : 0 < a) (hb : 0 < b) :
    (bezout_coefficients a b).1 = Int.gcd a b ∧
      (bezout_coefficients a b).1 =
        (bezout_coefficients a b).2.1 * a + (bezout_coefficients a b).2.2 * b := by
  have h := eea_fuel_spec a b (b.natAbs + 1) ⟨a, 1, 0⟩ ⟨b, 0, 1⟩
    (by dsimp only; omega) (by dsimp only; ring) (by dsimp only; ring)
    (le_of_lt ha) (le_of_lt hb)
  obtain ⟨h1, h2, h3⟩ := h
  dsimp only at h1 h2 h3
  simp only [bezout_coefficients, extended_euclidean_algoritm]
  refine ⟨?_, h1⟩
  rw [← h2]
  exact (Int.natAbs_of_nonneg h3).symm

theorem emod_eq_of_dvd_sub {n a b : ℤ} (h : n ∣ a - b) : a % n = b % n :=
  Int.ModEq.symm (Int.modEq_iff_dvd.mpr h)

/-- Correctness of `chinese_remainder_with_modulus` for positive moduli and
non-negative remainders: it returns `none` exactly when the remainders are
inconsistent modulo `gcd(modulus_a, modulus_b)`, and any returned `N`
satisfies both congruences. -/
theorem chinese_remainder_with_modulus_spec (ra ma rb mb : ℤ)
    (hma : 0 < ma) (hmb : 0 < mb) (hra : 0 ≤ ra) (hrb : 0 ≤ rb) :
    (chinese_remainder_with_modulus ra ma rb mb = none ↔
      ¬ ((Int.gcd ma mb : ℤ) ∣ ra - rb)) ∧
    (∀ N M, chinese_remainder_with_modulus ra ma rb mb = some (N, M) →
      N % ma = ra % ma ∧ N % mb = rb % mb) := by
  obtain ⟨hg, hlin⟩ := bezout_coefficients_spec ma mb hma hmb
  rcases hbez : bezout_coefficients ma mb with ⟨g, s, t⟩
  rw [hbez] at hg hlin
  dsimp only at hg hlin
  have hgpos : 0 < g := by
    rw [hg]
    have : Int.gcd ma mb ≠ 0 := by
      intro h0
      rw [Int.gcd_eq_zero_iff] at h0
      omega
    exact_mod_cast Nat.pos_of_ne_zero this
  simp only [chinese_remainder_with_modulus, hbez]
  by_cases hone : g = 1
  · simp only [hone, if_true]
    constructor
    · simp only [reduceCtorEq, false_iff, not_not]
      have : (Int.gcd ma mb : ℤ) = 1 := by rw [← hg, hone]
      rw [this]
      exact one_dvd _
    · intro N M hNM
      injection hNM with hpair
      injection hpair with hN hM
      subst hN
      rw [hone] at hlin
      have hq := Int.tmod_def (ra * mb * t + rb * ma * s) (ma * mb)
      constructor
      · apply emod_eq_of_dvd_sub
        refine ⟨s * (rb - ra) - mb * ((ra * mb * t + rb * ma * s).tdiv (ma * mb)), ?_⟩
        rw [hq]
        linear_combination (-ra) * hlin
      · apply emod_eq_of_dvd_sub
        refine ⟨t * (ra - rb) - ma * ((ra * mb * t + rb * ma * s).tdiv (ma * mb)), ?_⟩
        rw [hq]
        linear_combination (-rb) * hlin
  · simp only [hone, if_false]
    have htm : ra.tmod g = ra % g := Int.tmod_eq_emod hra hgpos.le
    have htm' : rb.tmod g = rb % g := Int.tmod_eq_emod hrb hgpos.le
    have hcond : (ra.tmod g = rb.tmod g) ↔ ((Int.gcd ma mb : ℤ) ∣ ra - rb) := by
      rw [htm, htm', ← hg]
      constructor
      · intro h
        have := Int.ModEq.dvd (a := ra) (b := rb) (n := g) h
        exact (dvd_sub_comm).mp this
      · intro h
        exact emod_eq_of_dvd_sub h
    by_cases hc : ra.tmod g = rb.tmod g
    · simp only [hc, if_true]
      constructor
      · simp only [reduceCtorEq, false_iff, not_not]
        exact hcond.mp hc
      · intro N M hNM
        injection hNM with hpair
        injection hpair with hN hM
        subst hN
        obtain ⟨k, hk⟩ : g ∣ rb - ra := by
          have := hcond.mp hc
          rw [← hg] at this
          exact dvd_sub_comm.mp this
        have hX : ra * mb * t + rb * ma * s = g * (ra + ma * s * k) := by
          linear_combination (-ra) * hlin + (ma * s) * hk
        rw [hX, Int.mul_tdiv_cancel_left _ (by omega)]
        constructor
        · exact emod_eq_of_dvd_sub ⟨s * k, by ring⟩
        · apply emod_eq_of_dvd_sub
          refine ⟨-(k * t), ?_⟩
          linear_combination (-k) * hlin - hk
    · simp only [hc, if_false]
      constructor
      · simp only [true_iff]
        intro hdvd
        exact hc (hcond.mpr hdvd)
      · intro N M hNM
        exact absurd hNM (by simp)

/-- C9 counterexample: the input `(1, 3, -2, 3)` is consistent modulo
`gcd(3, 3) = 3` (indeed `3 ∣ 1 - (-2)`), yet `chinese_remainder` returns
`None`, because the code compares Rust `%` (truncated) remainders, and
`1 % 3 = 1` while `-2 % 3 = -2`.  This refutes the claim as stated for
arbitrary (possibly negative) remainders. -/
theorem claim_C9_counterexample :
    chinese_remainder 1 3 (-2) 3 = none ∧ ((Int.gcd 3 3 : ℤ) ∣ (1 - (-2) : ℤ)) := by
  constructor
  · decide
  · decide

/-- C9 (amended): `chinese_remainder(0, 3, 3, 4)` returns exactly
`Some (-9)`, and for positive moduli and non-negative remainders (the
counterexample shows negative remainders can be wrongly rejected, and zero
moduli make the Rust code divide by zero) the function returns `None`
exactly when the remainders are inconsistent modulo
`gcd(modulus_a, modulus_b)`, and otherwise `Some N` with `N` congruent to
`remainder_a` mod `modulus_a` and to `remainder_b` mod `modulus_b`. -/
theorem claim_C9_amended :
    chinese_remainder 0 3 3 4 = some (-9) ∧
    ∀ ra ma rb mb : ℤ, 0 < ma → 0 < mb → 0 ≤ ra → 0 ≤ rb →
      ((chinese_remainder ra ma rb mb = none ↔ ¬ ((Int.gcd ma mb : ℤ) ∣ ra - rb)) ∧
        ∀ N, chinese_remainder ra ma rb mb = some N →
          N % ma = ra % ma ∧ N % mb = rb % mb) := by
  constructor
  · decide
  · intro ra ma rb mb hma hmb hra hrb
    obtain ⟨hnone, hsome⟩ := chinese_remainder_with_modulus_spec ra ma rb mb hma hmb hra hrb
    constructor
    · rw [← hnone]
      unfold chinese_remainder
      cases chinese_remainder_with_modulus ra ma rb mb <;> simp
    · intro N hN
      unfold chinese_remainder at hN
      cases hmm : chinese_remainder_with_modulus ra ma rb mb with
      | none => rw [hmm] at hN; simp at hN
      | some p =>
        rw [hmm] at hN
        simp only [Option.map_some'] at hN
        injection hN with hN1
        exact hsome N p.2 (by rw [hmm, ← hN1])

/-- Witness for `claim_C9_amended`: instantiated at the non-coprime
consistent input `(13, 25, 8, 10)` from the repository's own tests. -/
theorem claim_C9_witness :
    ((0 : ℤ) < 25 ∧ (0 : ℤ) < 10 ∧ (0 : ℤ) ≤ 13 ∧ (0 : ℤ) ≤ 8) ∧
      ((chinese_remainder 13 25 8 10 = none ↔ ¬ ((Int.gcd 25 10 : ℤ) ∣ 13 - 8)) ∧
        ∀ N, chinese_remainder 13 25 8 10 = some N →
          N % 25 = 13 % 25 ∧ N % 10 = 8 % 10) :=
  ⟨⟨by decide, by decide, by decide, by decide⟩,
    claim_C9_amended.2 13 25 8 10 (by decide) (by decide) (by decide) (by decide)⟩

/-! ## Grid (src/grid/grid.rs, grid_dimension.rs, grid_point.rs, error.rs)

The grid code is generic over an integer type; `Grid` instantiates it at
`usize`, embedded here as `Nat`. -/

/-- `GridPoint<usize>` from grid_point.rs. -/
structure GridPoint where
  row : ℕ
  col : ℕ
  deriving Repr, DecidableEq

/-- `GridDimensions<usize>` from grid_dimension.rs. -/
structure GridDimensions where
  min_row : ℕ
  max_row : ℕ
  min_col : ℕ
  max_col : ℕ
  deriving Repr, DecidableEq

/-- `GridDimensions::contains`. -/
def GridDimensions.contains (d : GridDimensions) (p : GridPoint) : Prop :=
  d.min_row ≤ p.row ∧ p.row < d.max_row ∧ d.min_col ≤ p.col ∧ p.col < d.max_col

instance (d : GridDimensions) (p : GridPoint) : Decidable (d.contains p) := by
  unfold GridDimensions.contains; infer_instance

/-- `GridDimensions::rows`. -/
def GridDimensions.rows (d : GridDimensions) : ℕ := d.max_row - d.min_row

/-- `GridDimensions::cols`. -/
def GridDimensions.cols (d : GridDimensions) : ℕ := d.max_col - d.min_col

/-- `IndexOutOfBoundsError<usize>` from grid/error.rs: carries the grid's
dimensions and the attempted point. -/
structure IndexOutOfBoundsError where
  dimensions : GridDimensions
  attempted : GridPoint
  deriving Repr, DecidableEq

/-- `Grid<T>` from grid/grid.rs: dimensions plus a row-major flat vector. -/
structure Grid (T : Type u) where
  dimensions : GridDimensions
  grid : List T
  deriving Repr, DecidableEq

/-- `point_as_arr_idx`: the row-major flat index `row * cols + col`. -/
def point_as_arr_idx (dimension : GridDimensions) (grid_point : GridPoint) : ℕ :=
  grid_point.row * dimension.cols + grid_point.col

/-- `Grid::get`: bounds check against the dimensions, then a checked vector
access (`self.grid.get(idx).ok_or(...)`); never panics, never reads out of
range (the embedded `List.get?` is total). -/
def Grid.get (g : Grid T) (point : GridPoint) : Except IndexOutOfBoundsError T :=
  if ¬ g.dimensions.contains point then
    .error ⟨g.dimensions, point⟩
  else
    match g.grid.get? (point_as_arr_idx g.dimensions point) with
    | some v => .ok v
    | none => .error ⟨g.dimensions, point⟩

/-- `Grid::get_mut`: identical bounds logic to `get`; the returned mutable
reference is embedded as the element it points at. -/
def Grid.get_mut (g : Grid T) (point : GridPoint) : Except IndexOutOfBoundsError T :=
  if ¬ g.dimensions.contains point then
    .error ⟨g.dimensions, point⟩
  else
    match g.grid.get? (point_as_arr_idx g.dimensions point) with
    | some v => .ok v
    | none => .error ⟨g.dimensions, point⟩

/-- `Grid::set`: bounds check, then `*self.grid.get_mut(idx)? = value`,
embedded as returning the updated grid. -/
def Grid.set (g : Grid T) (point : GridPoint) (value : T) :
    Except IndexOutOfBoundsError (Grid T) :=
  if ¬ g.dimensions.contains point then
    .error ⟨g.dimensions, point⟩
  else
    match g.grid.get? (point_as_arr_idx g.dimensions point) with
    | some _ => .ok ⟨g.dimensions, g.grid.set (point_as_arr_idx g.dimensions point) value⟩
    | none => .error ⟨g.dimensions, point⟩

/-- The loop body of `Grid::of_list_of_lists`: extend the flat vector with
each row, failing unless the running length is `cols * (row_idx + 1)`. -/
def of_list_of_lists_aux (cols : ℕ) : List (List T) → ℕ → List T → Option (List T)
  | [], _, acc => some acc
  | row :: rest, row_idx, acc =>
    let acc2 := acc ++ row
    if acc2.length = cols * (row_idx + 1) then of_list_of_lists_aux cols rest (row_idx + 1) acc2
    else none

/-- `Grid::of_list_of_lists` from grid/grid.rs. -/
def Grid.of_list_of_lists (v : List (List T)) (rows cols : ℕ) : Option (Grid T) :=
  (of_list_of_lists_aux cols v 0 []).map (fun g => ⟨⟨0, rows, 0, cols⟩, g⟩)

/-- `Grid::of_vec_of_vecs` from grid/grid.rs.  In Rust `v[0]` panics on an
empty vector; callers treat the `[]` case (and an `of_list_of_lists`
mismatch) as the panicking branch. -/
def Grid.of_vec_of_vecs (v : List (List T)) : Option (Grid T) :=
  match v with
  | [] => none
  | r0 :: _ => Grid.of_list_of_lists v v.length r0.length

theorem idx_lt_of_contains (d : GridDimensions) (p : GridPoint)
    (h0r : d.min_row = 0) (h0c : d.min_col = 0) (hc : d.contains p) :
    point_as_arr_idx d p < d.rows * d.cols := by
  obtain ⟨_, hr, _, hcc⟩ := hc
  unfold point_as_arr_idx GridDimensions.rows GridDimensions.cols
  have h1 : p.row * (d.max_col - d.min_col) + p.col < (p.row + 1) * (d.max_col - d.min_col) := by
    rw [Nat.succ_mul]; omega
  have h2 : (p.row + 1) * (d.max_col - d.min_col) ≤
      (d.max_row - d.min_row) * (d.max_col - d.min_col) :=
    Nat.mul_le_mul_right _ (by omega)
  omega

/-- C7 (confirmed): on any well-formed grid (zero-based dimensions, flat
vector of length `rows * cols`, the invariant established by every `Grid`
constructor), `set` at an in-bounds point succeeds and a subsequent `get`
returns exactly the stored value; at any out-of-bounds point, `get`,
`get_mut` and `set` all return `Err(IndexOutOfBoundsError)` carrying the
attempted point and the grid's dimensions.  All accessors are total
functions built on the checked `List.get?`: no panic, no out-of-range
memory access. -/
theorem claim_C7 {T : Type} :
    ∀ (G : Grid T) (p : GridPoint) (v : T),
      G.dimensions.min_row = 0 → G.dimensions.min_col = 0 →
      G.grid.length = G.dimensions.rows * G.dimensions.cols →
      ((G.dimensions.contains p →
          ∃ G', G.set p v = .ok G' ∧ G'.get p = .ok v) ∧
        (¬ G.dimensions.contains p →
          G.get p = .error ⟨G.dimensions, p⟩ ∧
          G.get_mut p = .error ⟨G.dimensions, p⟩ ∧
          G.set p v = .error ⟨G.dimensions, p⟩)) := by
  intro G p v h0r h0c hlen
  constructor
  · intro hc
    have hidx : point_as_arr_idx G.dimensions p < G.grid.length := by
      rw [hlen]; exact idx_lt_of_contains _ _ h0r h0c hc
    have hget : G.grid.get? (point_as_arr_idx G.dimensions p) =
        some (G.grid.get ⟨_, hidx⟩) := List.get?_eq_get hidx
    refine ⟨⟨G.dimensions, G.grid.set (point_as_arr_idx G.dimensions p) v⟩, ?_, ?_⟩
    · unfold Grid.set
      rw [if_neg (by simpa using hc), hget]
    · unfold Grid.get
      simp only
      rw [if_neg (by simpa using hc)]
      have : (G.grid.set (point_as_arr_idx G.dimensions p) v).get?
          (point_as_arr_idx G.dimensions p) = some v := by
        simp [List.get?_eq_getElem?, List.getElem?_set_self hidx]
      rw [this]
  · intro hc
    refine ⟨?_, ?_, ?_⟩
    · unfold Grid.get; rw [if_pos hc]
    · unfold Grid.get_mut; rw [if_pos hc]
    · unfold Grid.set; rw [if_pos hc]

/-- Witness for `claim_C7`: a concrete 2-by-3 grid with an in-bounds and an
out-of-bounds access. -/
theorem claim_C7_witness :
    ((⟨⟨0, 2, 0, 3⟩, [10, 20, 30, 40, 50, 60]⟩ : Grid ℕ).dimensions.min_row = 0 ∧
      (⟨⟨0, 2, 0, 3⟩, [10, 20, 30, 40, 50, 60]⟩ : Grid ℕ).dimensions.min_col = 0 ∧
      (⟨⟨0, 2, 0, 3⟩, [10, 20, 30, 40, 50, 60]⟩ : Grid ℕ).grid.length =
        (⟨⟨0, 2, 0, 3⟩, [10, 20, 30, 40, 50, 60]⟩ : Grid ℕ).dimensions.rows *
          (⟨⟨0, 2, 0, 3⟩, [10, 20, 30, 40, 50, 60]⟩ : Grid ℕ).dimensions.cols) ∧
    (((⟨⟨0, 2, 0, 3⟩, [10, 20, 30, 40, 50, 60]⟩ : Grid ℕ).dimensions.contains ⟨1, 2⟩ →
        ∃ G', (⟨⟨0, 2, 0, 3⟩, [10, 20, 30, 40, 50, 60]⟩ : Grid ℕ).set ⟨1, 2⟩ 99 = .ok G' ∧
          G'.get ⟨1, 2⟩ = .ok 99) ∧
      (¬ (⟨⟨0, 2, 0, 3⟩, [10, 20, 30, 40, 50, 60]⟩ : Grid ℕ).dimensions.contains ⟨1, 2⟩ →
        (⟨⟨0, 2, 0, 3⟩, [10, 20, 30, 40, 50, 60]⟩ : Grid ℕ).get ⟨1, 2⟩ =
          .error ⟨⟨0, 2, 0, 3⟩, ⟨1, 2⟩⟩ ∧
        (⟨⟨0, 2, 0, 3⟩, [10, 20, 30, 40, 50, 60]⟩ : Grid ℕ).get_mut ⟨1, 2⟩ =
          .error ⟨⟨0, 2, 0, 3⟩, ⟨1, 2⟩⟩ ∧
        (⟨⟨0, 2, 0, 3⟩, [10, 20, 30, 40, 50, 60]⟩ : Grid ℕ).set ⟨1, 2⟩ 99 =
          .error ⟨⟨0, 2, 0, 3⟩, ⟨1, 2⟩⟩)) :=
  ⟨⟨by decide, by decide, by decide⟩,
    claim_C7 (⟨⟨0, 2, 0, 3⟩, [10, 20, 30, 40, 50, 60]⟩ : Grid ℕ) ⟨1, 2⟩ 99
      (by decide) (by decide) (by decide)⟩

/-! ## Parser combinators (src/parse.rs)

Strings and string slices are embedded as `List Char`.  A parser's
`parse` method is embedded as a function `List Char → POut α` where
`POut` wraps the source's `ParseState` with two extra outcomes: `diverge`
(the Rust call never returns, which happens when `many`-style loops repeat
a non-consuming parser) and `panicked` (the Rust call panics, possible
only in the `grid` combinator's `of_vec_of_vecs(...).unwrap()`). -/

/-- `ParseError` from parse.rs. -/
inductive ParseError where
  | ParseIntError : List Char → ParseError
  | UnexpectedChar : Char → ParseError
  | UnmatchedTag : List Char → ParseError
  | Generic : List Char → ParseError
  | RemainingUnparsed : ParseError
  | XorBothTrue : ParseError
  | EndOfString : ParseError
  deriving Repr, DecidableEq

/-- `ParseState<'a, T>` from parse.rs: either an error with the remaining
input at the failure point, or a result with the remaining input. -/
inductive ParseState (α : Type u) where
  | Err : ParseError → List Char → ParseState α
  | Ok : α → List Char → ParseState α
  deriving Repr, DecidableEq

/-- Outcome of running a Rust parser: a `ParseState`, divergence, or a
panic. -/
inductive POut (α : Type u) where
  | out : ParseState α → POut α
  | diverge : POut α
  | panicked : POut α
  deriving Repr, DecidableEq

/-- Shorthand for a successful outcome. -/
def pOk (r : α) (rest : List Char) : POut α := .out (.Ok r rest)

/-- Shorthand for a failing outcome. -/
def pErr (e : ParseError) (rest : List Char) : POut α := .out (.Err e rest)

/-- `ParseState::or` from parse.rs. -/
def ParseState.or (self other : ParseState α) : ParseState α :=
  match self with
  | .Ok r rest => .Ok r rest
  | .Err _ _ => other

/-- `ParseState::xor` from parse.rs: if both states are `Ok` the result is
`Err(XorBothTrue)` positioned at the original input `s`; if exactly one is
`Ok` that one is returned; if both are `Err`, `other` is returned. -/
def ParseState.xor (self other : ParseState α) (s : List Char) : ParseState α :=
  match self with
  | .Ok r rest =>
    match other with
    | .Ok _ _ => .Err .XorBothTrue s
    | .Err _ _ => .Ok r rest
  | .Err _ _ => other

/-- `ParseState::and` from parse.rs (via `and_then`): keep `other` if
`self` succeeded, otherwise propagate `self`'s error. -/
def ParseState.and (self : ParseState α) (other : ParseState β) : ParseState β :=
  match self with
  | .Ok _ _ => other
  | .Err e rest => .Err e rest

/-- `ParseState::finish` from parse.rs: errors pass through; `Ok` with
empty remaining input yields the value; `Ok` with non-empty remaining
input yields `RemainingUnparsed` carrying that remaining input. -/
def ParseState.finish : ParseState α → Except (ParseError × List Char) α
  | .Err e rest => .error (e, rest)
  | .Ok result [] => .ok result
  | .Ok _ (c :: rest) => .error (.RemainingUnparsed, c :: rest)

/-- Semantic `pure` (the `Pure` parser). -/
def pureP : List Char → POut Unit := fun s => pOk () s

/-- Semantic `fail` (the `Fail` parser): always `Generic`. -/
def failP (msg : List Char) : List Char → POut Empty := fun s => pErr (.Generic msg) s

/-- Semantic `chars` (the `Chars` parser): one character satisfying the
predicate; `EndOfString` on empty input, `UnexpectedChar` otherwise. -/
def charsP (f : Char → Bool) : List Char → POut Char := fun s =>
  match s with
  | [] => pErr .EndOfString []
  | c :: cs => if f c then pOk c cs else pErr (.UnexpectedChar c) (c :: cs)

/-- Semantic `char` (the `Char` parser): delegates to `chars` with an
equality predicate, as in the source. -/
def charP (c : Char) : List Char → POut Char := charsP (fun x => x == c)

/-- Semantic `char_any`. -/
def charAnyP : List Char → POut Char := charsP (fun _ => true)

/-- Semantic `char_map` (the `CharMap` parser). -/
def charMapP (f : Char → Option α) : List Char → POut α := fun s =>
  match s with
  | [] => pErr .EndOfString []
  | c :: cs =>
    match f c with
    | none => pErr (.UnexpectedChar c) (c :: cs)
    | some r => pOk r cs

/-- `str::strip_prefix` on character lists. -/
def stripTag : List Char → List Char → Option (List Char)
  | [], s => some s
  | _ :: _, [] => none
  | t :: ts, c :: cs => if c = t then stripTag ts cs else none

/-- Semantic `tag` (the `Tag` parser). -/
def tagP (t : List Char) : List Char → POut (List Char) := fun s =>
  match stripTag t s with
  | none => pErr (.UnmatchedTag t) s
  | some rest => pOk t rest

/-- Semantic `tag_replace` (the `TagReplace` parser). -/
def tagReplaceP (t : List Char) (v : α) : List Char → POut α := fun s =>
  match stripTag t s with
  | none => pErr (.UnmatchedTag t) s
  | some rest => pOk v rest

/-- Semantic `any` (the `Any` parser): consumes everything. -/
def anyP : List Char → POut (List Char) := fun s => pOk s []

/-- Semantic `drop` (the `Drop` parser). -/
def dropP : List Char → POut Unit := fun _ => pOk () []

/-- Semantic `or` (the `Or` combinator).  Rust evaluates both
`self.p.parse(s)` and `self.q.parse(s)` eagerly before combining them, so
divergence or panic of either side propagates. -/
def orP (p q : List Char → POut α) : List Char → POut α := fun s =>
  match p s with
  | .diverge => .diverge
  | .panicked => .panicked
  | .out ps =>
    match q s with
    | .diverge => .diverge
    | .panicked => .panicked
    | .out qs => .out (ps.or qs)

/-- Semantic `xor` (the `Xor` combinator); both sides evaluated eagerly,
combined by `ParseState::xor` with the original input. -/
def xorP (p q : List Char → POut α) : List Char → POut α := fun s =>
  match p s with
  | .diverge => .diverge
  | .panicked => .panicked
  | .out ps =>
    match q s with
    | .diverge => .diverge
    | .panicked => .panicked
    | .out qs => .out (ps.xor qs s)

/-- Semantic `and` (the `And` combinator): both run on the same input. -/
def andP (p : List Char → POut α) (q : List Char → POut β) : List Char → POut β := fun s =>
  match p s with
  | .diverge => .diverge
  | .panicked => .panicked
  | .out ps =>
    match q s with
    | .diverge => .diverge
    | .panicked => .panicked
    | .out qs => .out (ps.and qs)

/-- Semantic `and_then` (the `AndThen` combinator): run `p`, then `q` on
`p`'s remainder, pairing the results. -/
def andThenP (p : List Char → POut α) (q : List Char → POut β) :
    List Char → POut (α × β) := fun s =>
  match p s with
  | .diverge => .diverge
  | .panicked => .panicked
  | .out (.Err e rest) => pErr e rest
  | .out (.Ok rp restp) =>
    match q restp with
    | .diverge => .diverge
    | .panicked => .panicked
    | .out (.Err e rest) => pErr e rest
    | .out (.Ok rq rest) => pOk (rp, rq) rest

/-- Semantic `map` (the `Map` combinator). -/
def mapP (p : List Char → POut α) (f : α → β) : List Char → POut β := fun s =>
  match p s with
  | .diverge => .diverge
  | .panicked => .panicked
  | .out (.Err e rest) => pErr e rest
  | .out (.Ok r rest) => pOk (f r) rest

/-- Semantic `bind` (the `Bind` combinator): a fallible post-processing
function; its error is surfaced at `p`'s original start position `s`. -/
def bindP (p : List Char → POut α) (f : α → Except ParseError β) :
    List Char → POut β := fun s =>
  match p s with
  | .diverge => .diverge
  | .panicked => .panicked
  | .out (.Err e rest) => pErr e rest
  | .out (.Ok r rest) =>
    match f r with
    | .ok v => pOk v rest
    | .error e => pErr e s

/-- Semantic `ignore_and_then`. -/
def ignoreAndThenP (p : List Char → POut α) (q : List Char → POut β) :
    List Char → POut β :=
  mapP (andThenP p q) (fun r => r.2)

/-- Semantic `skip`. -/
def skipP (p : List Char → POut α) (q : List Char → POut β) : List Char → POut α :=
  mapP (andThenP p q) (fun r => r.1)

/-- Semantic `skip_tag`. -/
def skipTagP (p : List Char → POut α) (t : List Char) : List Char → POut α :=
  skipP p (tagP t)

/-- Semantic `pair` (the `Pair` combinator):
`p.and_then(tag(sep)).and_then(q).map(|((a, _), b)| (a, b))`. -/
def pairP (sep : List Char) (p : List Char → POut α) (q : List Char → POut β) :
    List Char → POut (α × β) :=
  mapP (andThenP (andThenP p (tagP sep)) q) (fun r => (r.1.1, r.2))

/-- Semantic `maybe` (the `Maybe` combinator). -/
def maybeP (p : List Char → POut α) : List Char → POut (Option α) := fun s =>
  match p s with
  | .diverge => .diverge
  | .panicked => .panicked
  | .out (.Err _ _) => pOk none s
  | .out (.Ok r rest) => pOk (some r) rest

/-- The `while let Ok { .. } = p.parse(s)` loop of the `Many` combinator,
with explicit fuel.  A parser that keeps succeeding without consuming
leaves the loop in an identical state forever, so if `s.length + 1`
iterations all succeed the Rust loop genuinely diverges; the out-of-fuel
branch therefore reports `diverge`. -/
def manyAux (p : List Char → POut α) : ℕ → List Char → List α → POut (List α)
  | 0, _, _ => .diverge
  | fuel + 1, s, acc =>
    match p s with
    | .diverge => .diverge
    | .panicked => .panicked
    | .out (.Err _ _) => pOk acc s
    | .out (.Ok r rest) => manyAux p fuel rest (acc ++ [r])

/-- Semantic `many` (the `Many` combinator). -/
def manyP (p : List Char → POut α) : List Char → POut (List α) := fun s =>
  manyAux p (s.length + 1) s []

/-- Semantic `many_at_least_one` (the `AtLeastOne` combinator):
`p.and_then(p.many()).map(cons)`. -/
def atLeastOneP (p : List Char → POut α) : List Char → POut (List α) :=
  mapP (andThenP p (manyP p)) (fun r => r.1 :: r.2)

/-- Semantic `many_chars` (the `ManyChars` parser):
`chars(f).many().map(collect)`. -/
def manyCharsP (f : Char → Bool) : List Char → POut (List Char) :=
  mapP (manyP (charsP f)) (fun v => v)

/-- The `for _ in 0..count` loop of the `Repeat` combinator. -/
def repeatAux (p : List Char → POut α) : ℕ → List Char → List α → POut (List α)
  | 0, s, acc => pOk acc s
  | n + 1, s, acc =>
    match p s with
    | .diverge => .diverge
    | .panicked => .panicked
    | .out (.Err e rest) => pErr e rest
    | .out (.Ok r rest) => repeatAux p n rest (acc ++ [r])

/-- Semantic `repeat` (the `Repeat` combinator). -/
def repeatP (p : List Char → POut α) (count : ℕ) : List Char → POut (List α) :=
  fun s => repeatAux p count s []

/-- Digit-string parsing standing in for Rust's `str::parse::<T>()` on the
filtered digit characters (`is_numeric` is embedded as `Char.isDigit`):
fails exactly on the empty string. -/
def parse_nat : List Char → Option ℕ
  | [] => none
  | ds => some (ds.foldl (fun n c => 10 * n + (c.toNat - 48)) 0)

/-- Semantic `number` / `number_with_seps` (the `Number` parser), value
type embedded as `Nat`:
`chars(|c| is_numeric(c) || seps.contains(c)).many().bind(parse digits)`. -/
def numberP (seps : List Char) : List Char → POut ℕ :=
  bindP (manyP (charsP (fun c => c.isDigit || seps.contains c)))
    (fun v =>
      let ds := v.filter Char.isDigit
      match parse_nat ds with
      | some n => .ok n
      | none => .error (.ParseIntError ds))

/-- Semantic `signed_number` / `signed_number_with_seps` (the
`SignedNumber` parser), value type embedded as `Int`:
`char('-').ignore_and_then(number).map(neg).or(char('+').maybe().ignore_and_then(number))`. -/
def signedNumberP (seps : List Char) : List Char → POut ℤ :=
  orP
    (mapP (ignoreAndThenP (charP '-') (mapP (numberP seps) (fun n => (n : ℤ))))
      (fun n => -n))
    (ignoreAndThenP (maybeP (charP '+')) (mapP (numberP seps) (fun n => (n : ℤ))))

/-- Semantic `list` (the `List` combinator):
`p.and_then(tag(sep).and_then(p).map(snd).many()).map(cons)`. -/
def listP (sep : List Char) (p : List Char → POut α) : List Char → POut (List α) :=
  mapP (andThenP p (manyP (mapP (andThenP (tagP sep) p) (fun r => r.2))))
    (fun r => r.1 :: r.2)

/-- Semantic `line` (the `Line` combinator): `p.skip_tag(terminator)`. -/
def lineP (terminator : List Char) (p : List Char → POut α) : List Char → POut α :=
  skipTagP p terminator

/-- Semantic `many_lines` (the `ManyLines` combinator):
`p.line(terminator).many()`. -/
def manyLinesP (terminator : List Char) (p : List Char → POut α) :
    List Char → POut (List α) :=
  manyP (lineP terminator p)

/-- The row parser used by `Grid`'s `impl Parser` for every row after the
first: `p.and_then(tag(sep).and_then(p).map(snd).repeat(n - 1)).map(cons)`. -/
def gridRowP (sep : List Char) (p : List Char → POut α) (n : ℕ) :
    List Char → POut (List α) :=
  mapP (andThenP p (repeatP (mapP (andThenP (tagP sep) p) (fun r => r.2)) (n - 1)))
    (fun r => r.1 :: r.2)

/-- Semantic `grid` (the `Grid` combinator from parse.rs): first row via
`p.list(seperator).skip_tag(terminator)`, remaining rows via
`many_lines` of a row parser `repeat`-ing exactly the first row's width,
then `Grid::of_vec_of_vecs(vec_of_vecs).unwrap()` — the `unwrap` (and the
`vec_of_vecs[0]` indexing inside `of_vec_of_vecs`) is the one potentially
panicking operation, modeled by `panicked`. -/
def gridCombP (sep term : List Char) (p : List Char → POut α) :
    List Char → POut (Grid α) := fun s =>
  match skipTagP (listP sep p) term s with
  | .diverge => .diverge
  | .panicked => .panicked
  | .out (.Err e rest) => pErr e rest
  | .out (.Ok row1 rest) =>
    match manyLinesP term (gridRowP sep p row1.length) rest with
    | .diverge => .diverge
    | .panicked => .panicked
    | .out (.Err e rest2) => pErr e rest2
    | .out (.Ok rows rest2) =>
      match Grid.of_vec_of_vecs (row1 :: rows) with
      | some g => pOk g rest2
      | none => .panicked

/-- The `Xor` combinator's `parse` for terminating parsers:
`self.p.parse(s).xor(self.q.parse(s), s)`. -/
def xorState (p q : List Char → ParseState α) : List Char → ParseState α := fun s =>
  (p s).xor (q s) s

/-- C5 (confirmed): `p.xor(q).parse(s)` succeeds iff exactly one of
`p.parse(s)`, `q.parse(s)` succeeds, in which case it returns the
succeeding parser's whole result; if both succeed it is
`Err(XorBothTrue)` with remaining input equal to the original input `s`. -/
theorem claim_C5 {α : Type} (p q : List Char → ParseState α) (s : List Char) :
    ((∃ r rest, xorState p q s = .Ok r rest) ↔
      (((∃ r rest, p s = .Ok r rest) ∧ ¬ (∃ r rest, q s = .Ok r rest)) ∨
        ((¬ ∃ r rest, p s = .Ok r rest) ∧ (∃ r rest, q s = .Ok r rest)))) ∧
    ((∃ r rest, p s = .Ok r rest) → (¬ ∃ r rest, q s = .Ok r rest) →
      xorState p q s = p s) ∧
    ((¬ ∃ r rest, p s = .Ok r rest) → (∃ r rest, q s = .Ok r rest) →
      xorState p q s = q s) ∧
    ((∃ r rest, p s = .Ok r rest) → (∃ r rest, q s = .Ok r rest) →
      xorState p q s = .Err .XorBothTrue s) := by
  unfold xorState
  cases hp : p s with
  | Ok rp restp =>
    cases hq : q s with
    | Ok rq restq =>
      refine ⟨?_, ?_, ?_, ?_⟩
      · simp only [ParseState.xor]
        constructor
        · rintro ⟨r, rest, h⟩; injection h
        · rintro (⟨_, hq'⟩ | ⟨hp', _⟩)
          · exact absurd ⟨rq, restq, rfl⟩ hq'
          · exact absurd ⟨rp, restp, rfl⟩ hp'
      · intro _ hq'; exact absurd ⟨rq, restq, rfl⟩ hq'
      · intro hp' _; exact absurd ⟨rp, restp, rfl⟩ hp'
      · intro _ _; rfl
    | Err eq rq =>
      refine ⟨?_, ?_, ?_, ?_⟩
      · simp only [ParseState.xor]
        constructor
        · intro _; exact Or.inl ⟨⟨rp, restp, rfl⟩, by rintro ⟨r, rest, h⟩; injection h⟩
        · intro _; exact ⟨rp, restp, rfl⟩
      · intro _ _; rfl
      · intro hp' _; exact absurd ⟨rp, restp, rfl⟩ hp'
      · rintro _ ⟨r, rest, h⟩; injection h
  | Err ep rp =>
    cases hq : q s with
    | Ok rq restq =>
      refine ⟨?_, ?_, ?_, ?_⟩
      · simp only [ParseState.xor]
        constructor
        · intro _; exact Or.inr ⟨by rintro ⟨r, rest, h⟩; injection h, ⟨rq, restq, rfl⟩⟩
        · intro _; exact ⟨rq, restq, rfl⟩
      · rintro ⟨r, rest, h⟩; injection h
      · intro _ _; rfl
      · rintro ⟨r, rest, h⟩; injection h
    | Err eq rq =>
      refine ⟨?_, ?_, ?_, ?_⟩
      · simp only [ParseState.xor]
        constructor
        · rintro ⟨r, rest, h⟩; injection h
        · rintro (⟨⟨r, rest, h⟩, _⟩ | ⟨_, ⟨r, rest, h⟩⟩) <;> injection h
      · rintro ⟨r, rest, h⟩; injection h
      · rintro _ ⟨r, rest, h⟩; injection h
      · rintro ⟨r, rest, h⟩; injection h

/-- C10 (confirmed): when both `p` and `q` fail on `s`, `p.xor(q).parse(s)`
is exactly `q`'s failure (error kind and remaining-input position); `p`'s
error is discarded. -/
theorem claim_C10 {α : Type} (p q : List Char → ParseState α) (s : List Char)
    (ep : ParseError) (rp : List Char) (eq' : ParseError) (rq : List Char)
    (hp : p s = .Err ep rp) (hq : q s = .Err eq' rq) :
    xorState p q s = .Err eq' rq := by
  unfold xorState
  rw [hp, hq]
  rfl

/-- Witness for `claim_C10`: two failing primitive character parsers; the
result carries the second one's error. -/
theorem claim_C10_witness :
    (fun s => match charsP (fun c => c == 'a') s with
      | .out st => st
      | _ => .Err .EndOfString []) ['b'] = ParseState.Err (.UnexpectedChar 'b') ['b'] ∧
    (fun s => match charsP (fun c => c == 'x') s with
      | .out st => st
      | _ => .Err .EndOfString []) [] = ParseState.Err .EndOfString [] ∧
    xorState
      (fun s => match charsP (fun c => c == 'a') s with
        | .out st => st
        | _ => .Err .EndOfString [])
      (fun s => match charsP (fun c => c == 'x') s with
        | .out st => st
        | _ => .Err .EndOfString []) ['b'] = ParseState.Err (.UnexpectedChar 'b') ['b'] :=
  ⟨by decide, by decide,
    claim_C10 _ _ ['b'] (.UnexpectedChar 'b') ['b'] (.UnexpectedChar 'b') ['b']
      (by decide) (by decide)⟩

/-- Witness for `claim_C5`: both parsers succeed on `['b']`, so the result
is `Err(XorBothTrue)` at the original input. -/
theorem claim_C5_witness :
    xorState (fun s => ParseState.Ok 'z' s) (fun s => ParseState.Ok 'w' s) ['b'] =
      ParseState.Err .XorBothTrue ['b'] :=
  (claim_C5 (fun s => ParseState.Ok 'z' s) (fun s => ParseState.Ok 'w' s) ['b']).2.2.2
    ⟨'z', ['b'], rfl⟩ ⟨'w', ['b'], rfl⟩

/-- The iteration structure of the `Many` loop: `items` is the list of
results collected by repeatedly running `p` from input `s`, and `rest` is
the remaining input at `p`'s first failure. -/
inductive ManyRun (p : List Char → POut α) : List Char → List α → List Char → Prop where
  | stop : ∀ s e rest, p s = pErr e rest → ManyRun p s [] s
  | step : ∀ s r rest items rest2, p s = pOk r rest → ManyRun p rest items rest2 →
      ManyRun p s (r :: items) rest2

theorem manyAux_run {α : Type} (p : List Char → POut α) :
    ∀ (fuel : ℕ) (s : List Char) (acc : List α) (st : ParseState (List α)),
      manyAux p fuel s acc = .out st →
      ∃ items rest, st = .Ok (acc ++ items) rest ∧ ManyRun p s items rest := by
  intro fuel
  induction fuel with
  | zero => intro s acc st h; exact absurd h (by simp [manyAux])
  | succ n ih =>
    intro s acc st h
    unfold manyAux at h
    cases hp : p s with
    | diverge => rw [hp] at h; exact absurd h (by simp)
    | panicked => rw [hp] at h; exact absurd h (by simp)
    | out ps =>
      cases ps with
      | Err e rest =>
        rw [hp] at h
        injection h with h
        exact ⟨[], s, by simp [← h], ManyRun.stop s e rest hp⟩
      | Ok r rest =>
        rw [hp] at h
        obtain ⟨items, rest2, hst, hrun⟩ := ih rest (acc ++ [r]) st h
        exact ⟨r :: items, rest2, by simp [hst], ManyRun.step s r rest items rest2 hp hrun⟩

theorem manyAux_term {α : Type} (p : List Char → POut α)
    (htot : ∀ s', p s' ≠ .diverge ∧ p s' ≠ .panicked)
    (hcons : ∀ s' r rest, p s' = pOk r rest → rest.length < s'.length) :
    ∀ (fuel : ℕ) (s : List Char) (acc : List α), s.length < fuel →
      ∃ items rest, manyAux p fuel s acc = pOk items rest := by
  intro fuel
  induction fuel with
  | zero => intro s acc h; omega
  | succ n ih =>
    intro s acc h
    unfold manyAux
    cases hp : p s with
    | diverge => exact absurd hp (htot s).1
    | panicked => exact absurd hp (htot s).2
    | out ps =>
      cases ps with
      | Err e rest => exact ⟨acc, s, rfl⟩
      | Ok r rest =>
        have := hcons s r rest hp
        exact ih rest (acc ++ [r]) (by omega)

/-- Support lemma for the C8 counterexample: with the non-consuming always
succeeding parser `pure`, the `Many` loop never leaves its initial state,
so every fuel bound is exhausted — the Rust loop genuinely diverges. -/
theorem manyAux_pure_diverges :
    ∀ (fuel : ℕ) (s : List Char) (acc : List Unit),
      manyAux pureP fuel s acc = .diverge := by
  intro fuel
  induction fuel with
  | zero => intro s acc; rfl
  | succ n ih => intro s acc; exact ih s (acc ++ [()])

/-- C8 counterexample: `many(pure).parse("")` does not return
`ParseState::Ok` — the Rust loop runs forever, since `pure` always
succeeds without consuming input (`manyAux_pure_diverges` shows the loop
state repeats at every fuel). -/
theorem claim_C8_counterexample : manyP pureP [] = POut.diverge :=
  manyAux_pure_diverges 1 [] []

/-- C8 (amended): whenever `many(p).parse(s)` returns at all, the result is
`ParseState::Ok` (never `Err`), collecting `p`'s successive results in
order and leaving the remaining input at `p`'s first failure; and it does
return whenever `p` always returns and consumes at least one character on
every success.  (The counterexample forces the consumption proviso: with a
non-consuming succeeding parser such as `pure` the loop never
terminates.) -/
theorem claim_C8_amended {α : Type} (p : List Char → POut α) (s : List Char) :
    (∀ st, manyP p s = .out st →
      ∃ items rest, st = .Ok items rest ∧ ManyRun p s items rest) ∧
    ((∀ s', p s' ≠ .diverge ∧ p s' ≠ .panicked) →
      (∀ s' r rest, p s' = pOk r rest → rest.length < s'.length) →
      ∃ items rest, manyP p s = pOk items rest ∧ ManyRun p s items rest) := by
  constructor
  · intro st h
    obtain ⟨items, rest, hst, hrun⟩ := manyAux_run p (s.length + 1) s [] st h
    exact ⟨items, rest, by simpa using hst, hrun⟩
  · intro htot hcons
    obtain ⟨items, rest, h⟩ := manyAux_term p htot hcons (s.length + 1) s [] (by omega)
    obtain ⟨items2, rest2, hst, hrun⟩ := manyAux_run p (s.length + 1) s [] _ h
    refine ⟨items, rest, h, ?_⟩
    injection hst with h1 h2
    simp only [List.nil_append] at h1
    rw [h1, h2]
    exact hrun

/-- Witness for `claim_C8_amended`: `many(chars(is_digit))` on `"12a"`
collects `['1', '2']` and stops at `"a"`. -/
theorem claim_C8_witness :
    ((∀ s', charsP Char.isDigit s' ≠ .diverge ∧ charsP Char.isDigit s' ≠ .panicked) ∧
      (∀ s' r rest, charsP Char.isDigit s' = pOk r rest → rest.length < s'.length)) ∧
    ((∀ st, manyP (charsP Char.isDigit) ("12a".toList) = .out st →
        ∃ items rest, st = .Ok items rest ∧
          ManyRun (charsP Char.isDigit) ("12a".toList) items rest) ∧
      ((∀ s', charsP Char.isDigit s' ≠ .diverge ∧ charsP Char.isDigit s' ≠ .panicked) →
        (∀ s' r rest, charsP Char.isDigit s' = pOk r rest → rest.length < s'.length) →
        ∃ items rest, manyP (charsP Char.isDigit) ("12a".toList) = pOk items rest ∧
          ManyRun (charsP Char.isDigit) ("12a".toList) items rest)) := by
  have htot : ∀ s', charsP Char.isDigit s' ≠ .diverge ∧ charsP Char.isDigit s' ≠ .panicked := by
    intro s'
    unfold charsP
    cases s' with
    | nil => exact ⟨by simp [pErr], by simp [pErr]⟩
    | cons c cs =>
      by_cases h : Char.isDigit c <;>
        simp [h, pOk, pErr]
  have hcons : ∀ s' r rest, charsP Char.isDigit s' = pOk r rest → rest.length < s'.length := by
    intro s' r rest h
    unfold charsP at h
    cases s' with
    | nil => exact absurd h (by simp [pErr, pOk])
    | cons c cs =>
      by_cases hd : Char.isDigit c
      · simp only [hd, if_true, pOk] at h
        injection h with h
        injection h with _ h2
        simp [← h2]
      · simp [hd, pErr, pOk] at h
  exact ⟨⟨htot, hcons⟩, claim_C8_amended (charsP Char.isDigit) ("12a".toList)⟩

/-- The combinator language of parse.rs as a deep grammar: one constructor
per primitive parser and combinator of the library (`rep` is the source's
`repeat`).  `denote` below maps each constructor to the semantic function
that embeds its `Parser::parse` implementation. -/
inductive Gram : Type → Type 1 where
  | pure : Gram Unit
  | fail : List Char → Gram Empty
  | chars : (Char → Bool) → Gram Char
  | char : Char → Gram Char
  | charAny : Gram Char
  | charMap : {α : Type} → (Char → Option α) → Gram α
  | tag : List Char → Gram (List Char)
  | tagReplace : {α : Type} → List Char → α → Gram α
  | any : Gram (List Char)
  | drop : Gram Unit
  | or : {α : Type} → Gram α → Gram α → Gram α
  | xor : {α : Type} → Gram α → Gram α → Gram α
  | and : {α β : Type} → Gram α → Gram β → Gram β
  | andThen : {α β : Type} → Gram α → Gram β → Gram (α × β)
  | ignoreAndThen : {α β : Type} → Gram α → Gram β → Gram β
  | skip : {α β : Type} → Gram α → Gram β → Gram α
  | map : {α β : Type} → Gram α → (α → β) → Gram β
  | bind : {α β : Type} → Gram α → (α → Except ParseError β) → Gram β
  | pair : {α β : Type} → List Char → Gram α → Gram β → Gram (α × β)
  | maybe : {α : Type} → Gram α → Gram (Option α)
  | many : {α : Type} → Gram α → Gram (List α)
  | atLeastOne : {α : Type} → Gram α → Gram (List α)
  | manyChars : (Char → Bool) → Gram (List Char)
  | rep : {α : Type} → Gram α → ℕ → Gram (List α)
  | number : List Char → Gram ℕ
  | signedNumber : List Char → Gram ℤ
  | list : {α : Type} → List Char → Gram α → Gram (List α)
  | line : {α : Type} → List Char → Gram α → Gram α
  | manyLines : {α : Type} → List Char → Gram α → Gram (List α)
  | grid : {α : Type} → List Char → List Char → Gram α → Gram (Grid α)

/-- Denotation of a grammar: the embedded `parse` function. -/
def denote : {α : Type} → Gram α → List Char → POut α
  | _, .pure => pureP
  | _, .fail msg => failP msg
  | _, .chars f => charsP f
  | _, .char c => charP c
  | _, .charAny => charAnyP
  | _, .charMap f => charMapP f
  | _, .tag t => tagP t
  | _, .tagReplace t v => tagReplaceP t v
  | _, .any => anyP
  | _, .drop => dropP
  | _, .or p q => orP (denote p) (denote q)
  | _, .xor p q => xorP (denote p) (denote q)
  | _, .and p q => andP (denote p) (denote q)
  | _, .andThen p q => andThenP (denote p) (denote q)
  | _, .ignoreAndThen p q => ignoreAndThenP (denote p) (denote q)
  | _, .skip p q => skipP (denote p) (denote q)
  | _, .map p f => mapP (denote p) f
  | _, .bind p f => bindP (denote p) f
  | _, .pair sep p q => pairP sep (denote p) (denote q)
  | _, .maybe p => maybeP (denote p)
  | _, .many p => manyP (denote p)
  | _, .atLeastOne p => atLeastOneP (denote p)
  | _, .manyChars f => manyCharsP f
  | _, .rep p n => repeatP (denote p) n
  | _, .number seps => numberP seps
  | _, .signedNumber seps => signedNumberP seps
  | _, .list sep p => listP sep (denote p)
  | _, .line term p => lineP term (denote p)
  | _, .manyLines term p => manyLinesP term (denote p)
  | _, .grid sep term p => gridCombP sep term (denote p)

/-- A grammar is bind-clean when no user-supplied `bind` post-processing
function fabricates the library-reserved `RemainingUnparsed` error. -/
def BindsClean : {α : Type} → Gram α → Prop
  | _, .bind p f => BindsClean p ∧ ∀ x, f x ≠ .error .RemainingUnparsed
  | _, .or p q => BindsClean p ∧ BindsClean q
  | _, .xor p q => BindsClean p ∧ BindsClean q
  | _, .and p q => BindsClean p ∧ BindsClean q
  | _, .andThen p q => BindsClean p ∧ BindsClean q
  | _, .ignoreAndThen p q => BindsClean p ∧ BindsClean q
  | _, .skip p q => BindsClean p ∧ BindsClean q
  | _, .pair _ p q => BindsClean p ∧ BindsClean q
  | _, .map p _ => BindsClean p
  | _, .maybe p => BindsClean p
  | _, .many p => BindsClean p
  | _, .atLeastOne p => BindsClean p
  | _, .rep p _ => BindsClean p
  | _, .list _ p => BindsClean p
  | _, .line _ p => BindsClean p
  | _, .manyLines _ p => BindsClean p
  | _, .grid _ _ p => BindsClean p
  | _, _ => True

theorem mapP_err {α β : Type} (p : List Char → POut α) (f : α → β) (s : List Char)
    (e : ParseError) (r : List Char) (h : mapP p f s = pErr e r) : p s = pErr e r := by
  unfold mapP at h
  split at h
  · exact absurd h (by simp [pErr])
  · exact absurd h (by simp [pErr])
  · rename_i e' rest' heq
    unfold pErr at h
    injection h with h
    injection h with h1 h2
    subst h1; subst h2
    exact heq
  · exact absurd h (by simp [pOk, pErr])

theorem andThenP_err {α β : Type} (p : List Char → POut α) (q : List Char → POut β)
    (s : List Char) (e : ParseError) (r : List Char) (h : andThenP p q s = pErr e r) :
    p s = pErr e r ∨ ∃ s', q s' = pErr e r := by
  unfold andThenP at h
  split at h
  · exact absurd h (by simp [pErr])
  · exact absurd h (by simp [pErr])
  · rename_i e' rest' heq
    unfold pErr at h
    injection h with h
    injection h with h1 h2
    subst h1; subst h2
    exact Or.inl heq
  · rename_i rp restp heq
    right
    refine ⟨restp, ?_⟩
    split at h
    · exact absurd h (by simp [pErr])
    · exact absurd h (by simp [pErr])
    · rename_i e' rest' heq2
      unfold pErr at h
      injection h with h
      injection h with h1 h2
      subst h1; subst h2
      exact heq2
    · exact absurd h (by simp [pOk, pErr])

theorem bindP_err {α β : Type} (p : List Char → POut α) (f : α → Except ParseError β)
    (s : List Char) (e : ParseError) (r : List Char) (h : bindP p f s = pErr e r) :
    p s = pErr e r ∨ ∃ x, f x = .error e := by
  unfold bindP at h
  split at h
  · exact absurd h (by simp [pErr])
  · exact absurd h (by simp [pErr])
  · rename_i e' rest' heq
    unfold pErr at h
    injection h with h
    injection h with h1 h2
    subst h1; subst h2
    exact Or.inl heq
  · rename_i rp restp heq
    right
    refine ⟨rp, ?_⟩
    split at h
    · rename_i v heq2
      exact absurd h (by simp [pOk, pErr])
    · rename_i e' heq2
      unfold pErr at h
      injection h with h
      injection h with h1 h2
      subst h1
      exact heq2

theorem orP_err {α : Type} (p q : List Char → POut α) (s : List Char)
    (e : ParseError) (r : List Char) (h : orP p q s = pErr e r) : q s = pErr e r := by
  unfold orP at h
  split at h
  · exact absurd h (by simp [pErr])
  · exact absurd h (by simp [pErr])
  · rename_i ps heq
    split at h
    · exact absurd h (by simp [pErr])
    · exact absurd h (by simp [pErr])
    · rename_i qs heq2
      cases ps with
      | Ok v r' => exact absurd h (by simp [ParseState.or, pOk, pErr])
      | Err e' r' =>
        unfold ParseState.or at h
        simp only at h
        rw [heq2, h]

theorem xorP_err {α : Type} (p q : List Char → POut α) (s : List Char)
    (e : ParseError) (r : List Char) (h : xorP p q s = pErr e r) :
    e = .XorBothTrue ∨ q s = pErr e r := by
  unfold xorP at h
  split at h
  · exact absurd h (by simp [pErr])
  · exact absurd h (by simp [pErr])
  · rename_i ps heq
    split at h
    · exact absurd h (by simp [pErr])
    · exact absurd h (by simp [pErr])
    · rename_i qs heq2
      cases ps with
      | Ok v r' =>
        cases qs with
        | Ok w r'' =>
          unfold ParseState.xor at h
          simp only [pErr] at h
          injection h with h
          injection h with h1 h2
          exact Or.inl h1.symm
        | Err e' r'' => exact absurd h (by simp [ParseState.xor, pErr])
      | Err e' r' =>
        unfold ParseState.xor at h
        simp only at h
        rw [heq2, h]
        exact Or.inr rfl

theorem andP_err {α β : Type} (p : List Char → POut α) (q : List Char → POut β)
    (s : List Char) (e : ParseError) (r : List Char) (h : andP p q s = pErr e r) :
    p s = pErr e r ∨ q s = pErr e r := by
  unfold andP at h
  split at h
  · exact absurd h (by simp [pErr])
  · exact absurd h (by simp [pErr])
  · rename_i ps heq
    split at h
    · exact absurd h (by simp [pErr])
    · exact absurd h (by simp [pErr])
    · rename_i qs heq2
      cases ps with
      | Ok v r' =>
        unfold ParseState.and at h
        simp only at h
        rw [heq2, h]
        exact Or.inr rfl
      | Err e' r' =>
        unfold ParseState.and at h
        simp only at h
        injection h with h
        injection h with h1 h2
        subst h1; subst h2
        exact Or.inl heq

theorem maybeP_noerr {α : Type} (p : List Char → POut α) (s : List Char)
    (e : ParseError) (r : List Char) : maybeP p s ≠ pErr e r := by
  unfold maybeP
  split <;> simp [pOk, pErr]

theorem manyP_noerr {α : Type} (p : List Char → POut α) (s : List Char)
    (e : ParseError) (r : List Char) : manyP p s ≠ pErr e r := by
  intro h
  obtain ⟨items, rest, hst, _⟩ := manyAux_run p (s.length + 1) s [] _ h
  exact absurd hst (by simp)

theorem repeatAux_err {α : Type} (p : List Char → POut α) :
    ∀ (n : ℕ) (s : List Char) (acc : List α) (e : ParseError) (r : List Char),
      repeatAux p n s acc = pErr e r → ∃ s', p s' = pErr e r := by
  intro n
  induction n with
  | zero => intro s acc e r h; exact absurd h (by simp [repeatAux, pOk, pErr])
  | succ m ih =>
    intro s acc e r h
    unfold repeatAux at h
    split at h
    · exact absurd h (by simp [pErr])
    · exact absurd h (by simp [pErr])
    · rename_i e' rest' heq
      unfold pErr at h
      injection h with h
      injection h with h1 h2
      subst h1; subst h2
      exact ⟨s, heq⟩
    · rename_i v rest heq
      exact ih rest (acc ++ [v]) e r h

theorem charsP_err_shape (f : Char → Bool) (s : List Char) (e : ParseError) (r : List Char)
    (h : charsP f s = pErr e r) : e = .EndOfString ∨ ∃ c, e = .UnexpectedChar c := by
  unfold charsP at h
  cases s with
  | nil =>
    unfold pErr at h
    injection h with h
    injection h with h1 h2
    exact Or.inl h1.symm
  | cons c cs =>
    dsimp only at h
    by_cases hf : f c
    · rw [if_pos hf] at h
      exact absurd h (by simp [pOk, pErr])
    · rw [if_neg hf] at h
      unfold pErr at h
      injection h with h
      injection h with h1 h2
      exact Or.inr ⟨c, h1.symm⟩

theorem charMapP_err_shape {α : Type} (f : Char → Option α) (s : List Char)
    (e : ParseError) (r : List Char) (h : charMapP f s = pErr e r) :
    e = .EndOfString ∨ ∃ c, e = .UnexpectedChar c := by
  unfold charMapP at h
  cases s with
  | nil =>
    unfold pErr at h
    injection h with h
    injection h with h1 h2
    exact Or.inl h1.symm
  | cons c cs =>
    dsimp only at h
    cases hf : f c with
    | none =>
      rw [hf] at h
      unfold pErr at h
      injection h with h
      injection h with h1 h2
      exact Or.inr ⟨c, h1.symm⟩
    | some v =>
      rw [hf] at h
      exact absurd h (by simp [pOk, pErr])

theorem tagP_err_shape (t s : List Char) (e : ParseError) (r : List Char)
    (h : tagP t s = pErr e r) : e = .UnmatchedTag t := by
  unfold tagP at h
  cases hst : stripTag t s with
  | none =>
    rw [hst] at h
    unfold pErr at h
    injection h with h
    injection h with h1 h2
    exact h1.symm
  | some rest =>
    rw [hst] at h
    exact absurd h (by simp [pOk, pErr])

theorem tagReplaceP_err_shape {α : Type} (t : List Char) (v : α) (s : List Char)
    (e : ParseError) (r : List Char) (h : tagReplaceP t v s = pErr e r) :
    e = .UnmatchedTag t := by
  unfold tagReplaceP at h
  cases hst : stripTag t s with
  | none =>
    rw [hst] at h
    unfold pErr at h
    injection h with h
    injection h with h1 h2
    exact h1.symm
  | some rest =>
    rw [hst] at h
    exact absurd h (by simp [pOk, pErr])

theorem numberP_err_shape (seps : List Char) (s : List Char) (e : ParseError) (r : List Char)
    (h : numberP seps s = pErr e r) : ∃ ds, e = .ParseIntError ds := by
  unfold numberP at h
  rcases bindP_err _ _ _ _ _ h with h2 | ⟨x, h2⟩
  · exact absurd h2 (manyP_noerr _ _ _ _)
  · simp only at h2
    cases hp : parse_nat (x.filter Char.isDigit) with
    | some n => rw [hp] at h2; exact absurd h2 (by simp)
    | none =>
      rw [hp] at h2
      injection h2 with h2
      exact ⟨x.filter Char.isDigit, h2.symm⟩

theorem listP_err {α : Type} (sep : List Char) (p : List Char → POut α) (s : List Char)
    (e : ParseError) (r : List Char) (h : listP sep p s = pErr e r) :
    ∃ s', p s' = pErr e r := by
  unfold listP at h
  have h2 := mapP_err _ _ _ _ _ h
  rcases andThenP_err _ _ _ _ _ h2 with h3 | ⟨s', h3⟩
  · exact ⟨s, h3⟩
  · exact absurd h3 (manyP_noerr _ _ _ _)

theorem skipTagP_err {α : Type} (p : List Char → POut α) (t : List Char) (s : List Char)
    (e : ParseError) (r : List Char) (h : skipTagP p t s = pErr e r) :
    (∃ s', p s' = pErr e r) ∨ e = .UnmatchedTag t := by
  unfold skipTagP skipP at h
  have h2 := mapP_err _ _ _ _ _ h
  rcases andThenP_err _ _ _ _ _ h2 with h3 | ⟨s', h3⟩
  · exact Or.inl ⟨s, h3⟩
  · exact Or.inr (tagP_err_shape _ _ _ _ h3)

theorem signedNumberP_err_shape (seps : List Char) (s : List Char) (e : ParseError)
    (r : List Char) (h : signedNumberP seps s = pErr e r) : ∃ ds, e = .ParseIntError ds := by
  unfold signedNumberP at h
  have h2 := orP_err _ _ _ _ _ h
  unfold ignoreAndThenP at h2
  have h3 := mapP_err _ _ _ _ _ h2
  rcases andThenP_err _ _ _ _ _ h3 with h4 | ⟨s', h4⟩
  · exact absurd h4 (maybeP_noerr _ _ _ _)
  · have h5 := mapP_err _ _ _ _ _ h4
    exact numberP_err_shape _ _ _ _ h5

/-- No parser of the combinator language produces `RemainingUnparsed`,
provided no user-supplied `bind` function fabricates it: the library
reserves that error for the top-level `finish()`. -/
theorem den_err_not_remaining {α : Type} (g : Gram α) :
    BindsClean g → ∀ (s : List Char) (e : ParseError) (rest : List Char),
      denote g s = pErr e rest → e ≠ .RemainingUnparsed := by
  induction g with
  | pure => intro _ s e r h; exact absurd h (by simp [denote, pureP, pOk, pErr])
  | fail msg =>
    intro _ s e r h
    simp only [denote, failP] at h
    unfold pErr at h
    injection h with h
    injection h with h1 _
    rw [← h1]
    simp
  | chars f =>
    intro _ s e r h
    rcases charsP_err_shape f s e r h with h1 | ⟨c, h1⟩ <;> simp [h1]
  | char c =>
    intro _ s e r h
    rcases charsP_err_shape _ s e r h with h1 | ⟨c', h1⟩ <;> simp [h1]
  | charAny =>
    intro _ s e r h
    rcases charsP_err_shape _ s e r h with h1 | ⟨c', h1⟩ <;> simp [h1]
  | charMap f =>
    intro _ s e r h
    rcases charMapP_err_shape f s e r h with h1 | ⟨c, h1⟩ <;> simp [h1]
  | tag t =>
    intro _ s e r h
    simp [tagP_err_shape t s e r h]
  | tagReplace t v =>
    intro _ s e r h
    simp [tagReplaceP_err_shape t v s e r h]
  | any => intro _ s e r h; exact absurd h (by simp [denote, anyP, pOk, pErr])
  | drop => intro _ s e r h; exact absurd h (by simp [denote, dropP, pOk, pErr])
  | or p q ihp ihq =>
    intro hc s e r h
    exact ihq hc.2 s e r (orP_err _ _ _ _ _ h)
  | xor p q ihp ihq =>
    intro hc s e r h
    rcases xorP_err _ _ _ _ _ h with h1 | h1
    · simp [h1]
    · exact ihq hc.2 s e r h1
  | and p q ihp ihq =>
    intro hc s e r h
    rcases andP_err _ _ _ _ _ h with h1 | h1
    · exact ihp hc.1 s e r h1
    · exact ihq hc.2 s e r h1
  | andThen p q ihp ihq =>
    intro hc s e r h
    rcases andThenP_err _ _ _ _ _ h with h1 | ⟨s', h1⟩
    · exact ihp hc.1 s e r h1
    · exact ihq hc.2 s' e r h1
  | ignoreAndThen p q ihp ihq =>
    intro hc s e r h
    have h2 := mapP_err _ _ _ _ _ h
    rcases andThenP_err _ _ _ _ _ h2 with h1 | ⟨s', h1⟩
    · exact ihp hc.1 s e r h1
    · exact ihq hc.2 s' e r h1
  | skip p q ihp ihq =>
    intro hc s e r h
    have h2 := mapP_err _ _ _ _ _ h
    rcases andThenP_err _ _ _ _ _ h2 with h1 | ⟨s', h1⟩
    · exact ihp hc.1 s e r h1
    · exact ihq hc.2 s' e r h1
  | map p f ihp =>
    intro hc s e r h
    exact ihp hc s e r (mapP_err _ _ _ _ _ h)
  | bind p f ihp =>
    intro hc s e r h
    rcases bindP_err _ _ _ _ _ h with h1 | ⟨x, h1⟩
    · exact ihp hc.1 s e r h1
    · intro hre
      rw [hre] at h1
      exact hc.2 x h1
  | pair sep p q ihp ihq =>
    intro hc s e r h
    have h2 := mapP_err _ _ _ _ _ h
    rcases andThenP_err _ _ _ _ _ h2 with h1 | ⟨s', h1⟩
    · rcases andThenP_err _ _ _ _ _ h1 with h3 | ⟨s'', h3⟩
      · exact ihp hc.1 s e r h3
      · simp [tagP_err_shape _ _ _ _ h3]
    · exact ihq hc.2 s' e r h1
  | maybe p ihp =>
    intro hc s e r h
    exact absurd h (maybeP_noerr _ _ _ _)
  | many p ihp =>
    intro hc s e r h
    exact absurd h (manyP_noerr _ _ _ _)
  | atLeastOne p ihp =>
    intro hc s e r h
    have h2 := mapP_err _ _ _ _ _ h
    rcases andThenP_err _ _ _ _ _ h2 with h1 | ⟨s', h1⟩
    · exact ihp hc s e r h1
    · exact absurd h1 (manyP_noerr _ _ _ _)
  | manyChars f =>
    intro _ s e r h
    exact absurd (mapP_err _ _ _ _ _ h) (manyP_noerr _ _ _ _)
  | rep p n ihp =>
    intro hc s e r h
    obtain ⟨s', h1⟩ := repeatAux_err _ _ _ _ _ _ h
    exact ihp hc s' e r h1
  | number seps =>
    intro _ s e r h
    obtain ⟨ds, h1⟩ := numberP_err_shape seps s e r h
    simp [h1]
  | signedNumber seps =>
    intro _ s e r h
    obtain ⟨ds, h1⟩ := signedNumberP_err_shape seps s e r h
    simp [h1]
  | list sep p ihp =>
    intro hc s e r h
    obtain ⟨s', h1⟩ := listP_err _ _ _ _ _ h
    exact ihp hc s' e r h1
  | line term p ihp =>
    intro hc s e r h
    rcases skipTagP_err _ _ _ _ _ h with ⟨s', h1⟩ | h1
    · exact ihp hc s' e r h1
    · simp [h1]
  | manyLines term p ihp =>
    intro hc s e r h
    exact absurd h (manyP_noerr _ _ _ _)
  | grid sep term p ihp =>
    intro hc s e r h
    rw [show denote (Gram.grid sep term p) = gridCombP sep term (denote p) from rfl] at h
    unfold gridCombP at h
    split at h
    · exact absurd h (by simp [pErr])
    · exact absurd h (by simp [pErr])
    · rename_i e' rest' heq
      unfold pErr at h
      injection h with h
      injection h with h1 h2
      rw [← h1]
      rcases skipTagP_err _ _ _ _ _ heq with ⟨s', hcase⟩ | hcase
      · obtain ⟨s'', h3⟩ := listP_err _ _ _ _ _ hcase
        exact ihp hc s'' e' rest' h3
      · simp [hcase]
    · rename_i row1 rest1 heq
      split at h
      · exact absurd h (by simp [pErr])
      · exact absurd h (by simp [pErr])
      · rename_i e' rest' heq2
        exact absurd heq2 (manyP_noerr _ _ _ _)
      · rename_i rows rest2 heq2
        split at h
        · exact absurd h (by simp [pOk, pErr])
        · exact absurd h (by simp [pErr])

/-- C4 (confirmed): `ParseState::finish()` returns `Ok(value)` exactly when
the state is `Ok` with empty remaining input; an `Ok` state with non-empty
remaining input yields `Err((RemainingUnparsed, rest))` carrying that
remaining input; and no primitive parser or combinator of the library ever
produces `RemainingUnparsed` itself (given that user-supplied `bind`
post-processing functions do not fabricate it) — it arises only from the
top-level `finish()`. -/
theorem claim_C4 :
    (∀ (α : Type) (st : ParseState α) (v : α),
      (st.finish = .ok v ↔ st = .Ok v []) ∧
      (∀ c rest, st = .Ok v (c :: rest) →
        st.finish = .error (.RemainingUnparsed, c :: rest))) ∧
    (∀ (α : Type) (g : Gram α), BindsClean g →
      ∀ s e rest, denote g s = pErr e rest → e ≠ .RemainingUnparsed) := by
  constructor
  · intro α st v
    constructor
    · cases st with
      | Err e r =>
        simp only [ParseState.finish]
        constructor
        · intro h; injection h
        · intro h; injection h
      | Ok r rest =>
        cases rest with
        | nil =>
          simp only [ParseState.finish]
          constructor
          · intro h; injection h with h; rw [h]
          · intro h; injection h with h1 _; rw [h1]
        | cons c cs =>
          simp only [ParseState.finish]
          constructor
          · intro h; injection h
          · intro h
            injection h with _ h2
            exact absurd h2 (by simp)
    · intro c rest h
      rw [h]
      rfl
  · intro α g hc
    exact den_err_not_remaining g hc

/-- Witness for `claim_C4`: the `finish` clauses at a concrete state, and
the grammar clause at the bind-clean grammar `number("")`. -/
theorem claim_C4_witness :
    ((ParseState.Ok 7 ['x']).finish = .error (.RemainingUnparsed, ['x'])) ∧
    BindsClean (Gram.number []) ∧
    (∀ s e rest, denote (Gram.number []) s = pErr e rest → e ≠ .RemainingUnparsed) :=
  ⟨((claim_C4.1 ℕ (ParseState.Ok 7 ['x']) 7).2 'x' [] rfl),
    trivial,
    claim_C4.2 ℕ (Gram.number []) trivial⟩

theorem mapP_panic {α β : Type} (p : List Char → POut α) (f : α → β) (s : List Char)
    (h : mapP p f s = .panicked) : p s = .panicked := by
  unfold mapP at h
  split at h
  · exact absurd h (by simp)
  · rename_i heq; exact heq
  · exact absurd h (by simp [pErr])
  · exact absurd h (by simp [pOk])

theorem andThenP_panic {α β : Type} (p : List Char → POut α) (q : List Char → POut β)
    (s : List Char) (h : andThenP p q s = .panicked) :
    p s = .panicked ∨ ∃ s', q s' = .panicked := by
  unfold andThenP at h
  split at h
  · exact absurd h (by simp)
  · rename_i heq; exact Or.inl heq
  · exact absurd h (by simp [pErr])
  · rename_i rp restp heq
    right
    refine ⟨restp, ?_⟩
    split at h
    · exact absurd h (by simp)
    · rename_i heq2; exact heq2
    · exact absurd h (by simp [pErr])
    · exact absurd h (by simp [pOk])

theorem bindP_panic {α β : Type} (p : List Char → POut α) (f : α → Except ParseError β)
    (s : List Char) (h : bindP p f s = .panicked) : p s = .panicked := by
  unfold bindP at h
  split at h
  · exact absurd h (by simp)
  · rename_i heq; exact heq
  · exact absurd h (by simp [pErr])
  · rename_i rp restp heq
    split at h
    · exact absurd h (by simp [pOk])
    · exact absurd h (by simp [pErr])

theorem orP_panic {α : Type} (p q : List Char → POut α) (s : List Char)
    (h : orP p q s = .panicked) : p s = .panicked ∨ q s = .panicked := by
  unfold orP at h
  split at h
  · exact absurd h (by simp)
  · rename_i heq; exact Or.inl heq
  · rename_i ps heq
    split at h
    · exact absurd h (by simp)
    · rename_i heq2; exact Or.inr heq2
    · rename_i qs heq2
      exact absurd h (by cases ps <;> simp [ParseState.or])

theorem xorP_panic {α : Type} (p q : List Char → POut α) (s : List Char)
    (h : xorP p q s = .panicked) : p s = .panicked ∨ q s = .panicked := by
  unfold xorP at h
  split at h
  · exact absurd h (by simp)
  · rename_i heq; exact Or.inl heq
  · rename_i ps heq
    split at h
    · exact absurd h (by simp)
    · rename_i heq2; exact Or.inr heq2
    · rename_i qs heq2
      exact absurd h (by cases ps <;> cases qs <;> simp [ParseState.xor])

theorem andP_panic {α β : Type} (p : List Char → POut α) (q : List Char → POut β)
    (s : List Char) (h : andP p q s = .panicked) :
    p s = .panicked ∨ q s = .panicked := by
  unfold andP at h
  split at h
  · exact absurd h (by simp)
  · rename_i heq; exact Or.inl heq
  · rename_i ps heq
    split at h
    · exact absurd h (by simp)
    · rename_i heq2; exact Or.inr heq2
    · rename_i qs heq2
      exact absurd h (by cases ps <;> cases qs <;> simp [ParseState.and])

theorem maybeP_panic {α : Type} (p : List Char → POut α) (s : List Char)
    (h : maybeP p s = .panicked) : p s = .panicked := by
  unfold maybeP at h
  split at h
  · exact absurd h (by simp)
  · rename_i heq; exact heq
  · exact absurd h (by simp [pOk])
  · exact absurd h (by simp [pOk])

theorem manyAux_panic {α : Type} (p : List Char → POut α) :
    ∀ (fuel : ℕ) (s : List Char) (acc : List α),
      manyAux p fuel s acc = .panicked → ∃ s', p s' = .panicked := by
  intro fuel
  induction fuel with
  | zero => intro s acc h; exact absurd h (by simp [manyAux])
  | succ n ih =>
    intro s acc h
    unfold manyAux at h
    split at h
    · exact absurd h (by simp)
    · rename_i heq; exact ⟨s, heq⟩
    · exact absurd h (by simp [pOk])
    · rename_i r rest heq
      exact ih rest (acc ++ [r]) h

theorem repeatAux_panic {α : Type} (p : List Char → POut α) :
    ∀ (n : ℕ) (s : List Char) (acc : List α),
      repeatAux p n s acc = .panicked → ∃ s', p s' = .panicked := by
  intro n
  induction n with
  | zero => intro s acc h; exact absurd h (by simp [repeatAux, pOk])
  | succ m ih =>
    intro s acc h
    unfold repeatAux at h
    split at h
    · exact absurd h (by simp)
    · rename_i heq; exact ⟨s, heq⟩
    · exact absurd h (by simp [pErr])
    · rename_i r rest heq
      exact ih rest (acc ++ [r]) h

theorem manyP_panic {α : Type} (p : List Char → POut α) (s : List Char)
    (h : manyP p s = .panicked) : ∃ s', p s' = .panicked :=
  manyAux_panic p (s.length + 1) s [] h

theorem charsP_nopanic (f : Char → Bool) (s : List Char) : charsP f s ≠ .panicked := by
  unfold charsP
  cases s with
  | nil => simp [pErr]
  | cons c cs =>
    dsimp only
    by_cases hf : f c <;> simp [hf, pOk, pErr]

theorem tagP_nopanic (t s : List Char) : tagP t s ≠ .panicked := by
  unfold tagP
  cases stripTag t s <;> simp [pOk, pErr]

theorem skipTagP_panic {α : Type} (p : List Char → POut α) (t : List Char) (s : List Char)
    (h : skipTagP p t s = .panicked) : ∃ s', p s' = .panicked := by
  unfold skipTagP skipP at h
  rcases andThenP_panic _ _ _ (mapP_panic _ _ _ h) with h1 | ⟨s', h1⟩
  · exact ⟨s, h1⟩
  · exact absurd h1 (tagP_nopanic _ _)

theorem listP_panic {α : Type} (sep : List Char) (p : List Char → POut α) (s : List Char)
    (h : listP sep p s = .panicked) : ∃ s', p s' = .panicked := by
  unfold listP at h
  rcases andThenP_panic _ _ _ (mapP_panic _ _ _ h) with h1 | ⟨s', h1⟩
  · exact ⟨s, h1⟩
  · obtain ⟨s'', h2⟩ := manyP_panic _ _ h1
    rcases andThenP_panic _ _ _ (mapP_panic _ _ _ h2) with h3 | ⟨s3, h3⟩
    · exact absurd h3 (tagP_nopanic _ _)
    · exact ⟨s3, h3⟩

theorem gridRowP_panic {α : Type} (sep : List Char) (p : List Char → POut α) (n : ℕ)
    (s : List Char) (h : gridRowP sep p n s = .panicked) : ∃ s', p s' = .panicked := by
  unfold gridRowP at h
  rcases andThenP_panic _ _ _ (mapP_panic _ _ _ h) with h1 | ⟨s', h1⟩
  · exact ⟨s, h1⟩
  · obtain ⟨s'', h2⟩ := repeatAux_panic _ _ _ _ h1
    rcases andThenP_panic _ _ _ (mapP_panic _ _ _ h2) with h3 | ⟨s3, h3⟩
    · exact absurd h3 (tagP_nopanic _ _)
    · exact ⟨s3, h3⟩

theorem numberP_panic (seps : List Char) (s : List Char)
    (h : numberP seps s = .panicked) : False := by
  unfold numberP at h
  obtain ⟨s', h2⟩ := manyP_panic _ _ (bindP_panic _ _ _ h)
  exact absurd h2 (charsP_nopanic _ _)

theorem signedNumberP_panic (seps : List Char) (s : List Char)
    (h : signedNumberP seps s = .panicked) : False := by
  unfold signedNumberP at h
  rcases orP_panic _ _ _ h with h1 | h1
  · rcases andThenP_panic _ _ _ (mapP_panic _ _ _ (mapP_panic _ _ _ h1)) with h2 | ⟨s', h2⟩
    · exact absurd h2 (charsP_nopanic _ _)
    · exact numberP_panic seps s' (mapP_panic _ _ _ h2)
  · rcases andThenP_panic _ _ _ (mapP_panic _ _ _ h1) with h2 | ⟨s', h2⟩
    · exact absurd (maybeP_panic _ _ h2) (charsP_nopanic _ _)
    · exact numberP_panic seps s' (mapP_panic _ _ _ h2)

theorem mapP_ok {α β : Type} (p : List Char → POut α) (f : α → β) (s : List Char)
    (w : β) (r : List Char) (h : mapP p f s = pOk w r) :
    ∃ v, p s = pOk v r ∧ w = f v := by
  unfold mapP at h
  split at h
  · exact absurd h (by simp [pOk])
  · exact absurd h (by simp [pOk])
  · exact absurd h (by simp [pErr, pOk])
  · rename_i v rest heq
    unfold pOk at h
    injection h with h
    injection h with h1 h2
    exact ⟨v, by rw [heq, h2]; rfl, h1.symm⟩

theorem andThenP_ok {α β : Type} (p : List Char → POut α) (q : List Char → POut β)
    (s : List Char) (w : α × β) (r : List Char) (h : andThenP p q s = pOk w r) :
    ∃ a b r1, w = (a, b) ∧ p s = pOk a r1 ∧ q r1 = pOk b r := by
  unfold andThenP at h
  split at h
  · exact absurd h (by simp [pOk])
  · exact absurd h (by simp [pOk])
  · exact absurd h (by simp [pErr, pOk])
  · rename_i rp restp heq
    split at h
    · exact absurd h (by simp [pOk])
    · exact absurd h (by simp [pOk])
    · exact absurd h (by simp [pErr, pOk])
    · rename_i rq rest heq2
      unfold pOk at h
      injection h with h
      injection h with h1 h2
      exact ⟨rp, rq, restp, h1.symm, heq, by rw [heq2, h2]; rfl⟩

theorem repeatAux_ok_len {α : Type} (p : List Char → POut α) :
    ∀ (n : ℕ) (s : List Char) (acc : List α) (xs : List α) (r : List Char),
      repeatAux p n s acc = pOk xs r → xs.length = acc.length + n := by
  intro n
  induction n with
  | zero =>
    intro s acc xs r h
    unfold repeatAux at h
    unfold pOk at h
    injection h with h
    injection h with h1 h2
    rw [← h1]
    simp
  | succ m ih =>
    intro s acc xs r h
    unfold repeatAux at h
    split at h
    · exact absurd h (by simp [pOk])
    · exact absurd h (by simp [pOk])
    · exact absurd h (by simp [pErr, pOk])
    · rename_i v rest heq
      have := ih rest (acc ++ [v]) xs r h
      simp at this
      omega

theorem ManyRun_mem {α : Type} (p : List Char → POut α) (s : List Char)
    (items : List α) (rest : List Char) (hrun : ManyRun p s items rest) :
    ∀ x ∈ items, ∃ s' r', p s' = pOk x r' := by
  induction hrun with
  | stop s e r hp => intro x hx; exact absurd hx (by simp)
  | step s r rest items rest2 hp hrun ih =>
    intro x hx
    rcases List.mem_cons.mp hx with h1 | h1
    · exact ⟨s, rest, by rw [hp, h1]⟩
    · exact ih x h1

theorem manyP_ok_items {α : Type} (p : List Char → POut α) (s : List Char)
    (items : List α) (rest : List Char) (h : manyP p s = pOk items rest) :
    ∀ x ∈ items, ∃ s' r', p s' = pOk x r' := by
  obtain ⟨items2, rest2, hst, hrun⟩ := manyAux_run p (s.length + 1) s [] _ h
  injection hst with h1 h2
  simp only [List.nil_append] at h1
  rw [h1]
  exact ManyRun_mem p s items2 rest2 hrun

theorem skipTagP_ok {α : Type} (p : List Char → POut α) (t : List Char) (s : List Char)
    (v : α) (r : List Char) (h : skipTagP p t s = pOk v r) :
    ∃ r1, p s = pOk v r1 := by
  unfold skipTagP skipP at h
  obtain ⟨w, hw, hv⟩ := mapP_ok _ _ _ _ _ h
  obtain ⟨a, b, r1, hab, hp, _⟩ := andThenP_ok _ _ _ _ _ hw
  refine ⟨r1, ?_⟩
  rw [hp, hv, hab]

theorem listP_ok_ne_nil {α : Type} (sep : List Char) (p : List Char → POut α)
    (s : List Char) (xs : List α) (r : List Char) (h : listP sep p s = pOk xs r) :
    xs ≠ [] := by
  unfold listP at h
  obtain ⟨v, _, hv⟩ := mapP_ok _ _ _ _ _ h
  rw [hv]
  simp

theorem gridRowP_ok_len {α : Type} (sep : List Char) (p : List Char → POut α) (n : ℕ)
    (s : List Char) (xs : List α) (r : List Char) (h : gridRowP sep p n s = pOk xs r) :
    xs.length = (n - 1) + 1 := by
  unfold gridRowP at h
  obtain ⟨v, hv, hxs⟩ := mapP_ok _ _ _ _ _ h
  obtain ⟨a, b, r1, hab, _, hq⟩ := andThenP_ok _ _ _ _ _ hv
  have hlen := repeatAux_ok_len _ _ _ _ _ _ hq
  rw [hxs, hab]
  simp only [List.length_cons]
  simp at hlen
  omega

theorem of_list_of_lists_aux_some {T : Type} (cols : ℕ) :
    ∀ (rows : List (List T)) (idx : ℕ) (acc : List T),
      acc.length = cols * idx → (∀ row ∈ rows, row.length = cols) →
      ∃ g, of_list_of_lists_aux cols rows idx acc = some g := by
  intro rows
  induction rows with
  | nil => intro idx acc _ _; exact ⟨acc, rfl⟩
  | cons row rest ih =>
    intro idx acc hacc hall
    unfold of_list_of_lists_aux
    have hrow : row.length = cols := hall row (by simp)
    have hlen : (acc ++ row).length = cols * (idx + 1) := by
      simp [hacc, hrow]; ring
    simp only [hlen, if_true]
    exact ih (idx + 1) (acc ++ row) hlen (fun r hr => hall r (by simp [hr]))

theorem of_vec_of_vecs_some {T : Type} (r0 : List T) (rows : List (List T))
    (hall : ∀ row ∈ rows, row.length = r0.length) :
    ∃ g, Grid.of_vec_of_vecs (r0 :: rows) = some g := by
  show ∃ g, (of_list_of_lists_aux r0.length (r0 :: rows) 0 []).map
    (fun g => (⟨⟨0, (r0 :: rows).length, 0, r0.length⟩, g⟩ : Grid T)) = some g
  obtain ⟨g, hg⟩ := of_list_of_lists_aux_some r0.length (r0 :: rows) 0 []
    (by simp)
    (by
      intro row hrow
      rcases List.mem_cons.mp hrow with h1 | h1
      · rw [h1]
      · exact hall row h1)
  rw [hg]
  exact ⟨_, rfl⟩

/-- No parser of the combinator language ever panics: in particular the
`grid` combinator's `of_vec_of_vecs(...).unwrap()` never fires its panic
branch, because the first row is non-empty and every later row is parsed
with `repeat(first_row_len - 1)` and therefore has exactly the first row's
length. -/
theorem den_no_panic {α : Type} (g : Gram α) : ∀ (s : List Char),
    denote g s ≠ .panicked := by
  induction g with
  | pure => intro s; simp [denote, pureP, pOk]
  | fail msg => intro s; simp [denote, failP, pErr]
  | chars f => exact fun s => charsP_nopanic f s
  | char c => exact fun s => charsP_nopanic _ s
  | charAny => exact fun s => charsP_nopanic _ s
  | charMap f =>
    intro s
    unfold denote charMapP
    cases s with
    | nil => simp [pErr]
    | cons c cs =>
      dsimp only
      cases f c <;> simp [pOk, pErr]
  | tag t => exact fun s => tagP_nopanic t s
  | tagReplace t v =>
    intro s
    unfold denote tagReplaceP
    cases stripTag t s <;> simp [pOk, pErr]
  | any => intro s; simp [denote, anyP, pOk]
  | drop => intro s; simp [denote, dropP, pOk]
  | or p q ihp ihq =>
    intro s h
    rcases orP_panic _ _ _ h with h1 | h1
    · exact ihp s h1
    · exact ihq s h1
  | xor p q ihp ihq =>
    intro s h
    rcases xorP_panic _ _ _ h with h1 | h1
    · exact ihp s h1
    · exact ihq s h1
  | and p q ihp ihq =>
    intro s h
    rcases andP_panic _ _ _ h with h1 | h1
    · exact ihp s h1
    · exact ihq s h1
  | andThen p q ihp ihq =>
    intro s h
    rcases andThenP_panic _ _ _ h with h1 | ⟨s', h1⟩
    · exact ihp s h1
    · exact ihq s' h1
  | ignoreAndThen p q ihp ihq =>
    intro s h
    rcases andThenP_panic _ _ _ (mapP_panic _ _ _ h) with h1 | ⟨s', h1⟩
    · exact ihp s h1
    · exact ihq s' h1
  | skip p q ihp ihq =>
    intro s h
    rcases andThenP_panic _ _ _ (mapP_panic _ _ _ h) with h1 | ⟨s', h1⟩
    · exact ihp s h1
    · exact ihq s' h1
  | map p f ihp =>
    intro s h
    exact ihp s (mapP_panic _ _ _ h)
  | bind p f ihp =>
    intro s h
    exact ihp s (bindP_panic _ _ _ h)
  | pair sep p q ihp ihq =>
    intro s h
    rcases andThenP_panic _ _ _ (mapP_panic _ _ _ h) with h1 | ⟨s', h1⟩
    · rcases andThenP_panic _ _ _ h1 with h2 | ⟨s'', h2⟩
      · exact ihp s h2
      · exact absurd h2 (tagP_nopanic _ _)
    · exact ihq s' h1
  | maybe p ihp =>
    intro s h
    exact ihp s (maybeP_panic _ _ h)
  | many p ihp =>
    intro s h
    obtain ⟨s', h1⟩ := manyP_panic _ _ h
    exact ihp s' h1
  | atLeastOne p ihp =>
    intro s h
    rcases andThenP_panic _ _ _ (mapP_panic _ _ _ h) with h1 | ⟨s', h1⟩
    · exact ihp s h1
    · obtain ⟨s'', h2⟩ := manyP_panic _ _ h1
      exact ihp s'' h2
  | manyChars f =>
    intro s h
    obtain ⟨s', h1⟩ := manyP_panic _ _ (mapP_panic _ _ _ h)
    exact absurd h1 (charsP_nopanic _ _)
  | rep p n ihp =>
    intro s h
    obtain ⟨s', h1⟩ := repeatAux_panic _ _ _ _ h
    exact ihp s' h1
  | number seps => exact fun s h => numberP_panic seps s h
  | signedNumber seps => exact fun s h => signedNumberP_panic seps s h
  | list sep p ihp =>
    intro s h
    obtain ⟨s', h1⟩ := listP_panic _ _ _ h
    exact ihp s' h1
  | line term p ihp =>
    intro s h
    obtain ⟨s', h1⟩ := skipTagP_panic _ _ _ h
    exact ihp s' h1
  | manyLines term p ihp =>
    intro s h
    obtain ⟨s', h1⟩ := manyP_panic _ _ h
    obtain ⟨s'', h2⟩ := skipTagP_panic _ _ _ h1
    exact ihp s'' h2
  | grid sep term p ihp =>
    intro s h
    rw [show denote (Gram.grid sep term p) = gridCombP sep term (denote p) from rfl] at h
    unfold gridCombP at h
    split at h
    · exact absurd h (by simp)
    · rename_i heq
      obtain ⟨s', h1⟩ := skipTagP_panic _ _ _ heq
      obtain ⟨s'', h2⟩ := listP_panic _ _ _ h1
      exact ihp s'' h2
    · exact absurd h (by simp [pErr])
    · rename_i row1 rest1 heq
      split at h
      · exact absurd h (by simp)
      · rename_i heq2
        obtain ⟨s', h1⟩ := manyP_panic _ _ heq2
        obtain ⟨s'', h2⟩ := skipTagP_panic _ _ _ h1
        obtain ⟨s3, h3⟩ := gridRowP_panic _ _ _ _ h2
        exact ihp s3 h3
      · exact absurd h (by simp [pErr])
      · rename_i rows rest2 heq2
        split at h
        · exact absurd h (by simp [pOk])
        · rename_i hvv
          have hall : ∀ row ∈ rows, row.length = row1.length := by
            intro row hrow
            obtain ⟨s', r', hline⟩ := manyP_ok_items _ _ _ _ heq2 row hrow
            obtain ⟨r1, hrowp⟩ := skipTagP_ok _ _ _ _ _ hline
            have hlen := gridRowP_ok_len _ _ _ _ _ _ hrowp
            obtain ⟨r2, hx⟩ := skipTagP_ok _ _ _ _ _ heq
            have hne := listP_ok_ne_nil _ _ _ _ _ hx
            have : 1 ≤ row1.length := by
              cases hr1 : row1 with
              | nil => exact absurd hr1 hne
              | cons a as => simp
            omega
          obtain ⟨g0, hg0⟩ := of_vec_of_vecs_some row1 rows hall
          rw [hg0] at hvv
          injection hvv

/-- C6 counterexample: on the row-length-mismatch input
`"abc\ndefg\nhi\n"` (the repository's own test input), the `grid`
combinator does not return a `ParseState::Err`: it returns `Ok` with a
1-by-3 grid and the mismatched rows `"defg\nhi\n"` left as remaining
input; the error surfaces only later, as `RemainingUnparsed` from
`finish()`. -/
theorem claim_C6_counterexample :
    denote (Gram.grid [] ['\n'] (Gram.chars Char.isAlpha)) ("abc\ndefg\nhi\n".toList) =
      pOk (⟨⟨0, 1, 0, 3⟩, ['a', 'b', 'c']⟩ : Grid Char) ("defg\nhi\n".toList) := by
  decide

/-- C6 (amended): for every cell parser and every input, the `grid`
combinator never panics — the `of_vec_of_vecs(...).unwrap()` is
unreachable in its failure branch because at least one row is collected
and every later row is parsed with `repeat` to exactly the first row's
length.  When a later row's token count disagrees with the first row's,
the parse returns `Ok` with the offending rows as remaining input, which
the top-level `finish()` then reports as an error (`RemainingUnparsed`),
as on the repository's own mismatch test input. -/
theorem claim_C6_amended :
    (∀ (α : Type) (g : Gram α) (sep term : List Char) (s : List Char),
      denote (Gram.grid sep term g) s ≠ .panicked) ∧
    (denote (Gram.grid [] ['\n'] (Gram.chars Char.isAlpha)) ("abc\ndefg\nhi\n".toList) =
      pOk (⟨⟨0, 1, 0, 3⟩, ['a', 'b', 'c']⟩ : Grid Char) ("defg\nhi\n".toList)) ∧
    ((ParseState.Ok (⟨⟨0, 1, 0, 3⟩, ['a', 'b', 'c']⟩ : Grid Char)
        ("defg\nhi\n".toList)).finish =
      .error (.RemainingUnparsed, "defg\nhi\n".toList)) :=
  ⟨fun α g sep term s => den_no_panic (Gram.grid sep term g) s, by decide, rfl⟩

/-! ## Ival algebra (src/interval.rs)

The source is generic over an `Ord` element type; the puzzle code uses it
at machine-integer types, embedded here as `ℤ`.  `BTreeSet` is embedded as
a duplicate-free list (`btInsert` skips elements already present); the
claims under study are about which intervals are stored, never about
iteration order. -/

/-- `IntervalBound<T>` from interval.rs. -/
inductive IntervalBound where
  | Inclusive : ℤ → IntervalBound
  | Exclusive : ℤ → IntervalBound
  deriving Repr, DecidableEq

/-- `IntervalBound::inclusive`. -/
def IntervalBound.inclusive : IntervalBound → Bool
  | .Inclusive _ => true
  | .Exclusive _ => false

/-- `IntervalBound::inner`. -/
def IntervalBound.inner : IntervalBound → ℤ
  | .Inclusive t => t
  | .Exclusive t => t

/-- `IntervalBound::invert`. -/
def IntervalBound.invert : IntervalBound → IntervalBound
  | .Inclusive t => .Exclusive t
  | .Exclusive t => .Inclusive t

/-- `IntervalBound::bounds_below`. -/
def IntervalBound.bounds_below : IntervalBound → ℤ → Prop
  | .Inclusive s, t => s ≤ t
  | .Exclusive s, t => s < t

/-- `IntervalBound::bounds_above`. -/
def IntervalBound.bounds_above : IntervalBound → ℤ → Prop
  | .Inclusive s, t => t ≤ s
  | .Exclusive s, t => t < s

instance (b : IntervalBound) (t : ℤ) : Decidable (b.bounds_below t) := by
  cases b <;> (unfold IntervalBound.bounds_below; infer_instance)

instance (b : IntervalBound) (t : ℤ) : Decidable (b.bounds_above t) := by
  cases b <;> (unfold IntervalBound.bounds_above; infer_instance)

/-- Rust's `Ord::cmp` on `ℤ`. -/
def cmpInt (a b : ℤ) : Ordering :=
  if a < b then .lt else if a = b then .eq else .gt

/-- `IntervalBound::compare_internal` (on a total order, `partial_cmp`
always returns `Some`, so the embedding returns the `Ordering` itself). -/
def IntervalBound.compare_internal (a b : IntervalBound) : Ordering :=
  cmpInt a.inner b.inner

/-- `IntervalBound::compare_as_lower_bound`. -/
def IntervalBound.compare_as_lower_bound (a b : IntervalBound) : Ordering :=
  match a.compare_internal b with
  | .eq =>
    match a, b with
    | .Inclusive _, .Exclusive _ => .lt
    | .Exclusive _, .Inclusive _ => .gt
    | _, _ => .eq
  | o => o

/-- `IntervalBound::compare_as_upper_bound`. -/
def IntervalBound.compare_as_upper_bound (a b : IntervalBound) : Ordering :=
  match a.compare_internal b with
  | .eq =>
    match a, b with
    | .Inclusive _, .Exclusive _ => .gt
    | .Exclusive _, .Inclusive _ => .lt
    | _, _ => .eq
  | o => o

/-- `Interval<T>` from interval.rs (renamed: `Interval` already exists in
Mathlib); the source's fields are named `begin` and `end` (`end` is
reserved in Lean, hence `bgn` / `fin`). -/
structure Ival where
  bgn : IntervalBound
  fin : IntervalBound
  deriving Repr, DecidableEq

/-- `Ival::contains`. -/
def Ival.contains (i : Ival) (t : ℤ) : Prop :=
  i.bgn.bounds_below t ∧ i.fin.bounds_above t

instance (i : Ival) (t : ℤ) : Decidable (i.contains t) := by
  unfold Ival.contains; infer_instance

/-- `Ival::non_empty`. -/
def Ival.non_empty (i : Ival) : Bool :=
  match i.bgn.compare_internal i.fin with
  | .lt => true
  | .eq => i.bgn.inclusive && i.fin.inclusive
  | .gt => false

/-- `Ival::intersection` from interval.rs, verbatim: the lower bound is
the larger by `compare_as_lower_bound`, but the upper bound is selected by
`compare_internal` (inner values only, preferring `self` on ties). -/
def Ival.intersection (self other : Ival) : Option Ival :=
  let bgn :=
    match self.bgn.compare_as_lower_bound other.bgn with
    | .lt => other.bgn
    | _ => self.bgn
  let fin :=
    match self.fin.compare_internal other.fin with
    | .gt => other.fin
    | _ => self.fin
  match bgn.compare_internal fin with
  | .lt => some ⟨bgn, fin⟩
  | .gt => none
  | .eq => if bgn.inclusive && fin.inclusive then some ⟨bgn, fin⟩ else none

/-- `Ival::intersects`. -/
def Ival.intersects (self other : Ival) : Bool :=
  (self.intersection other).isSome

/-- `DisjointIntervalUnion<T>` from interval.rs; the `BTreeSet` is
embedded as a duplicate-free list. -/
structure DisjointIntervalUnion where
  intervals : List Ival
  deriving Repr, DecidableEq

/-- `BTreeSet::insert`: no-op when the element is already present. -/
def btInsert (S : List Ival) (i : Ival) : List Ival :=
  if i ∈ S then S else S ++ [i]

/-- Collecting an iterator into a `BTreeSet`. -/
def btCollect (l : List Ival) : List Ival :=
  l.foldl btInsert []

/-- `DisjointIntervalUnion::empty`. -/
def DisjointIntervalUnion.empty : DisjointIntervalUnion := ⟨[]⟩

/-- `DisjointIntervalUnion::singleton`. -/
def DisjointIntervalUnion.singleton (i : Ival) : DisjointIntervalUnion := ⟨[i]⟩

/-- `DisjointIntervalUnion::union_interval_assign`: fold the new interval's
bounds with those of every stored interval intersecting it, drop the
intersecting ones, and insert the merged interval. -/
def union_interval_assign (u : DisjointIntervalUnion) (interval : Ival) :
    DisjointIntervalUnion :=
  let relevant := u.intervals.filter (fun i => i.intersects interval)
  let bgn := relevant.foldl
    (fun bound i =>
      if i.bgn.compare_as_lower_bound bound = .lt then i.bgn else bound)
    interval.bgn
  let fin := relevant.foldl
    (fun bound i =>
      if i.fin.compare_as_upper_bound bound = .gt then i.fin else bound)
    interval.fin
  let retained := u.intervals.filter (fun i => ¬ i.intersects interval)
  ⟨btInsert retained ⟨bgn, fin⟩⟩

/-- `DisjointIntervalUnion::from` (the source name `from` is reserved):
fold `union_interval_assign` over the iterator, starting from empty. -/
def DisjointIntervalUnion.fromList (l : List Ival) : DisjointIntervalUnion :=
  l.foldl union_interval_assign .empty

/-- `Ival::difference` from interval.rs. -/
def Ival.difference (self other : Ival) : DisjointIntervalUnion :=
  if ¬ self.intersects other then .singleton self
  else
    .fromList (([⟨self.bgn, other.bgn.invert⟩, ⟨other.fin.invert, self.fin⟩] :
      List Ival).filter (fun i => i.non_empty))

/-- `DisjointIntervalUnion::intersect_interval_assign`. -/
def intersect_interval_assign (u : DisjointIntervalUnion) (interval : Ival) :
    DisjointIntervalUnion :=
  ⟨btCollect (u.intervals.filterMap (fun i => i.intersection interval))⟩

/-- `DisjointIntervalUnion::subtract_interval_assign`. -/
def subtract_interval_assign (u : DisjointIntervalUnion) (interval : Ival) :
    DisjointIntervalUnion :=
  ⟨btCollect (u.intervals.flatMap (fun i => (i.difference interval).intervals))⟩

/-- The unions reachable from `empty` by the three mutating operations of
claim C3. -/
inductive ReachableUnion : DisjointIntervalUnion → Prop where
  | empty : ReachableUnion .empty
  | union : ∀ u i, ReachableUnion u → ReachableUnion (union_interval_assign u i)
  | inter : ∀ u i, ReachableUnion u → ReachableUnion (intersect_interval_assign u i)
  | subtract : ∀ u i, ReachableUnion u → ReachableUnion (subtract_interval_assign u i)

/-- Pointwise disjointness of two intervals. -/
def IntervalDisj (i j : Ival) : Prop :=
  ∀ t : ℤ, ¬ (i.contains t ∧ j.contains t)

/-- Lower-bound sort key: `Inclusive v` admits `v` itself while
`Exclusive v` starts just above it; doubling makes room for the half
step. -/
def lbKey : IntervalBound → ℤ
  | .Inclusive v => 2 * v
  | .Exclusive v => 2 * v + 1

/-- Upper-bound sort key. -/
def ubKey : IntervalBound → ℤ
  | .Inclusive v => 2 * v
  | .Exclusive v => 2 * v - 1

theorem bounds_below_key (a : IntervalBound) (t : ℤ) :
    a.bounds_below t ↔ lbKey a ≤ 2 * t := by
  cases a <;> simp only [IntervalBound.bounds_below, lbKey] <;> omega

theorem bounds_above_key (a : IntervalBound) (t : ℤ) :
    a.bounds_above t ↔ 2 * t ≤ ubKey a := by
  cases a <;> simp only [IntervalBound.bounds_above, ubKey] <;> omega

theorem contains_key (i : Ival) (t : ℤ) :
    i.contains t ↔ lbKey i.bgn ≤ 2 * t ∧ 2 * t ≤ ubKey i.fin := by
  unfold Ival.contains
  rw [bounds_below_key, bounds_above_key]

theorem lb_inner (a : IntervalBound) : 2 * a.inner ≤ lbKey a ∧ lbKey a ≤ 2 * a.inner + 1 := by
  cases a <;> simp only [IntervalBound.inner, lbKey] <;> omega

theorem ub_inner (a : IntervalBound) : 2 * a.inner - 1 ≤ ubKey a ∧ ubKey a ≤ 2 * a.inner := by
  cases a <;> simp only [IntervalBound.inner, ubKey] <;> omega

theorem invert_lb (b : IntervalBound) : lbKey b.invert = ubKey b + 1 := by
  cases b <;> simp only [IntervalBound.invert, lbKey, ubKey] <;> omega

theorem invert_ub (b : IntervalBound) : ubKey b.invert = lbKey b - 1 := by
  cases b <;> simp only [IntervalBound.invert, lbKey, ubKey] <;> omega

theorem cmpInt_of_lt {a b : ℤ} (h : a < b) : cmpInt a b = .lt := by
  unfold cmpInt; rw [if_pos h]

theorem cmpInt_of_eq {a b : ℤ} (h : a = b) : cmpInt a b = .eq := by
  unfold cmpInt; rw [if_neg (by omega), if_pos h]

theorem cmpInt_of_gt {a b : ℤ} (h : b < a) : cmpInt a b = .gt := by
  unfold cmpInt; rw [if_neg (by omega), if_neg (by omega)]

theorem cmpInt_lt_iff {a b : ℤ} : cmpInt a b = .lt ↔ a < b := by
  unfold cmpInt
  split_ifs with h1 h2 <;> simp_all <;> omega

theorem cmpInt_gt_iff {a b : ℤ} : cmpInt a b = .gt ↔ b < a := by
  unfold cmpInt
  split_ifs with h1 h2 <;> simp_all <;> omega

theorem cmp_lb_key (a b : IntervalBound) :
    a.compare_as_lower_bound b = cmpInt (lbKey a) (lbKey b) := by
  cases a <;> cases b <;>
    · rename_i v w
      simp only [IntervalBound.compare_as_lower_bound, IntervalBound.compare_internal,
        IntervalBound.inner, lbKey]
      rcases lt_trichotomy v w with h | h | h
      · rw [cmpInt_of_lt h, cmpInt_of_lt (by omega)]
      · subst h
        rw [cmpInt_of_eq rfl]
        first
          | rw [cmpInt_of_eq rfl]
          | rw [cmpInt_of_lt (by omega)]
          | rw [cmpInt_of_gt (by omega)]
      · rw [cmpInt_of_gt h, cmpInt_of_gt (by omega)]

theorem cmp_ub_key (a b : IntervalBound) :
    a.compare_as_upper_bound b = cmpInt (ubKey a) (ubKey b) := by
  cases a <;> cases b <;>
    · rename_i v w
      simp only [IntervalBound.compare_as_upper_bound, IntervalBound.compare_internal,
        IntervalBound.inner, ubKey]
      rcases lt_trichotomy v w with h | h | h
      · rw [cmpInt_of_lt h, cmpInt_of_lt (by omega)]
      · subst h
        rw [cmpInt_of_eq rfl]
        first
          | rw [cmpInt_of_eq rfl]
          | rw [cmpInt_of_lt (by omega)]
          | rw [cmpInt_of_gt (by omega)]
      · rw [cmpInt_of_gt h, cmpInt_of_gt (by omega)]

/-- The lower bound selected by `intersection` (the larger as a lower
bound, preferring `self` on exact ties). -/
def bgnSel (a b : IntervalBound) : IntervalBound :=
  match a.compare_as_lower_bound b with
  | .lt => b
  | _ => a

/-- The upper bound selected by `intersection` (inner-value comparison
only, preferring `self` on inner ties). -/
def endSel (a b : IntervalBound) : IntervalBound :=
  match a.compare_internal b with
  | .gt => b
  | _ => a

theorem bgnSel_key (a b : IntervalBound) :
    lbKey (bgnSel a b) = max (lbKey a) (lbKey b) := by
  unfold bgnSel
  rw [cmp_lb_key]
  rcases lt_trichotomy (lbKey a) (lbKey b) with h | h | h
  · rw [cmpInt_of_lt h]
    show lbKey b = max (lbKey a) (lbKey b)
    omega
  · rw [cmpInt_of_eq h]
    show lbKey a = max (lbKey a) (lbKey b)
    omega
  · rw [cmpInt_of_gt h]
    show lbKey a = max (lbKey a) (lbKey b)
    omega

theorem endSel_mem (a b : IntervalBound) : endSel a b = a ∨ endSel a b = b := by
  unfold endSel
  rcases h : a.compare_internal b with _ | _ | _
  · exact Or.inl rfl
  · exact Or.inl rfl
  · exact Or.inr rfl

theorem bgnSel_mem (a b : IntervalBound) : bgnSel a b = a ∨ bgnSel a b = b := by
  unfold bgnSel
  rcases h : a.compare_as_lower_bound b with _ | _ | _
  · exact Or.inr rfl
  · exact Or.inl rfl
  · exact Or.inl rfl

theorem endSel_key_le_left (a b : IntervalBound) : ubKey (endSel a b) ≤ ubKey a := by
  unfold endSel
  have hci : a.compare_internal b = cmpInt a.inner b.inner := rfl
  have ha := ub_inner a; have hb := ub_inner b
  rcases lt_trichotomy a.inner b.inner with h | h | h
  · rw [hci, cmpInt_of_lt h]
  · rw [hci, cmpInt_of_eq h]
  · rw [hci, cmpInt_of_gt h]
    show ubKey b ≤ ubKey a
    omega

theorem endSel_key_le_right (a b : IntervalBound) : ubKey (endSel a b) ≤ ubKey b + 1 := by
  unfold endSel
  have hci : a.compare_internal b = cmpInt a.inner b.inner := rfl
  have ha := ub_inner a; have hb := ub_inner b
  rcases lt_trichotomy a.inner b.inner with h | h | h
  · rw [hci, cmpInt_of_lt h]
    show ubKey a ≤ ubKey b + 1
    omega
  · rw [hci, cmpInt_of_eq h]
    show ubKey a ≤ ubKey b + 1
    omega
  · rw [hci, cmpInt_of_gt h]
    show ubKey b ≤ ubKey b + 1
    omega

theorem incl_key_iff (b f : IntervalBound) (h : b.inner = f.inner) :
    ((b.inclusive && f.inclusive) = true) ↔ lbKey b ≤ ubKey f := by
  cases b with
  | Inclusive v =>
    cases f with
    | Inclusive w =>
      simp only [IntervalBound.inner] at h
      simp only [IntervalBound.inclusive, lbKey, ubKey, Bool.and_self]
      constructor
      · intro _; omega
      · intro _; trivial
    | Exclusive w =>
      simp only [IntervalBound.inner] at h
      simp only [IntervalBound.inclusive, lbKey, ubKey, Bool.and_false]
      constructor
      · intro hx; exact absurd hx (by simp)
      · intro hx; omega
  | Exclusive v =>
    cases f with
    | Inclusive w =>
      simp only [IntervalBound.inner] at h
      simp only [IntervalBound.inclusive, lbKey, ubKey, Bool.false_and]
      constructor
      · intro hx; exact absurd hx (by simp)
      · intro hx; omega
    | Exclusive w =>
      simp only [IntervalBound.inner] at h
      simp only [IntervalBound.inclusive, lbKey, ubKey, Bool.false_and]
      constructor
      · intro hx; exact absurd hx (by simp)
      · intro hx; omega

theorem intersection_eq (i j : Ival) :
    i.intersection j =
      if lbKey (bgnSel i.bgn j.bgn) ≤ ubKey (endSel i.fin j.fin) then
        some ⟨bgnSel i.bgn j.bgn, endSel i.fin j.fin⟩
      else none := by
  show (match (bgnSel i.bgn j.bgn).compare_internal (endSel i.fin j.fin) with
    | Ordering.lt => some (⟨bgnSel i.bgn j.bgn, endSel i.fin j.fin⟩ : Ival)
    | Ordering.gt => none
    | Ordering.eq =>
      if (bgnSel i.bgn j.bgn).inclusive && (endSel i.fin j.fin).inclusive then
        some ⟨bgnSel i.bgn j.bgn, endSel i.fin j.fin⟩
      else none) = _
  generalize bgnSel i.bgn j.bgn = b
  generalize endSel i.fin j.fin = f
  have hci : b.compare_internal f = cmpInt b.inner f.inner := rfl
  rcases lt_trichotomy b.inner f.inner with h | h | h
  · have hb := lb_inner b; have hf := ub_inner f
    have hc : lbKey b ≤ ubKey f := by omega
    rw [hci, cmpInt_of_lt h, if_pos hc]
  · rw [hci, cmpInt_of_eq h]
    show (if (b.inclusive && f.inclusive) = true then
        some (⟨b, f⟩ : Ival) else none) = _
    exact if_congr (incl_key_iff b f h) rfl rfl
  · have hb := lb_inner b; have hf := ub_inner f
    have hc : ¬(lbKey b ≤ ubKey f) := by omega
    rw [hci, cmpInt_of_gt h, if_neg hc]

theorem IntervalDisj_symm : ∀ {i j : Ival}, IntervalDisj i j → IntervalDisj j i :=
  fun h t ⟨a, b⟩ => h t ⟨b, a⟩

/-- Two intervals sharing a point intersect (in the code's sense). -/
theorem overlap_intersects {i j : Ival} {t : ℤ} (hi : i.contains t) (hj : j.contains t) :
    i.intersects j = true := by
  unfold Ival.intersects
  rw [intersection_eq]
  rw [contains_key] at hi hj
  have hsel : ubKey (endSel i.fin j.fin) = ubKey i.fin ∨ ubKey (endSel i.fin j.fin) = ubKey j.fin := by
    rcases endSel_mem i.fin j.fin with h | h <;> rw [h]
    · exact Or.inl rfl
    · exact Or.inr rfl
  have hcond : lbKey (bgnSel i.bgn j.bgn) ≤ ubKey (endSel i.fin j.fin) := by
    rw [bgnSel_key]; omega
  rw [if_pos hcond]
  rfl

/-- The key inequalities implied by `intersects` (note the asymmetry
forced by the inner-value upper-bound selection). -/
theorem intersects_key {i j : Ival} (h : i.intersects j = true) :
    lbKey i.bgn ≤ ubKey j.fin + 1 ∧ lbKey j.bgn ≤ ubKey i.fin := by
  unfold Ival.intersects at h
  rw [intersection_eq] at h
  by_cases hc : lbKey (bgnSel i.bgn j.bgn) ≤ ubKey (endSel i.fin j.fin)
  · have h1 := bgnSel_key i.bgn j.bgn
    have h2 := endSel_key_le_left i.fin j.fin
    have h3 := endSel_key_le_right i.fin j.fin
    omega
  · rw [if_neg hc] at h
    exact absurd h (by simp)

/-- The lower-bound fold of `union_interval_assign`: the result is one of
the candidate bounds and has the minimum lower-bound key. -/
theorem foldl_lb_spec (l : List Ival) (b0 : IntervalBound) :
    (l.foldl
        (fun bound i =>
          if i.bgn.compare_as_lower_bound bound = .lt then i.bgn else bound) b0 = b0 ∨
      ∃ i ∈ l, l.foldl
        (fun bound i =>
          if i.bgn.compare_as_lower_bound bound = .lt then i.bgn else bound) b0 = i.bgn) ∧
    lbKey (l.foldl
        (fun bound i =>
          if i.bgn.compare_as_lower_bound bound = .lt then i.bgn else bound) b0) ≤ lbKey b0 ∧
    ∀ i ∈ l, lbKey (l.foldl
        (fun bound i =>
          if i.bgn.compare_as_lower_bound bound = .lt then i.bgn else bound) b0) ≤ lbKey i.bgn := by
  induction l generalizing b0 with
  | nil => exact ⟨Or.inl rfl, le_refl _, by simp⟩
  | cons a l ih =>
    simp only [List.foldl_cons]
    have hstep : (if a.bgn.compare_as_lower_bound b0 = .lt then a.bgn else b0) = a.bgn ∨
        (if a.bgn.compare_as_lower_bound b0 = .lt then a.bgn else b0) = b0 := by
      split
      · exact Or.inl rfl
      · exact Or.inr rfl
    have hkey : lbKey (if a.bgn.compare_as_lower_bound b0 = .lt then a.bgn else b0) ≤ lbKey b0 ∧
        lbKey (if a.bgn.compare_as_lower_bound b0 = .lt then a.bgn else b0) ≤ lbKey a.bgn := by
      rw [cmp_lb_key]
      rcases lt_trichotomy (lbKey a.bgn) (lbKey b0) with h | h | h
      · rw [if_pos (by rw [cmpInt_of_lt h])]; omega
      · rw [if_neg (by rw [cmpInt_of_eq h]; simp)]; omega
      · rw [if_neg (by rw [cmpInt_of_gt h]; simp)]; omega
    obtain ⟨ih1, ih2, ih3⟩ := ih (if a.bgn.compare_as_lower_bound b0 = .lt then a.bgn else b0)
    refine ⟨?_, ?_, ?_⟩
    · rcases ih1 with h | ⟨i, hi, he⟩
      · rcases hstep with hs | hs
        · rw [h, hs]; exact Or.inr ⟨a, List.mem_cons_self a l, rfl⟩
        · rw [h, hs]; exact Or.inl rfl
      · exact Or.inr ⟨i, List.mem_cons_of_mem a hi, he⟩
    · omega
    · intro i hi
      rcases List.mem_cons.mp hi with h | h
      · rw [h]; omega
      · exact ih3 i h

/-- The upper-bound fold of `union_interval_assign`: the result is one of
the candidate bounds and has the maximum upper-bound key. -/
theorem foldl_ub_spec (l : List Ival) (b0 : IntervalBound) :
    (l.foldl
        (fun bound i =>
          if i.fin.compare_as_upper_bound bound = .gt then i.fin else bound) b0 = b0 ∨
      ∃ i ∈ l, l.foldl
        (fun bound i =>
          if i.fin.compare_as_upper_bound bound = .gt then i.fin else bound) b0 = i.fin) ∧
    lbKey b0 ≤ lbKey b0 ∧
    ubKey b0 ≤ ubKey (l.foldl
        (fun bound i =>
          if i.fin.compare_as_upper_bound bound = .gt then i.fin else bound) b0) ∧
    ∀ i ∈ l, ubKey i.fin ≤ ubKey (l.foldl
        (fun bound i =>
          if i.fin.compare_as_upper_bound bound = .gt then i.fin else bound) b0) := by
  induction l generalizing b0 with
  | nil => exact ⟨Or.inl rfl, le_refl _, le_refl _, by simp⟩
  | cons a l ih =>
    simp only [List.foldl_cons]
    have hstep : (if a.fin.compare_as_upper_bound b0 = .gt then a.fin else b0) = a.fin ∨
        (if a.fin.compare_as_upper_bound b0 = .gt then a.fin else b0) = b0 := by
      split
      · exact Or.inl rfl
      · exact Or.inr rfl
    have hkey : ubKey b0 ≤ ubKey (if a.fin.compare_as_upper_bound b0 = .gt then a.fin else b0) ∧
        ubKey a.fin ≤ ubKey (if a.fin.compare_as_upper_bound b0 = .gt then a.fin else b0) := by
      rw [cmp_ub_key]
      rcases lt_trichotomy (ubKey a.fin) (ubKey b0) with h | h | h
      · rw [if_neg (by rw [cmpInt_of_lt h]; simp)]; omega
      · rw [if_neg (by rw [cmpInt_of_eq h]; simp)]; omega
      · rw [if_pos (by rw [cmpInt_of_gt h])]; omega
    obtain ⟨ih1, _, ih2, ih3⟩ := ih (if a.fin.compare_as_upper_bound b0 = .gt then a.fin else b0)
    refine ⟨?_, le_refl _, ?_, ?_⟩
    · rcases ih1 with h | ⟨i, hi, he⟩
      · rcases hstep with hs | hs
        · rw [h, hs]; exact Or.inr ⟨a, List.mem_cons_self a l, rfl⟩
        · rw [h, hs]; exact Or.inl rfl
      · exact Or.inr ⟨i, List.mem_cons_of_mem a hi, he⟩
    · omega
    · intro i hi
      rcases List.mem_cons.mp hi with h | h
      · rw [h]; omega
      · exact ih3 i h

theorem mem_btInsert {S : List Ival} {i a : Ival} (h : a ∈ btInsert S i) :
    a ∈ S ∨ a = i := by
  unfold btInsert at h
  split at h
  · exact Or.inl h
  · rcases List.mem_append.mp h with h1 | h1
    · exact Or.inl h1
    · exact Or.inr (List.mem_singleton.mp h1)

theorem btInsert_pairwise {S : List Ival} {i : Ival} {R : Ival → Ival → Prop}
    (hS : List.Pairwise R S) (hi : ∀ j ∈ S, R j i) :
    List.Pairwise R (btInsert S i) := by
  unfold btInsert
  split
  · exact hS
  · rw [List.pairwise_append]
    exact ⟨hS, List.pairwise_singleton R i, fun j hj b hb => by
      rw [List.mem_singleton.mp hb]; exact hi j hj⟩

theorem btInsert_nodup {S : List Ival} {i : Ival} (h : S.Nodup) :
    (btInsert S i).Nodup := by
  unfold btInsert
  split
  · exact h
  · rename_i hni
    rw [List.nodup_append]
    exact ⟨h, List.nodup_singleton i, fun a ha hb => hni (by rwa [List.mem_singleton.mp hb] at ha)⟩

theorem btCollect_aux (l : List Ival) :
    ∀ acc : List Ival, acc.Nodup →
      (l.foldl btInsert acc).Nodup ∧
      ∀ a ∈ l.foldl btInsert acc, a ∈ acc ∨ a ∈ l := by
  induction l with
  | nil => exact fun acc h => ⟨h, fun a ha => Or.inl ha⟩
  | cons x l ih =>
    intro acc hacc
    simp only [List.foldl_cons]
    obtain ⟨h1, h2⟩ := ih (btInsert acc x) (btInsert_nodup hacc)
    refine ⟨h1, fun a ha => ?_⟩
    rcases h2 a ha with h | h
    · rcases mem_btInsert h with h | h
      · exact Or.inl h
      · exact Or.inr (h ▸ List.mem_cons_self x l)
    · exact Or.inr (List.mem_cons_of_mem x h)

theorem btCollect_nodup (l : List Ival) : (btCollect l).Nodup :=
  (btCollect_aux l [] List.nodup_nil).1

theorem btCollect_mem {l : List Ival} {a : Ival} (h : a ∈ btCollect l) : a ∈ l := by
  rcases (btCollect_aux l [] List.nodup_nil).2 a h with h1 | h1
  · exact absurd h1 (List.not_mem_nil a)
  · exact h1

theorem pairwise_of_nodup_forall {l : List Ival} {R : Ival → Ival → Prop}
    (hn : l.Nodup) (h : ∀ a ∈ l, ∀ b ∈ l, a ≠ b → R a b) :
    List.Pairwise R l := by
  induction l with
  | nil => exact List.Pairwise.nil
  | cons x l ih =>
    rw [List.nodup_cons] at hn
    refine List.Pairwise.cons (fun b hb => ?_) (ih hn.2 (fun a ha b hb hne =>
      h a (List.mem_cons_of_mem x ha) b (List.mem_cons_of_mem x hb) hne))
    refine h x (List.mem_cons_self x l) b (List.mem_cons_of_mem x hb) (fun he => ?_)
    exact hn.1 (he ▸ hb)

/-- `union_interval_assign` keeps the stored intervals pairwise
pointwise-disjoint. -/
theorem union_preserves_disj (u : DisjointIntervalUnion) (interval : Ival)
    (hp : List.Pairwise IntervalDisj u.intervals) :
    List.Pairwise IntervalDisj (union_interval_assign u interval).intervals := by
  unfold union_interval_assign
  refine btInsert_pairwise (List.Pairwise.sublist (List.filter_sublist _) hp) ?_
  intro j hj
  have hj' := List.mem_filter.mp hj
  have hjmem : j ∈ u.intervals := hj'.1
  have hjnint : ¬ (j.intersects interval = true) := by
    have := hj'.2
    simp only [decide_eq_true_eq] at this
    exact this
  intro t ⟨hjt, hmt⟩
  rw [contains_key] at hmt
  obtain ⟨hb1, hb2, hb3⟩ := foldl_lb_spec (u.intervals.filter (fun i => i.intersects interval)) interval.bgn
  obtain ⟨hf1, _, hf2, hf3⟩ := foldl_ub_spec (u.intervals.filter (fun i => i.intersects interval)) interval.fin
  set relevant := u.intervals.filter (fun i => i.intersects interval) with hrel
  set mbgn := relevant.foldl
    (fun bound i =>
      if i.bgn.compare_as_lower_bound bound = .lt then i.bgn else bound) interval.bgn with hmbgn
  set mfin := relevant.foldl
    (fun bound i =>
      if i.fin.compare_as_upper_bound bound = .gt then i.fin else bound) interval.fin with hmfin
  have hmt1 : lbKey mbgn ≤ 2 * t := hmt.1
  have hmt2 : 2 * t ≤ ubKey mfin := hmt.2
  have hdisj_rel : ∀ r ∈ relevant, r.contains t → False := by
    intro r hr hrt
    have hr' := List.mem_filter.mp hr
    have hrint : r.intersects interval = true := by
      have := hr'.2
      simpa using this
    have hjr : j ≠ r := by
      intro he
      exact hjnint (he ▸ hrint)
    have : IntervalDisj j r := by
      refine List.Pairwise.forall (fun a b h => IntervalDisj_symm h) hp hjmem hr'.1 hjr
    exact this t ⟨hjt, hrt⟩
  by_cases hcase1 : lbKey interval.bgn ≤ 2 * t ∧ 2 * t ≤ ubKey interval.fin
  · exact hjnint (overlap_intersects hjt ((contains_key interval t).mpr hcase1))
  · rcases not_and_or.mp hcase1 with hlt | hgt
    · push_neg at hlt
      have hattain : ∃ r ∈ relevant, mbgn = r.bgn := by
        rcases hb1 with h | h
        · exfalso
          rw [h] at hmt1
          omega
        · exact h
      obtain ⟨r0, hr0, he0⟩ := hattain
      have hr0int : r0.intersects interval = true := by
        have := (List.mem_filter.mp hr0).2
        simpa using this
      have hkeys := intersects_key hr0int
      refine hdisj_rel r0 hr0 ?_
      rw [contains_key]
      constructor
      · rw [← he0]
        exact hmt1
      · omega
    · push_neg at hgt
      have hattain : ∃ r ∈ relevant, mfin = r.fin := by
        rcases hf1 with h | h
        · exfalso
          rw [h] at hmt2
          omega
        · exact h
      obtain ⟨r1, hr1, he1⟩ := hattain
      have hr1int : r1.intersects interval = true := by
        have := (List.mem_filter.mp hr1).2
        simpa using this
      have hkeys := intersects_key hr1int
      refine hdisj_rel r1 hr1 ?_
      rw [contains_key]
      constructor
      · omega
      · rw [← he1]
        exact hmt2

/-- A point of an intersection lies in the left operand. -/
theorem intersection_some_contains {i j r : Ival} (h : i.intersection j = some r)
    {t : ℤ} (ht : r.contains t) : i.contains t := by
  rw [intersection_eq] at h
  by_cases hc : lbKey (bgnSel i.bgn j.bgn) ≤ ubKey (endSel i.fin j.fin)
  · rw [if_pos hc] at h
    injection h with h
    subst h
    rw [contains_key] at ht ⊢
    have ht1 : lbKey (bgnSel i.bgn j.bgn) ≤ 2 * t := ht.1
    have ht2 : 2 * t ≤ ubKey (endSel i.fin j.fin) := ht.2
    have h1 := bgnSel_key i.bgn j.bgn
    have h2 := endSel_key_le_left i.fin j.fin
    constructor <;> omega
  · rw [if_neg hc] at h
    exact absurd h (by simp)

/-- `intersect_interval_assign` keeps the stored intervals pairwise
pointwise-disjoint. -/
theorem inter_preserves_disj (u : DisjointIntervalUnion) (interval : Ival)
    (hp : List.Pairwise IntervalDisj u.intervals) :
    List.Pairwise IntervalDisj (intersect_interval_assign u interval).intervals := by
  unfold intersect_interval_assign
  refine pairwise_of_nodup_forall (btCollect_nodup _) ?_
  intro p1 h1 p2 h2 hne
  obtain ⟨i1, hi1, he1⟩ := List.mem_filterMap.mp (btCollect_mem h1)
  obtain ⟨i2, hi2, he2⟩ := List.mem_filterMap.mp (btCollect_mem h2)
  by_cases hii : i1 = i2
  · exact absurd (Option.some_injective _ (he1.symm.trans (hii ▸ he2))) hne
  · have hd : IntervalDisj i1 i2 :=
      List.Pairwise.forall (fun a b h => IntervalDisj_symm h) hp hi1 hi2 hii
    intro t ⟨ht1, ht2⟩
    exact hd t ⟨intersection_some_contains he1 ht1, intersection_some_contains he2 ht2⟩

/-- Interval bounds within the given lower/upper key window. -/
def KeyBounded (L U : ℤ) (x : Ival) : Prop :=
  L ≤ lbKey x.bgn ∧ ubKey x.fin ≤ U

theorem union_bounded {L U : ℤ} (u : DisjointIntervalUnion) (interval : Ival)
    (hu : ∀ x ∈ u.intervals, KeyBounded L U x) (hi : KeyBounded L U interval) :
    ∀ y ∈ (union_interval_assign u interval).intervals, KeyBounded L U y := by
  unfold union_interval_assign
  intro y hy
  rcases mem_btInsert hy with h | h
  · exact hu y (List.mem_filter.mp h).1
  · obtain ⟨hb1, _, _⟩ := foldl_lb_spec (u.intervals.filter (fun i => i.intersects interval)) interval.bgn
    obtain ⟨hf1, _, _, _⟩ := foldl_ub_spec (u.intervals.filter (fun i => i.intersects interval)) interval.fin
    subst h
    constructor
    · show L ≤ lbKey (List.foldl _ _ _)
      rcases hb1 with h | ⟨i, hi', he⟩
      · rw [h]; exact hi.1
      · rw [he]; exact (hu i (List.mem_filter.mp hi').1).1
    · show ubKey (List.foldl _ _ _) ≤ U
      rcases hf1 with h | ⟨i, hi', he⟩
      · rw [h]; exact hi.2
      · rw [he]; exact (hu i (List.mem_filter.mp hi').1).2

theorem foldl_union_pairwise (l : List Ival) :
    ∀ u : DisjointIntervalUnion, List.Pairwise IntervalDisj u.intervals →
      List.Pairwise IntervalDisj (l.foldl union_interval_assign u).intervals := by
  induction l with
  | nil => exact fun u h => h
  | cons x l ih =>
    intro u h
    exact ih (union_interval_assign u x) (union_preserves_disj u x h)

theorem fromList_pairwise (l : List Ival) :
    List.Pairwise IntervalDisj (DisjointIntervalUnion.fromList l).intervals :=
  foldl_union_pairwise l .empty List.Pairwise.nil

theorem foldl_union_bounded {L U : ℤ} (l : List Ival) :
    ∀ u : DisjointIntervalUnion, (∀ x ∈ u.intervals, KeyBounded L U x) →
      (∀ x ∈ l, KeyBounded L U x) →
      ∀ y ∈ (l.foldl union_interval_assign u).intervals, KeyBounded L U y := by
  induction l with
  | nil => exact fun u hu _ => hu
  | cons x l ih =>
    intro u hu hl
    exact ih (union_interval_assign u x)
      (union_bounded u x hu (hl x (List.mem_cons_self x l)))
      (fun z hz => hl z (List.mem_cons_of_mem x hz))

theorem fromList_bounded {L U : ℤ} (l : List Ival) (hl : ∀ x ∈ l, KeyBounded L U x) :
    ∀ y ∈ (DisjointIntervalUnion.fromList l).intervals, KeyBounded L U y :=
  foldl_union_bounded l .empty (by intro x hx; exact absurd hx (List.not_mem_nil x)) hl

/-- The pieces of `difference` are pairwise pointwise-disjoint. -/
theorem difference_pairwise (i other : Ival) :
    List.Pairwise IntervalDisj (i.difference other).intervals := by
  unfold Ival.difference
  split
  · exact List.pairwise_singleton _ i
  · exact fromList_pairwise _

/-- Every point of a `difference` piece lies in the minuend. -/
theorem difference_contains {i other y : Ival} (hy : y ∈ (i.difference other).intervals)
    {t : ℤ} (ht : y.contains t) : i.contains t := by
  unfold Ival.difference at hy
  split at hy
  · rw [List.mem_singleton.mp hy] at ht
    exact ht
  · rename_i hint
    rw [not_not] at hint
    have hkeys := intersects_key hint
    have hbound : ∀ x ∈ (([⟨i.bgn, other.bgn.invert⟩, ⟨other.fin.invert, i.fin⟩] :
        List Ival).filter (fun p => p.non_empty)),
        KeyBounded (lbKey i.bgn) (ubKey i.fin) x := by
      intro x hx
      have hx' := (List.mem_filter.mp hx).1
      rcases List.mem_cons.mp hx' with h | h
      · subst h
        exact ⟨le_refl _, by rw [invert_ub]; omega⟩
      · rw [List.mem_singleton.mp h]
        exact ⟨by rw [invert_lb]; omega, le_refl _⟩
    have := fromList_bounded _ hbound y hy
    rw [contains_key] at ht ⊢
    obtain ⟨hL, hU⟩ := this
    constructor <;> omega

/-- `subtract_interval_assign` keeps the stored intervals pairwise
pointwise-disjoint. -/
theorem subtract_preserves_disj (u : DisjointIntervalUnion) (interval : Ival)
    (hp : List.Pairwise IntervalDisj u.intervals) :
    List.Pairwise IntervalDisj (subtract_interval_assign u interval).intervals := by
  unfold subtract_interval_assign
  refine pairwise_of_nodup_forall (btCollect_nodup _) ?_
  intro p1 h1 p2 h2 hne
  obtain ⟨i1, hi1, he1⟩ := List.mem_flatMap.mp (btCollect_mem h1)
  obtain ⟨i2, hi2, he2⟩ := List.mem_flatMap.mp (btCollect_mem h2)
  by_cases hii : i1 = i2
  · subst hii
    exact List.Pairwise.forall (fun a b h => IntervalDisj_symm h)
      (difference_pairwise i1 interval) he1 he2 hne
  · have hd : IntervalDisj i1 i2 :=
      List.Pairwise.forall (fun a b h => IntervalDisj_symm h) hp hi1 hi2 hii
    intro t ⟨ht1, ht2⟩
    exact hd t ⟨difference_contains he1 ht1, difference_contains he2 ht2⟩

/-- Claim C3, counterexample to the merging part: starting from the empty
union, inserting `[0,1)` and then `[1,2]` leaves TWO stored intervals —
the adjacent intervals are not merged into a single interval covering
`[0,2]`, because `intersection` of `[0,1)` and `[1,2]` compares the tied
endpoint `1` as non-mutual (`Exclusive` on one side) and returns `None`,
so `union_interval_assign` treats them as unrelated. -/
theorem claim_C3_counterexample :
    (union_interval_assign (union_interval_assign DisjointIntervalUnion.empty
        ⟨.Inclusive 0, .Exclusive 1⟩) ⟨.Inclusive 1, .Inclusive 2⟩).intervals =
      [⟨.Inclusive 0, .Exclusive 1⟩, ⟨.Inclusive 1, .Inclusive 2⟩] := by
  decide

/-- Claim C3, amended: every `DisjointIntervalUnion` reachable from the
empty union by `union_interval_assign`, `intersect_interval_assign` and
`subtract_interval_assign` has pairwise pointwise-disjoint stored
intervals (no point lies in two stored intervals); however, mutations do
NOT merge adjacent (touching but non-overlapping) intervals, so a union
of `[0,1)` and `[1,2]` is stored as two intervals. -/
theorem claim_C3_amended (u : DisjointIntervalUnion) (h : ReachableUnion u) :
    List.Pairwise IntervalDisj u.intervals := by
  induction h with
  | empty => exact List.Pairwise.nil
  | union u i _ ih => exact union_preserves_disj u i ih
  | inter u i _ ih => exact inter_preserves_disj u i ih
  | subtract u i _ ih => exact subtract_preserves_disj u i ih

theorem claim_C3_witness :
    ReachableUnion (subtract_interval_assign (union_interval_assign
      DisjointIntervalUnion.empty ⟨.Inclusive 0, .Inclusive 10⟩)
      ⟨.Inclusive 3, .Inclusive 5⟩) ∧
    List.Pairwise IntervalDisj (subtract_interval_assign (union_interval_assign
      DisjointIntervalUnion.empty ⟨.Inclusive 0, .Inclusive 10⟩)
      ⟨.Inclusive 3, .Inclusive 5⟩).intervals :=
  ⟨.subtract _ _ (.union _ _ .empty),
   claim_C3_amended _ (.subtract _ _ (.union _ _ .empty))⟩

/-! ## weighted_graph.rs — Dijkstra-style search (claims C1, C2)

The trait methods are instantiated at the `WeightedGraph` implementation
for `HashMap<K, HashMap<K, C>>` with `Key = ℕ` and `Cost = ℕ` (the claims
quantify over graphs with non-negative costs; `u64`-style counts are
embedded as `ℕ`, idealizing `u64` arithmetic, which only diverges beyond
`2^64` tied routes). `HashMap`s are embedded as association lists with
first-match lookup; `BinaryHeap<ReverseWeightedKey<...>>` is a list of
entries popped at the leftmost entry of minimal weight (the `Ord` instance
on `ReverseWeightedKey` compares weights only, so ties are broken by an
unspecified heap order; the embedding fixes one legal order). For the
plain `WeightedGraph` blanket impl, `cost_to_weight` is the identity, so
the stored weight always equals the entry's cost and is not duplicated.
`while let Some(...) = to_search.pop()` is fuel-indexed; `none` marks
fuel exhaustion. -/

/-- `HashMap::get` on an association list: first match. -/
def lookupL {κ α : Type} [DecidableEq κ] : List (κ × α) → κ → Option α
  | [], _ => none
  | (k, v) :: rest, key => if k = key then some v else lookupL rest key

/-- In-place modification of an existing entry (`Entry::and_modify`). -/
def updateL {κ α : Type} [DecidableEq κ] : List (κ × α) → κ → α → List (κ × α)
  | [], _, _ => []
  | (k, v) :: rest, key, nv =>
    if k = key then (k, nv) :: rest else (k, v) :: updateL rest key nv

/-- `HashMap<K, HashMap<K, C>>` as a weighted graph. -/
abbrev WGraph : Type := List (ℕ × List (ℕ × ℕ))

/-- `WeightedGraph::cost` for the `HashMap` instance:
`Some(self.get(a)?.get(b)?.clone())`. -/
def WG.cost (g : WGraph) (a b : ℕ) : Option ℕ :=
  (lookupL g a).bind (fun m => lookupL m b)

/-- `WeightedGraph::adjacent` for the `HashMap` instance: the keys of the
inner map. -/
def WG.adjacent (g : WGraph) (k : ℕ) : Option (List ℕ) :=
  (lookupL g k).map (fun m => m.map Prod.fst)

/-- A heap entry `(key, from, cost)`; the weight equals the cost for the
plain `WeightedGraph` blanket impl. -/
abbrev SEntry : Type := ℕ × Option ℕ × ℕ

/-- `BinaryHeap::pop` on the list embedding: remove the leftmost entry of
minimal weight. -/
def popMin : List SEntry → Option (SEntry × List SEntry)
  | [] => none
  | e :: rest =>
    match popMin rest with
    | none => some (e, [])
    | some (m, rest') => if e.2.2 ≤ m.2.2 then some (e, rest) else some (m, e :: rest')

/-- `HashSet::insert` on a list embedding. -/
def listInsert (fs : List ℕ) (f : ℕ) : List ℕ :=
  if f ∈ fs then fs else fs ++ [f]

/-- `ShortestPathPrecedentMap<K, C>`: key ↦ (min cost, precedent set). -/
abbrev PMap : Type := List (ℕ × (ℕ × List ℕ))

/-- `ShortestPathPrecedentMap::maybe_add_paths`: records nothing when
`from` is `None`. -/
def maybe_add_paths (M : PMap) (from? : Option ℕ) (dst cost : ℕ) : PMap :=
  match from? with
  | none => M
  | some f =>
    match lookupL M dst with
    | none => M ++ [(dst, (cost, [f]))]
    | some (mc, fs) => if mc = cost then updateL M dst (mc, listInsert fs f) else M

/-- The `while let` search loop of
`WeightedGraphWithHeuristic::shortest_paths_to_many`, fuel-indexed. -/
def spLoop (g : WGraph) (early : ℕ → ℕ → PMap → Bool) :
    ℕ → List SEntry → PMap → Option (PMap × Option ℕ)
  | 0, _, _ => none
  | fuel + 1, H, R =>
    match popMin H with
    | none => some (R, none)
    | some ((key, from?, cost), H') =>
      let H2 := if (lookupL R key).isSome then H'
        else match WG.adjacent g key with
          | none => H'
          | some adj => H' ++ adj.filterMap
              (fun ak => (WG.cost g key ak).map (fun w => (ak, some key, cost + w)))
      let R' := maybe_add_paths R from? key cost
      if early key cost R' then some (R', some key) else spLoop g early fuel H2 R'

/-- `WeightedGraphWithHeuristic::shortest_paths_to_many`. -/
def shortest_paths_to_many (g : WGraph) (start : ℕ)
    (early : ℕ → ℕ → PMap → Bool) (zero_distance : ℕ) (fuel : ℕ) :
    Option (PMap × Option ℕ) :=
  spLoop g early fuel [(start, none, zero_distance)] []

/-- `ShortestPathPrecedentMap::into_shortest_costs`. -/
def into_shortest_costs (M : PMap) : List (ℕ × ℕ) :=
  M.map (fun kp => (kp.1, kp.2.1))

/-- `WeightedGraphWithHeuristic::shortest_distance_to_all`. -/
def shortest_distance_to_all (g : WGraph) (start zero_distance fuel : ℕ) :
    Option (List (ℕ × ℕ)) :=
  (shortest_paths_to_many g start (fun _ _ _ => false) zero_distance fuel).map
    (fun rp => into_shortest_costs rp.1)

/-- `ShortestPathPrecedentMapWithCount<K, C>`:
key ↦ (min cost, precedent ↦ route count). -/
abbrev RCMap : Type := List (ℕ × (ℕ × List (Option ℕ × ℕ)))

/-- `from_map.entry(from).and_modify(|n| *n += count).or_insert(count)`. -/
def bumpCount (fm : List (Option ℕ × ℕ)) (from? : Option ℕ) (count : ℕ) :
    List (Option ℕ × ℕ) :=
  match lookupL fm from? with
  | none => fm ++ [(from?, count)]
  | some n => updateL fm from? (n + count)

/-- `ShortestPathPrecedentMapWithCount::maybe_add_paths`: records the
`None` precedent as well. -/
def maybe_add_paths_count (M : RCMap) (from? : Option ℕ) (dst cost count : ℕ) : RCMap :=
  match lookupL M dst with
  | none => M ++ [(dst, (cost, [(from?, count)]))]
  | some (mc, fm) => if mc = cost then updateL M dst (mc, bumpCount fm from? count) else M

/-- `ShortestPathPrecedentMapWithCount::shortest_route_count`: the sum of
the recorded per-precedent counts. -/
def shortest_route_count (M : RCMap) (dst : ℕ) : Option ℕ :=
  (lookupL M dst).map (fun p => (p.2.map Prod.snd).sum)

/-- `ShortestPathPrecedentMapWithCount::shortest_cost`. -/
def rc_shortest_cost (M : RCMap) (key : ℕ) : Option ℕ :=
  (lookupL M key).map (fun p => p.1)

/-- The `while let` loop of
`WeightedGraphWithHeuristic::shortest_paths_to_many_with_count`. -/
def spcLoop (g : WGraph) (early : ℕ → ℕ → RCMap → Bool) :
    ℕ → List SEntry → RCMap → Option (RCMap × Option ℕ)
  | 0, _, _ => none
  | fuel + 1, H, R =>
    match popMin H with
    | none => some (R, none)
    | some ((key, from?, cost), H') =>
      let route_count := ((from?.bind (fun f => shortest_route_count R f)).getD 1)
      let H2 := if (lookupL R key).isSome then H'
        else match WG.adjacent g key with
          | none => H'
          | some adj => H' ++ adj.filterMap
              (fun ak => (WG.cost g key ak).map (fun w => (ak, some key, cost + w)))
      let R' := maybe_add_paths_count R from? key cost route_count
      if early key cost R' then some (R', some key) else spcLoop g early fuel H2 R'

/-- `WeightedGraphWithHeuristic::shortest_paths_to_many_with_count`. -/
def shortest_paths_to_many_with_count (g : WGraph) (start : ℕ)
    (early : ℕ → ℕ → RCMap → Bool) (zero_distance : ℕ) (fuel : ℕ) :
    Option (RCMap × Option ℕ) :=
  spcLoop g early fuel [(start, none, zero_distance)] []

/-- The early-finish closure of
`WeightedGraphWithHeuristic::shortest_path_count`. -/
def spcEarly (e : ℕ) (key cost : ℕ) (R : RCMap) : Bool :=
  key == e && (((rc_shortest_cost R key).map (fun c => decide (c < cost))).getD false)

/-- `WeightedGraphWithHeuristic::shortest_path_count` (the outer `Option`
is fuel exhaustion of the embedded loop). -/
def shortest_path_count (g : WGraph) (start e zero_distance fuel : ℕ) :
    Option (Option ℕ) :=
  (shortest_paths_to_many_with_count g start (spcEarly e) zero_distance fuel).map
    (fun rp => shortest_route_count rp.1 e)

/-! ### Walks and minimum costs (specification side) -/

/-- Total cost of the walk that starts at `s` and visits the vertices of
`p` in order; `none` when some step is not an edge. -/
def chainCost (g : WGraph) : ℕ → List ℕ → Option ℕ
  | _, [] => some 0
  | s, v :: rest =>
    match WG.cost g s v with
    | none => none
    | some w => (chainCost g v rest).map (fun c => w + c)

/-- Final vertex of the walk `s :: p`. -/
def chainEnd : ℕ → List ℕ → ℕ
  | s, [] => s
  | _, v :: rest => chainEnd v rest

/-- There is a (possibly empty) walk from `s` to `k` of total cost `c`. -/
def AWalk (g : WGraph) (s k c : ℕ) : Prop :=
  ∃ p : List ℕ, chainCost g s p = some c ∧ chainEnd s p = k

/-- There is a nonempty walk from `s` to `k` of total cost `c`. -/
def NWalk (g : WGraph) (s k c : ℕ) : Prop :=
  ∃ p : List ℕ, p ≠ [] ∧ chainCost g s p = some c ∧ chainEnd s p = k

/-- `d` is the minimum cost over nonempty walks from `s` to `k`. -/
def IsMinNWalk (g : WGraph) (s k d : ℕ) : Prop :=
  NWalk g s k d ∧ ∀ c, NWalk g s k c → d ≤ c

theorem chainEnd_concat (v : ℕ) : ∀ (p : List ℕ) (s : ℕ), chainEnd s (p ++ [v]) = v := by
  intro p
  induction p with
  | nil => intro s; rfl
  | cons x rest ih => intro s; exact ih x

theorem chainCost_concat (g : WGraph) (v : ℕ) :
    ∀ (p : List ℕ) (s : ℕ),
      chainCost g s (p ++ [v]) =
        (chainCost g s p).bind
          (fun c => (WG.cost g (chainEnd s p) v).map (fun w => c + w)) := by
  intro p
  induction p with
  | nil =>
    intro s
    show chainCost g s [v] = (WG.cost g s v).map (fun w => 0 + w)
    unfold chainCost
    cases WG.cost g s v with
    | none => rfl
    | some w =>
      show (chainCost g v []).map (fun c => w + c) = some (0 + w)
      unfold chainCost
      show some (w + 0) = some (0 + w)
      rw [Nat.add_comm]
  | cons x rest ih =>
    intro s
    show chainCost g s (x :: (rest ++ [v])) = _
    unfold chainCost
    cases WG.cost g s x with
    | none => rfl
    | some w =>
      show (chainCost g x (rest ++ [v])).map (fun c => w + c) = _
      rw [ih x]
      show _ = (((chainCost g x rest).map (fun c => w + c)).bind
        (fun c => (WG.cost g (chainEnd x rest) v).map (fun w2 => c + w2)))
      cases chainCost g x rest with
      | none => rfl
      | some c =>
        cases WG.cost g (chainEnd x rest) v with
        | none => rfl
        | some w2 =>
          show some (w + (c + w2)) = some ((w + c) + w2)
          rw [Nat.add_assoc]

/-- Extending a (possibly empty) walk by one edge gives a nonempty walk. -/
theorem awalk_step {g : WGraph} {start u c w v : ℕ} (hw : AWalk g start u c)
    (he : WG.cost g u v = some w) : NWalk g start v (c + w) := by
  obtain ⟨p, hc, hend⟩ := hw
  refine ⟨p ++ [v], by simp, ?_, chainEnd_concat v p start⟩
  rw [chainCost_concat, hc]
  show (WG.cost g (chainEnd start p) v).map (fun w2 => c + w2) = some (c + w)
  rw [hend, he]
  rfl

theorem nwalk_awalk {g : WGraph} {start k c : ℕ} (h : NWalk g start k c) :
    AWalk g start k c := by
  obtain ⟨p, _, hc, he⟩ := h
  exact ⟨p, hc, he⟩

theorem awalk_refl (g : WGraph) (s : ℕ) : AWalk g s s 0 := ⟨[], rfl, rfl⟩

theorem popMin_cons_none {e : SEntry} {rest : List SEntry} (h : popMin rest = none) :
    popMin (e :: rest) = some (e, []) := by
  unfold popMin
  rw [h]

theorem popMin_cons_some {e : SEntry} {rest : List SEntry} {m : SEntry}
    {rest' : List SEntry} (h : popMin rest = some (m, rest')) :
    popMin (e :: rest) =
      if e.2.2 ≤ m.2.2 then some (e, rest) else some (m, e :: rest') := by
  unfold popMin
  rw [h]

theorem popMin_eq_none {H : List SEntry} : popMin H = none ↔ H = [] := by
  cases H with
  | nil => simp [popMin]
  | cons e rest =>
    constructor
    · intro h
      rcases hr : popMin rest with _ | ⟨m, rest'⟩
      · rw [popMin_cons_none hr] at h
        exact absurd h (by simp)
      · rw [popMin_cons_some hr] at h
        split at h <;> exact absurd h (by simp)
    · intro h
      exact absurd h (by simp)

theorem popMin_spec {H : List SEntry} {e : SEntry} {H' : List SEntry}
    (h : popMin H = some (e, H')) :
    e ∈ H ∧ H.length = H'.length + 1 ∧ (∀ x ∈ H, x ∈ H' ∨ x = e) ∧
      (∀ x ∈ H', x ∈ H) ∧ (∀ x ∈ H, e.2.2 ≤ x.2.2) := by
  induction H generalizing e H' with
  | nil => exact absurd h (by simp [popMin])
  | cons a rest ih =>
    rcases hr : popMin rest with _ | ⟨m, rest'⟩
    · rw [popMin_cons_none hr] at h
      injection h with h
      injection h with h1 h2
      subst h1
      subst h2
      have hrest : rest = [] := popMin_eq_none.mp hr
      subst hrest
      refine ⟨List.mem_cons_self _ _, rfl, ?_, ?_, ?_⟩
      · intro x hx
        rcases List.mem_cons.mp hx with h | h
        · exact Or.inr h
        · exact absurd h (List.not_mem_nil x)
      · intro x hx
        exact absurd hx (List.not_mem_nil x)
      · intro x hx
        rcases List.mem_cons.mp hx with h | h
        · rw [h]
        · exact absurd h (List.not_mem_nil x)
    · rw [popMin_cons_some hr] at h
      obtain ⟨hm_mem, hm_len, hm_rem, hm_sub, hm_min⟩ := ih hr
      split at h
      · rename_i hle
        injection h with h
        injection h with h1 h2
        subst h1
        subst h2
        refine ⟨List.mem_cons_self _ _, rfl, ?_, ?_, ?_⟩
        · intro x hx
          rcases List.mem_cons.mp hx with h | h
          · exact Or.inr h
          · exact Or.inl h
        · intro x hx
          exact List.mem_cons_of_mem a hx
        · intro x hx
          rcases List.mem_cons.mp hx with h | h
          · rw [h]
          · exact le_trans hle (hm_min x h)
      · rename_i hgt
        injection h with h
        injection h with h1 h2
        subst h1
        subst h2
        refine ⟨List.mem_cons_of_mem a hm_mem, by simp [hm_len], ?_, ?_, ?_⟩
        · intro x hx
          rcases List.mem_cons.mp hx with h | h
          · exact Or.inl (h ▸ List.mem_cons_self a rest')
          · rcases hm_rem x h with h1 | h1
            · exact Or.inl (List.mem_cons_of_mem a h1)
            · exact Or.inr h1
        · intro x hx
          rcases List.mem_cons.mp hx with h | h
          · exact h ▸ List.mem_cons_self a rest
          · exact List.mem_cons_of_mem a (hm_sub x h)
        · intro x hx
          rcases List.mem_cons.mp hx with h | h
          · rw [h]
            omega
          · exact hm_min x h

theorem lookupL_append {κ α : Type} [DecidableEq κ] (M N : List (κ × α)) (k : κ) :
    lookupL (M ++ N) k =
      match lookupL M k with
      | some v => some v
      | none => lookupL N k := by
  induction M with
  | nil => rfl
  | cons a rest ih =>
    show (if a.1 = k then some a.2 else lookupL (rest ++ N) k) =
      match (if a.1 = k then some a.2 else lookupL rest k) with
      | some v => some v
      | none => lookupL N k
    by_cases h : a.1 = k
    · rw [if_pos h, if_pos h]
    · rw [if_neg h, if_neg h]
      exact ih

theorem lookupL_update_self {κ α : Type} [DecidableEq κ] {M : List (κ × α)} {k : κ}
    (h : (lookupL M k).isSome) (nv : α) :
    lookupL (updateL M k nv) k = some nv := by
  induction M with
  | nil => exact absurd h (by simp [lookupL])
  | cons a rest ih =>
    by_cases he : a.1 = k
    · show lookupL (if a.1 = k then (a.1, nv) :: rest else (a.1, a.2) :: updateL rest k nv) k = some nv
      rw [if_pos he]
      show (if a.1 = k then some nv else lookupL rest k) = some nv
      rw [if_pos he]
    · show lookupL (if a.1 = k then (a.1, nv) :: rest else (a.1, a.2) :: updateL rest k nv) k = some nv
      rw [if_neg he]
      show (if a.1 = k then some a.2 else lookupL (updateL rest k nv) k) = some nv
      rw [if_neg he]
      refine ih ?_
      have hh : lookupL (a :: rest) k = lookupL rest k := by
        show (if a.1 = k then some a.2 else lookupL rest k) = lookupL rest k
        rw [if_neg he]
      rw [hh] at h
      exact h

theorem lookupL_update_other {κ α : Type} [DecidableEq κ] (M : List (κ × α)) (k : κ)
    (nv : α) (k' : κ) (h : k' ≠ k) :
    lookupL (updateL M k nv) k' = lookupL M k' := by
  induction M with
  | nil => rfl
  | cons a rest ih =>
    by_cases he : a.1 = k
    · show lookupL (if a.1 = k then (a.1, nv) :: rest else (a.1, a.2) :: updateL rest k nv) k' = _
      rw [if_pos he]
      show (if a.1 = k' then some nv else lookupL rest k') =
        (if a.1 = k' then some a.2 else lookupL rest k')
      have hne : ¬(a.1 = k') := fun hh => h (hh ▸ he)
      rw [if_neg hne, if_neg hne]
    · show lookupL (if a.1 = k then (a.1, nv) :: rest else (a.1, a.2) :: updateL rest k nv) k' = _
      rw [if_neg he]
      show (if a.1 = k' then some a.2 else lookupL (updateL rest k nv) k') =
        (if a.1 = k' then some a.2 else lookupL rest k')
      by_cases h2 : a.1 = k'
      · rw [if_pos h2, if_pos h2]
      · rw [if_neg h2, if_neg h2]
        exact ih

theorem maybe_add_eq_none_from (R : PMap) (dst cost : ℕ) :
    maybe_add_paths R none dst cost = R := rfl

theorem maybe_add_eq_new {R : PMap} {dst cost f : ℕ} (h : lookupL R dst = none) :
    maybe_add_paths R (some f) dst cost = R ++ [(dst, (cost, [f]))] := by
  unfold maybe_add_paths
  rw [h]

theorem maybe_add_eq_existing {R : PMap} {dst cost f mc : ℕ} {fs : List ℕ}
    (h : lookupL R dst = some (mc, fs)) :
    maybe_add_paths R (some f) dst cost =
      if mc = cost then updateL R dst (mc, listInsert fs f) else R := by
  unfold maybe_add_paths
  rw [h]

theorem maybe_add_other (R : PMap) (from? : Option ℕ) (dst cost : ℕ) (k : ℕ)
    (h : k ≠ dst) : lookupL (maybe_add_paths R from? dst cost) k = lookupL R k := by
  cases from? with
  | none => rw [maybe_add_eq_none_from]
  | some f =>
    cases hd : lookupL R dst with
    | none =>
      rw [maybe_add_eq_new hd, lookupL_append]
      cases hk : lookupL R k with
      | none =>
        show lookupL [(dst, (cost, [f]))] k = none
        unfold lookupL
        rw [if_neg (fun hh => h hh.symm)]
        rfl
      | some v => rfl
    | some p =>
      obtain ⟨mc, fs⟩ := p
      rw [maybe_add_eq_existing hd]
      split
      · exact lookupL_update_other R dst _ k h
      · rfl

theorem maybe_add_new (R : PMap) (f : ℕ) (dst cost : ℕ) (h : lookupL R dst = none) :
    lookupL (maybe_add_paths R (some f) dst cost) dst = some (cost, [f]) := by
  rw [maybe_add_eq_new h, lookupL_append, h]
  show lookupL [(dst, (cost, [f]))] dst = some (cost, [f])
  unfold lookupL
  rw [if_pos rfl]

theorem maybe_add_existing (R : PMap) (f : ℕ) (dst cost : ℕ) {mc : ℕ} {fs : List ℕ}
    (h : lookupL R dst = some (mc, fs)) :
    ∃ fs', lookupL (maybe_add_paths R (some f) dst cost) dst = some (mc, fs') := by
  rw [maybe_add_eq_existing h]
  split
  · exact ⟨listInsert fs f, lookupL_update_self (by rw [h]; rfl) _⟩
  · exact ⟨fs, h⟩

/-- Heap entries record a genuine walk: `(k, Some u, c)` means a walk to
`u` extended by an edge `u → k` of total cost `c`; the embedded loop
states never hold `from = None` entries (the initial one is consumed by
the first iteration, which is handled separately). -/
def HeapInv (g : WGraph) (start : ℕ) (H : List SEntry) : Prop :=
  ∀ e ∈ H, ∃ u cu w, e.2.1 = some u ∧ AWalk g start u cu ∧
    WG.cost g u e.1 = some w ∧ e.2.2 = cu + w

/-- Recorded costs are exact minima over nonempty walks. -/
def RInv (g : WGraph) (start : ℕ) (R : PMap) : Prop :=
  ∀ k p, lookupL R k = some p → IsMinNWalk g start k p.1

/-- The edge `u → v` of weight `w` relaxed from base distance `base`:
either `v` is recorded at cost `≤ base + w`, or the heap holds an entry
for `v` via `u` of cost `≤ base + w`. -/
def RelaxedE {α : Type} (H : List SEntry) (R : List (ℕ × (ℕ × α))) (u v base w : ℕ) : Prop :=
  (∃ p, lookupL R v = some p ∧ p.1 ≤ base + w) ∨
    ∃ ce, ce ≤ base + w ∧ ((v, some u, ce) : SEntry) ∈ H

/-- All edges out of `start` (base 0) and out of recorded keys (base =
recorded cost) are relaxed. -/
def RelaxInv {α : Type} (g : WGraph) (start : ℕ) (H : List SEntry)
    (R : List (ℕ × (ℕ × α))) : Prop :=
  (∀ v w, WG.cost g start v = some w → RelaxedE H R start v 0 w) ∧
  (∀ u pu, lookupL R u = some pu → ∀ v w, WG.cost g u v = some w →
    RelaxedE H R u v pu.1 w)

/-- Walk cutting: every nonempty walk is cut either by a recorded key of
no larger cost or by a heap entry of no larger cost. -/
theorem walk_cut {α : Type} {g : WGraph} {start : ℕ} {H : List SEntry}
    {R : List (ℕ × (ℕ × α))} (hrx : RelaxInv g start H R) :
    ∀ p : List ℕ, p ≠ [] → ∀ cp k, chainCost g start p = some cp →
      chainEnd start p = k →
      (∃ q, lookupL R k = some q ∧ q.1 ≤ cp) ∨ ∃ e ∈ H, e.2.2 ≤ cp := by
  intro p
  induction p using List.reverseRecOn with
  | nil => intro h; exact absurd rfl h
  | append_singleton q v ih =>
    intro _ cp k hc he
    rw [chainCost_concat] at hc
    rw [chainEnd_concat] at he
    subst he
    cases hq : chainCost g start q with
    | none => rw [hq] at hc; exact absurd hc (by simp)
    | some cq =>
      rw [hq] at hc
      cases hw : WG.cost g (chainEnd start q) v with
      | none => rw [hw] at hc; exact absurd hc (by simp)
      | some w =>
        rw [hw] at hc
        have hcp : cp = cq + w := by
          have : some (cq + w) = some cp := hc
          injection this with h
          exact h.symm
        cases q with
        | nil =>
          have hcq : cq = 0 := by
            have : (some 0 : Option ℕ) = some cq := hq
            injection this with h
            exact h.symm
          have := hrx.1 v w hw
          rcases this with ⟨pp, hpp, hle⟩ | ⟨ce, hce, hmem⟩
          · exact Or.inl ⟨pp, hpp, by omega⟩
          · refine Or.inr ⟨(v, some start, ce), hmem, ?_⟩
            show ce ≤ cp
            omega
        | cons x rest =>
          rcases ih (by simp) cq (chainEnd start (x :: rest)) hq rfl with
            ⟨pu, hpu, hple⟩ | ⟨e, hemem, hele⟩
          · have := hrx.2 (chainEnd start (x :: rest)) pu hpu v w hw
            rcases this with ⟨pp, hpp, hle⟩ | ⟨ce, hce, hmem⟩
            · exact Or.inl ⟨pp, hpp, by omega⟩
            · refine Or.inr ⟨(v, some (chainEnd start (x :: rest)), ce), hmem, ?_⟩
              show ce ≤ cp
              omega
          · exact Or.inr ⟨e, hemem, by omega⟩

/-- Out-degree of a key in the `HashMap` graph. -/
def wgOutdeg (g : WGraph) (k : ℕ) : ℕ := ((lookupL g k).map List.length).getD 0

/-- Total out-degree of keys not yet recorded. -/
def outdegSum {α : Type} (g : WGraph) (R : List (ℕ × α)) : ℕ :=
  ((g.filter (fun km => (lookupL R km.1).isNone)).map (fun km => km.2.length)).sum

/-- Termination measure of the search loop. -/
def spPhi {α : Type} (g : WGraph) (H : List SEntry) (R : List (ℕ × α)) : ℕ :=
  H.length + outdegSum g R

theorem outdegSum_cons_true {α : Type} {km : ℕ × List (ℕ × ℕ)} {rest : WGraph}
    {RR : List (ℕ × α)} (h : (lookupL RR km.1).isNone = true) :
    outdegSum (km :: rest) RR = km.2.length + outdegSum rest RR := by
  unfold outdegSum
  rw [List.filter_cons, if_pos (by exact h)]
  simp [List.sum_cons]

theorem outdegSum_cons_false {α : Type} {km : ℕ × List (ℕ × ℕ)} {rest : WGraph}
    {RR : List (ℕ × α)} (h : (lookupL RR km.1).isNone = false) :
    outdegSum (km :: rest) RR = outdegSum rest RR := by
  unfold outdegSum
  rw [List.filter_cons, if_neg (by simp [h])]

theorem outdegSum_mono {α β : Type} (g : WGraph) (R : List (ℕ × α)) (R' : List (ℕ × β))
    (h : ∀ k, (lookupL R' k).isNone = true → (lookupL R k).isNone = true) :
    outdegSum g R' ≤ outdegSum g R := by
  induction g with
  | nil => exact le_refl _
  | cons km rest ih =>
    cases h' : (lookupL R' km.1).isNone with
    | true =>
      rw [outdegSum_cons_true h', outdegSum_cons_true (h km.1 h')]
      omega
    | false =>
      rw [outdegSum_cons_false h']
      cases h2 : (lookupL R km.1).isNone with
      | true =>
        rw [outdegSum_cons_true h2]
        omega
      | false =>
        rw [outdegSum_cons_false h2]
        exact ih

theorem outdegSum_record {α : Type} (g : WGraph) (R : List (ℕ × α))
    (R' : List (ℕ × α)) (key : ℕ)
    (hnone : lookupL R key = none) (hsome : (lookupL R' key).isSome)
    (hoth : ∀ k, k ≠ key → lookupL R' k = lookupL R k) :
    outdegSum g R' + wgOutdeg g key ≤ outdegSum g R := by
  have hmono : ∀ g' : WGraph, outdegSum g' R' ≤ outdegSum g' R := by
    intro g'
    refine outdegSum_mono g' R R' ?_
    intro k hk
    by_cases hkey : k = key
    · subst hkey
      rw [hnone]
      rfl
    · rw [← hoth k hkey]
      exact hk
  induction g with
  | nil =>
    show 0 + wgOutdeg [] key ≤ 0
    unfold wgOutdeg
    show 0 + ((none : Option (List (ℕ × ℕ))).map List.length).getD 0 ≤ 0
    simp
  | cons km rest ih =>
    by_cases hk : km.1 = key
    · have hout : wgOutdeg (km :: rest) key = km.2.length := by
        unfold wgOutdeg
        show (((if km.1 = key then some km.2 else lookupL rest key)).map List.length).getD 0 = _
        rw [if_pos hk]
        rfl
      have hRtrue : (lookupL R km.1).isNone = true := by
        rw [hk, hnone]
        rfl
      have hRfalse : (lookupL R' km.1).isNone = false := by
        rw [hk]
        cases hx : lookupL R' key with
        | none => rw [hx] at hsome; exact absurd hsome (by simp)
        | some v => rfl
      rw [outdegSum_cons_true hRtrue, outdegSum_cons_false hRfalse, hout]
      have := hmono rest
      omega
    · have hout : wgOutdeg (km :: rest) key = wgOutdeg rest key := by
        unfold wgOutdeg
        show (((if km.1 = key then some km.2 else lookupL rest key)).map List.length).getD 0 = _
        rw [if_neg hk]
      have hstat : (lookupL R' km.1).isNone = (lookupL R km.1).isNone := by
        rw [hoth km.1 hk]
      rw [hout]
      cases h2 : (lookupL R km.1).isNone with
      | true =>
        rw [outdegSum_cons_true h2, outdegSum_cons_true (by rw [hstat, h2])]
        omega
      | false =>
        rw [outdegSum_cons_false h2, outdegSum_cons_false (by rw [hstat, h2])]
        exact ih

/-- When the popped entry's key is unrecorded, its cost is the minimum
nonempty-walk cost (the heart of the Dijkstra argument). -/
theorem popped_is_min {g : WGraph} {start : ℕ} {H : List SEntry} {R : PMap}
    {key u cost : ℕ} {H' : List SEntry}
    (hheap : HeapInv g start H) (hr : RInv g start R) (hrx : RelaxInv g start H R)
    (hpm : popMin H = some ((key, some u, cost), H'))
    (hrec : lookupL R key = none) : IsMinNWalk g start key cost := by
  obtain ⟨hmem, _, _, _, hmin⟩ := popMin_spec hpm
  obtain ⟨u', cu, w0, hfrom, hwalk_u, hedge, hcost⟩ := hheap _ hmem
  have hfrom' : some u = some u' := hfrom
  have hcost' : cost = cu + w0 := hcost
  have hNW : NWalk g start key cost := by
    rw [hcost']
    exact awalk_step hwalk_u hedge
  refine ⟨hNW, ?_⟩
  intro c hw
  obtain ⟨p, hne, hc, he⟩ := hw
  rcases walk_cut hrx p hne c key hc he with ⟨q, hq, _⟩ | ⟨e, hemem, hele⟩
  · rw [hrec] at hq
    exact absurd hq (by simp)
  · exact le_trans (hmin e hemem) hele

/-- `maybe_add_paths` preserves cost-correctness of the recorded map. -/
theorem rinv_preserved {g : WGraph} {start : ℕ} {R : PMap} {key cost : ℕ}
    {from? : Option ℕ} (hr : RInv g start R)
    (hmin : lookupL R key = none → from?.isSome → IsMinNWalk g start key cost) :
    RInv g start (maybe_add_paths R from? key cost) := by
  intro k p hk
  cases from? with
  | none =>
    rw [maybe_add_eq_none_from] at hk
    exact hr k p hk
  | some f =>
    by_cases hkey : k = key
    · subst hkey
      cases hrec : lookupL R k with
      | none =>
        rw [maybe_add_new R f k cost hrec] at hk
        injection hk with hk
        rw [← hk]
        exact hmin hrec rfl
      | some pp =>
        obtain ⟨mc, fs⟩ := pp
        obtain ⟨fs', h'⟩ := maybe_add_existing R f k cost hrec
        rw [h'] at hk
        injection hk with hk
        have : p.1 = mc := by rw [← hk]
        rw [this]
        exact hr k (mc, fs) hrec
    · rw [maybe_add_other R (some f) key cost k hkey] at hk
      exact hr k p hk

/-- After recording the popped key, its stored cost is at most the popped
cost. -/
theorem record_le {g : WGraph} {start : ℕ} {R : PMap} {key u cost : ℕ}
    (hr : RInv g start R) (hNW : NWalk g start key cost) :
    ∃ q, lookupL (maybe_add_paths R (some u) key cost) key = some q ∧ q.1 ≤ cost := by
  cases hrec : lookupL R key with
  | none => exact ⟨(cost, [u]), maybe_add_new R u key cost hrec, le_refl _⟩
  | some p =>
    obtain ⟨mc, fs⟩ := p
    obtain ⟨fs', h'⟩ := maybe_add_existing R u key cost hrec
    exact ⟨(mc, fs'), h', (hr key (mc, fs) hrec).2 cost hNW⟩

/-- Recording never changes an existing cost. -/
theorem record_keep {R : PMap} {key u cost : ℕ} {p : ℕ × List ℕ}
    (h : lookupL R key = some p) :
    ∃ q, lookupL (maybe_add_paths R (some u) key cost) key = some q ∧ q.1 = p.1 := by
  obtain ⟨mc, fs⟩ := p
  obtain ⟨fs', h'⟩ := maybe_add_existing R u key cost h
  exact ⟨(mc, fs'), h', rfl⟩

/-- A relaxed edge stays relaxed across one loop iteration. -/
theorem relaxedE_preserved {α : Type} {H H2 : List SEntry}
    {R R' : List (ℕ × (ℕ × α))} {key u0 cost : ℕ}
    {u v base w : ℕ}
    (hold : RelaxedE H R u v base w)
    (hsub : ∀ x ∈ H, x ∈ H2 ∨ x = ((key, some u0, cost) : SEntry))
    (hkey : ∃ q, lookupL R' key = some q ∧ q.1 ≤ cost)
    (hoth : ∀ k, k ≠ key → lookupL R' k = lookupL R k)
    (hkeep : ∀ p, lookupL R key = some p → ∃ q, lookupL R' key = some q ∧ q.1 = p.1) :
    RelaxedE H2 R' u v base w := by
  rcases hold with ⟨p, hp, hle⟩ | ⟨ce, hce, hmem⟩
  · by_cases hv : v = key
    · subst hv
      obtain ⟨q, hq, hqe⟩ := hkeep p hp
      exact Or.inl ⟨q, hq, by omega⟩
    · exact Or.inl ⟨p, by rw [hoth v hv]; exact hp, hle⟩
  · rcases hsub _ hmem with h | h
    · exact Or.inr ⟨ce, hce, h⟩
    · obtain ⟨q, hq, hqle⟩ := hkey
      have hv : v = key := congrArg Prod.fst h
      have hce' : ce = cost := congrArg (fun x => x.2.2) h
      subst hv
      exact Or.inl ⟨q, hq, by omega⟩

theorem lookupL_some_mem_keys {α : Type} {m : List (ℕ × α)} {v : ℕ} {w : α}
    (h : lookupL m v = some w) : v ∈ m.map Prod.fst := by
  induction m with
  | nil => exact absurd h (by simp [lookupL])
  | cons a rest ih =>
    have h' : (if a.1 = v then some a.2 else lookupL rest v) = some w := h
    by_cases he : a.1 = v
    · rw [List.map_cons]
      exact he ▸ List.mem_cons_self _ _
    · rw [if_neg he] at h'
      exact List.mem_cons_of_mem _ (ih h')

theorem push_mem {g : WGraph} {key cost v w : ℕ} {adj : List ℕ}
    (hadj : WG.adjacent g key = some adj) (hc : WG.cost g key v = some w) :
    ((v, some key, cost + w) : SEntry) ∈
      adj.filterMap (fun ak => (WG.cost g key ak).map (fun wv => (ak, some key, cost + wv))) := by
  unfold WG.adjacent at hadj
  cases hm : lookupL g key with
  | none =>
    rw [hm] at hadj
    exact absurd hadj (by simp)
  | some m =>
    rw [hm] at hadj
    have hadj' : m.map Prod.fst = adj := by
      injection hadj with h
    have hc' : lookupL m v = some w := by
      unfold WG.cost at hc
      rw [hm] at hc
      exact hc
    refine List.mem_filterMap.mpr ⟨v, ?_, ?_⟩
    · rw [← hadj']
      exact lookupL_some_mem_keys hc'
    · rw [hc]
      rfl

theorem push_inv {g : WGraph} {key cost : ℕ} {x : SEntry} {adj : List ℕ}
    (hx : x ∈ adj.filterMap
      (fun ak => (WG.cost g key ak).map (fun wv => (ak, some key, cost + wv)))) :
    ∃ ak wv, WG.cost g key ak = some wv ∧ x = (ak, some key, cost + wv) := by
  obtain ⟨ak, _, heq⟩ := List.mem_filterMap.mp hx
  cases hca : WG.cost g key ak with
  | none =>
    rw [hca] at heq
    exact absurd heq (by simp)
  | some wv =>
    rw [hca] at heq
    injection heq with heq
    exact ⟨ak, wv, hca, heq.symm⟩

theorem spLoop_none {g : WGraph} {early : ℕ → ℕ → PMap → Bool} {fuel : ℕ}
    {H : List SEntry} {R : PMap} (hpm : popMin H = none) :
    spLoop g early (fuel + 1) H R = some (R, none) := by
  unfold spLoop
  rw [hpm]

theorem spLoop_some {g : WGraph} {early : ℕ → ℕ → PMap → Bool} {fuel : ℕ}
    {H : List SEntry} {R : PMap} {key cost : ℕ} {from? : Option ℕ} {H' : List SEntry}
    (hpm : popMin H = some ((key, from?, cost), H'))
    (hearly : early key cost (maybe_add_paths R from? key cost) = false) :
    spLoop g early (fuel + 1) H R = spLoop g early fuel
      (if (lookupL R key).isSome then H' else
        match WG.adjacent g key with
        | none => H'
        | some adj => H' ++ adj.filterMap
            (fun ak => (WG.cost g key ak).map (fun w => (ak, some key, cost + w))))
      (maybe_add_paths R from? key cost) := by
  conv_lhs => unfold spLoop; rw [hpm]
  dsimp only
  rw [hearly]
  simp

/-- Main loop invariant argument for `shortest_paths_to_many` with the
always-false early-finish closure. -/
theorem spLoop_correct (g : WGraph) (start : ℕ) :
    ∀ (fuel : ℕ) (H : List SEntry) (R : PMap), HeapInv g start H → RInv g start R →
      RelaxInv g start H R → spPhi g H R < fuel →
      ∃ M, spLoop g (fun _ _ _ => false) fuel H R = some (M, none) ∧
        RInv g start M ∧
        (∀ k c, NWalk g start k c → ∃ q, lookupL M k = some q ∧ q.1 ≤ c) := by
  intro fuel
  induction fuel with
  | zero =>
    intro H R _ _ _ hphi
    exact absurd hphi (Nat.not_lt_zero _)
  | succ fuel ih =>
    intro H R hheap hr hrx hphi
    rcases hpm : popMin H with _ | ⟨⟨key, from?, cost⟩, H'⟩
    · have hH : H = [] := popMin_eq_none.mp hpm
      subst hH
      refine ⟨R, spLoop_none hpm, hr, ?_⟩
      intro k c hw
      obtain ⟨p, hne, hc, he⟩ := hw
      rcases walk_cut hrx p hne c k hc he with ⟨q, hq, hle⟩ | ⟨e, hemem, _⟩
      · exact ⟨q, hq, hle⟩
      · exact absurd hemem (List.not_mem_nil e)
    · obtain ⟨hmem, hlen, hrem, hsubH, hminH⟩ := popMin_spec hpm
      obtain ⟨u, cu, w0, hfrom, hwalk_u, hedge, hcost⟩ := hheap _ hmem
      have hfrom' : from? = some u := hfrom
      subst hfrom'
      have hcost' : cost = cu + w0 := hcost
      have hNW : NWalk g start key cost := by
        rw [hcost']
        exact awalk_step hwalk_u hedge
      have hkeyq : ∃ q, lookupL (maybe_add_paths R (some u) key cost) key =
          some q ∧ q.1 ≤ cost := record_le hr hNW
      have hoth : ∀ k, k ≠ key →
          lookupL (maybe_add_paths R (some u) key cost) k = lookupL R k :=
        fun k hk => maybe_add_other R (some u) key cost k hk
      have hkeep : ∀ p, lookupL R key = some p →
          ∃ q, lookupL (maybe_add_paths R (some u) key cost) key = some q ∧ q.1 = p.1 :=
        fun p hp => record_keep hp
      have hr' : RInv g start (maybe_add_paths R (some u) key cost) :=
        rinv_preserved hr (fun hrec _ => popped_is_min hheap hr hrx hpm hrec)
      have hmono : ∀ k, ((lookupL (maybe_add_paths R (some u) key cost) k).isNone = true) →
          (lookupL R k).isNone = true := by
        intro k hk
        by_cases hkk : k = key
        · subst hkk
          obtain ⟨q, hq, _⟩ := hkeyq
          rw [hq] at hk
          exact absurd hk (by simp)
        · rw [← hoth k hkk]
          exact hk
      cases hrec : lookupL R key with
      | some pp =>
        have hheap' : HeapInv g start H' := fun e he => hheap e (hsubH e he)
        have hrx' : RelaxInv g start H' (maybe_add_paths R (some u) key cost) := by
          constructor
          · intro v w hvw
            exact relaxedE_preserved (hrx.1 v w hvw) hrem hkeyq hoth hkeep
          · intro u' pu' hpu' v w hvw
            by_cases hu : u' = key
            · rw [hu] at hpu' hvw
              obtain ⟨q, hq, hqe⟩ := hkeep pp hrec
              have hpq : pu' = q := by
                have := hpu'.symm.trans hq
                injection this
              have hbase : pu'.1 = pp.1 := by rw [hpq, hqe]
              rw [hbase, hu]
              exact relaxedE_preserved (hrx.2 key pp hrec v w hvw) hrem hkeyq hoth hkeep
            · have hpu'' : lookupL R u' = some pu' := by
                rw [← hoth u' hu]
                exact hpu'
              exact relaxedE_preserved (hrx.2 u' pu' hpu'' v w hvw) hrem hkeyq hoth hkeep
        have hphi' : spPhi g H' (maybe_add_paths R (some u) key cost) < fuel := by
          have h1 := outdegSum_mono g R (maybe_add_paths R (some u) key cost) hmono
          unfold spPhi at hphi ⊢
          omega
        obtain ⟨M, heq, hRM, hcomp⟩ := ih H' (maybe_add_paths R (some u) key cost)
          hheap' hr' hrx' hphi'
        refine ⟨M, ?_, hRM, hcomp⟩
        rw [spLoop_some hpm rfl, hrec]
        show spLoop g (fun _ _ _ => false) fuel H' (maybe_add_paths R (some u) key cost) =
          some (M, none)
        exact heq
      | none =>
        have hnew : lookupL (maybe_add_paths R (some u) key cost) key = some (cost, [u]) :=
          maybe_add_new R u key cost hrec
        cases hadj : WG.adjacent g key with
        | none =>
          have hheap' : HeapInv g start H' := fun e he => hheap e (hsubH e he)
          have hrx' : RelaxInv g start H' (maybe_add_paths R (some u) key cost) := by
            constructor
            · intro v w hvw
              exact relaxedE_preserved (hrx.1 v w hvw) hrem hkeyq hoth hkeep
            · intro u' pu' hpu' v w hvw
              by_cases hu : u' = key
              · rw [hu] at hvw
                exfalso
                unfold WG.cost at hvw
                unfold WG.adjacent at hadj
                cases hm : lookupL g key with
                | none =>
                  rw [hm] at hvw
                  exact absurd hvw (by simp)
                | some m =>
                  rw [hm] at hadj
                  exact absurd hadj (by simp)
              · have hpu'' : lookupL R u' = some pu' := by
                  rw [← hoth u' hu]
                  exact hpu'
                exact relaxedE_preserved (hrx.2 u' pu' hpu'' v w hvw) hrem hkeyq hoth hkeep
          have hphi' : spPhi g H' (maybe_add_paths R (some u) key cost) < fuel := by
            have h1 := outdegSum_mono g R (maybe_add_paths R (some u) key cost) hmono
            unfold spPhi at hphi ⊢
            omega
          obtain ⟨M, heq, hRM, hcomp⟩ := ih H' (maybe_add_paths R (some u) key cost)
            hheap' hr' hrx' hphi'
          refine ⟨M, ?_, hRM, hcomp⟩
          rw [spLoop_some hpm rfl, hrec, hadj]
          show spLoop g (fun _ _ _ => false) fuel H' (maybe_add_paths R (some u) key cost) =
            some (M, none)
          exact heq
        | some adj =>
          have hsubH2 : ∀ x ∈ H, x ∈ H' ++ adj.filterMap
              (fun ak => (WG.cost g key ak).map (fun w => (ak, some key, cost + w))) ∨
              x = ((key, some u, cost) : SEntry) := by
            intro x hx
            rcases hrem x hx with h | h
            · exact Or.inl (List.mem_append_left _ h)
            · exact Or.inr h
          have hheap' : HeapInv g start (H' ++ adj.filterMap
              (fun ak => (WG.cost g key ak).map (fun w => (ak, some key, cost + w)))) := by
            intro e he
            rcases List.mem_append.mp he with h | h
            · exact hheap e (hsubH e h)
            · obtain ⟨ak, wv, hcv, hex⟩ := push_inv h
              subst hex
              exact ⟨key, cost, wv, rfl, nwalk_awalk hNW, hcv, rfl⟩
          have hrx' : RelaxInv g start (H' ++ adj.filterMap
              (fun ak => (WG.cost g key ak).map (fun w => (ak, some key, cost + w))))
              (maybe_add_paths R (some u) key cost) := by
            constructor
            · intro v w hvw
              exact relaxedE_preserved (hrx.1 v w hvw) hsubH2 hkeyq hoth hkeep
            · intro u' pu' hpu' v w hvw
              by_cases hu : u' = key
              · rw [hu] at hpu' hvw
                have hpq : pu' = (cost, [u]) := by
                  have := hpu'.symm.trans hnew
                  injection this
                rw [hu]
                refine Or.inr ⟨cost + w, ?_, ?_⟩
                · rw [hpq]
                · exact List.mem_append_right _ (push_mem hadj hvw)
              · have hpu'' : lookupL R u' = some pu' := by
                  rw [← hoth u' hu]
                  exact hpu'
                exact relaxedE_preserved (hrx.2 u' pu' hpu'' v w hvw) hsubH2 hkeyq hoth hkeep
          have hphi' : spPhi g (H' ++ adj.filterMap
              (fun ak => (WG.cost g key ak).map (fun w => (ak, some key, cost + w))))
              (maybe_add_paths R (some u) key cost) < fuel := by
            have hrecsum : outdegSum g (maybe_add_paths R (some u) key cost) +
                wgOutdeg g key ≤ outdegSum g R := by
              refine outdegSum_record g R _ key hrec ?_ hoth
              obtain ⟨q, hq, _⟩ := hkeyq
              rw [hq]
              rfl
            have hpl : (adj.filterMap
                (fun ak => (WG.cost g key ak).map (fun w => (ak, some key, cost + w)))).length ≤
                wgOutdeg g key := by
              have h1 : (adj.filterMap
                  (fun ak => (WG.cost g key ak).map (fun w => (ak, some key, cost + w)))).length ≤
                  adj.length := List.length_filterMap_le _ _
              have h2 : adj.length = wgOutdeg g key := by
                unfold WG.adjacent at hadj
                cases hm : lookupL g key with
                | none =>
                  rw [hm] at hadj
                  exact absurd hadj (by simp)
                | some m =>
                  rw [hm] at hadj
                  have : m.map Prod.fst = adj := by injection hadj with h
                  unfold wgOutdeg
                  rw [hm, ← this]
                  simp
              omega
            unfold spPhi at hphi ⊢
            rw [List.length_append]
            omega
          obtain ⟨M, heq, hRM, hcomp⟩ := ih _ (maybe_add_paths R (some u) key cost)
            hheap' hr' hrx' hphi'
          refine ⟨M, ?_, hRM, hcomp⟩
          rw [spLoop_some hpm rfl, hrec, hadj]
          show spLoop g (fun _ _ _ => false) fuel (H' ++ adj.filterMap
              (fun ak => (WG.cost g key ak).map (fun w => (ak, some key, cost + w))))
            (maybe_add_paths R (some u) key cost) = some (M, none)
          exact heq

theorem lookupL_into_costs (M : PMap) (k : ℕ) :
    lookupL (into_shortest_costs M) k = (lookupL M k).map Prod.fst := by
  induction M with
  | nil => rfl
  | cons a rest ih =>
    show (if a.1 = k then some a.2.1 else lookupL (into_shortest_costs rest) k) =
      ((if a.1 = k then some a.2 else lookupL rest k)).map Prod.fst
    by_cases h : a.1 = k
    · rw [if_pos h, if_pos h]
      rfl
    · rw [if_neg h, if_neg h]
      exact ih

theorem outdegSum_empty {α : Type} (g : WGraph) :
    outdegSum g ([] : List (ℕ × α)) = (g.map (fun km => km.2.length)).sum := by
  induction g with
  | nil => rfl
  | cons km rest ih =>
    rw [outdegSum_cons_true (by rfl), List.map_cons, List.sum_cons, ih]

/-- Claim C1, amended: with non-negative costs (embedded as `ℕ`) and
enough fuel, `shortest_distance_to_all(start, 0)` returns the map whose
entry at `k` is exactly the minimum total cost over NONEMPTY walks from
`start` to `k` — present precisely for the keys reachable by a nonempty
walk. In particular `start` itself gets NO entry unless some nonempty
walk cycles back to it (the `ShortestPathPrecedentMap::maybe_add_paths`
guard `if let Some(from) = from` drops the initial `from == None`
record), and when it does, its entry is the minimum NONEMPTY cycle cost,
not 0. -/
theorem claim_C1_amended (g : WGraph) (start fuel : ℕ)
    (hfuel : 2 + wgOutdeg g start + (g.map (fun km => km.2.length)).sum ≤ fuel) :
    ∃ M, shortest_distance_to_all g start 0 fuel = some M ∧
      ∀ k d, lookupL M k = some d ↔ IsMinNWalk g start k d := by
  obtain ⟨fuel', rfl⟩ : ∃ f', fuel = f' + 1 := ⟨fuel - 1, by omega⟩
  have hstep : shortest_paths_to_many g start (fun _ _ _ => false) 0 (fuel' + 1) =
      spLoop g (fun _ _ _ => false) fuel'
        (match WG.adjacent g start with
         | none => []
         | some adj => [] ++ adj.filterMap
             (fun ak => (WG.cost g start ak).map (fun w => (ak, some start, 0 + w))))
        [] := by
    unfold shortest_paths_to_many
    rw [spLoop_some
      (show popMin [(start, (none : Option ℕ), 0)] = some ((start, none, 0), []) from rfl)
      rfl]
    rfl
  have hheap1 : HeapInv g start
      (match WG.adjacent g start with
       | none => []
       | some adj => [] ++ adj.filterMap
           (fun ak => (WG.cost g start ak).map (fun w => (ak, some start, 0 + w)))) := by
    cases hadj : WG.adjacent g start with
    | none => intro e he; exact absurd he (List.not_mem_nil e)
    | some adj =>
      intro e he
      have he' : e ∈ adj.filterMap
          (fun ak => (WG.cost g start ak).map (fun w => (ak, some start, 0 + w))) := he
      obtain ⟨ak, wv, hcv, hex⟩ := push_inv he'
      subst hex
      exact ⟨start, 0, wv, rfl, awalk_refl g start, hcv, rfl⟩
  have hr1 : RInv g start ([] : PMap) := by
    intro k p hk
    exact absurd hk (by simp [lookupL])
  have hrx1 : RelaxInv g start
      (match WG.adjacent g start with
       | none => []
       | some adj => [] ++ adj.filterMap
           (fun ak => (WG.cost g start ak).map (fun w => (ak, some start, 0 + w))))
      ([] : PMap) := by
    constructor
    · intro v w hvw
      have hm : ∃ m, lookupL g start = some m := by
        unfold WG.cost at hvw
        cases hm : lookupL g start with
        | none => rw [hm] at hvw; exact absurd hvw (by simp)
        | some m => exact ⟨m, rfl⟩
      obtain ⟨m, hm⟩ := hm
      have hadj : WG.adjacent g start = some (m.map Prod.fst) := by
        unfold WG.adjacent
        rw [hm]
        rfl
      rw [hadj]
      refine Or.inr ⟨0 + w, le_refl _, ?_⟩
      show ((v, some start, 0 + w) : SEntry) ∈ (m.map Prod.fst).filterMap
        (fun ak => (WG.cost g start ak).map (fun w => (ak, some start, 0 + w)))
      exact push_mem hadj hvw
    · intro u' pu' hpu' v w hvw
      exact absurd hpu' (by simp [lookupL])
  have hphi1 : spPhi g
      (match WG.adjacent g start with
       | none => []
       | some adj => [] ++ adj.filterMap
           (fun ak => (WG.cost g start ak).map (fun w => (ak, some start, 0 + w))))
      ([] : PMap) < fuel' := by
    have hlen1 : (match WG.adjacent g start with
       | none => ([] : List SEntry)
       | some adj => [] ++ adj.filterMap
           (fun ak => (WG.cost g start ak).map (fun w => (ak, some start, 0 + w)))).length ≤
       wgOutdeg g start := by
      cases hadj : WG.adjacent g start with
      | none => simp
      | some adj =>
        show (adj.filterMap
          (fun ak => (WG.cost g start ak).map (fun w => (ak, some start, 0 + w)))).length ≤
          wgOutdeg g start
        have h1 := List.length_filterMap_le
          (fun ak => (WG.cost g start ak).map (fun w => (ak, some start, 0 + w))) adj
        have h2 : adj.length = wgOutdeg g start := by
          unfold WG.adjacent at hadj
          cases hm : lookupL g start with
          | none => rw [hm] at hadj; exact absurd hadj (by simp)
          | some m =>
            rw [hm] at hadj
            have : m.map Prod.fst = adj := by injection hadj with h
            unfold wgOutdeg
            rw [hm, ← this]
            simp
        omega
    unfold spPhi
    rw [outdegSum_empty]
    omega
  obtain ⟨M0, heq, hRM, hcomp⟩ := spLoop_correct g start fuel' _ [] hheap1 hr1 hrx1 hphi1
  refine ⟨into_shortest_costs M0, ?_, ?_⟩
  · unfold shortest_distance_to_all
    rw [hstep, heq]
    rfl
  · intro k d
    rw [lookupL_into_costs]
    constructor
    · intro h
      cases hq : lookupL M0 k with
      | none => rw [hq] at h; exact absurd h (by simp)
      | some q =>
        rw [hq] at h
        have hd : q.1 = d := by
          injection h
        rw [← hd]
        exact hRM k q hq
    · intro h
      obtain ⟨q, hq, hle⟩ := hcomp k d h.1
      have hmin2 : IsMinNWalk g start k q.1 := hRM k q hq
      have hda : d ≤ q.1 := h.2 q.1 hmin2.1
      rw [hq]
      show some q.1 = some d
      rw [le_antisymm hle hda]

/-- Claim C1, counterexample: in the graph `{0 ↦ {1 ↦ 1}, 1 ↦ {}}` with
start 0, the returned map is exactly `{1 ↦ 1}` — the start key 0, though
reachable by the empty path at cost 0, has NO entry, because
`ShortestPathPrecedentMap::maybe_add_paths` skips records with
`from == None`. -/
theorem claim_C1_counterexample :
    shortest_distance_to_all [(0, [(1, 1)]), (1, [])] 0 0 10 = some [(1, 1)] ∧
    AWalk [(0, [(1, 1)]), (1, [])] 0 0 0 ∧
    lookupL [((1 : ℕ), (1 : ℕ))] 0 = none :=
  ⟨rfl, awalk_refl _ 0, rfl⟩

theorem claim_C1_witness :
    (2 + wgOutdeg [(0, [(1, 1)]), (1, [(0, 1)])] 0 +
      (([(0, [(1, 1)]), (1, [(0, 1)])] : WGraph).map (fun km => km.2.length)).sum ≤ 20) ∧
    ∃ M, shortest_distance_to_all [(0, [(1, 1)]), (1, [(0, 1)])] 0 0 20 = some M ∧
      ∀ k d, lookupL M k = some d ↔ IsMinNWalk [(0, [(1, 1)]), (1, [(0, 1)])] 0 k d :=
  ⟨by decide, claim_C1_amended [(0, [(1, 1)]), (1, [(0, 1)])] 0 20 (by decide)⟩

/-! ### Count-map (`ShortestPathPrecedentMapWithCount`) infrastructure -/

/-- Sum of the per-precedent route counts (`from_map.values().sum()`). -/
def rcTotal (fm : List (Option ℕ × ℕ)) : ℕ := (fm.map Prod.snd).sum

/-- `d` is the minimum cost over all (possibly empty) walks. -/
def IsMinAWalk (g : WGraph) (s k d : ℕ) : Prop :=
  AWalk g s k d ∧ ∀ c, AWalk g s k c → d ≤ c

theorem lookupL_mem {κ α : Type} [DecidableEq κ] {l : List (κ × α)} {k : κ} {v : α}
    (h : lookupL l k = some v) : (k, v) ∈ l := by
  induction l with
  | nil => exact absurd h (by simp [lookupL])
  | cons a rest ih =>
    have h' : (if a.1 = k then some a.2 else lookupL rest k) = some v := h
    by_cases he : a.1 = k
    · rw [if_pos he] at h'
      injection h' with h'
      subst he
      subst h'
      exact List.mem_cons_self _ _
    · rw [if_neg he] at h'
      exact List.mem_cons_of_mem _ (ih h')

theorem mem_lookupL_nodup {κ α : Type} [DecidableEq κ] {l : List (κ × α)} {k : κ} {v : α}
    (hn : (l.map Prod.fst).Nodup) (h : (k, v) ∈ l) : lookupL l k = some v := by
  induction l with
  | nil => exact absurd h (List.not_mem_nil _)
  | cons a rest ih =>
    rw [List.map_cons, List.nodup_cons] at hn
    rcases List.mem_cons.mp h with h1 | h1
    · rw [← h1]
      show (if k = k then some v else lookupL rest k) = some v
      rw [if_pos rfl]
    · have hk : a.1 ≠ k := by
        intro he
        exact hn.1 (he ▸ (List.mem_map.mpr ⟨(k, v), h1, rfl⟩))
      show (if a.1 = k then some a.2 else lookupL rest k) = some v
      rw [if_neg hk]
      exact ih hn.2 h1

theorem mem_keys_isSome {κ α : Type} [DecidableEq κ] {l : List (κ × α)} {k : κ}
    (h : k ∈ l.map Prod.fst) : (lookupL l k).isSome := by
  induction l with
  | nil => exact absurd h (by simp)
  | cons a rest ih =>
    show (if a.1 = k then some a.2 else lookupL rest k).isSome
    by_cases he : a.1 = k
    · rw [if_pos he]
      rfl
    · rw [if_neg he]
      rw [List.map_cons] at h
      rcases List.mem_cons.mp h with h1 | h1
      · exact absurd h1.symm he
      · exact ih h1

theorem lookupL_none_not_mem {κ α : Type} [DecidableEq κ] {l : List (κ × α)} {k : κ}
    (h : lookupL l k = none) : k ∉ l.map Prod.fst := by
  intro hmem
  have := mem_keys_isSome hmem
  rw [h] at this
  exact absurd this (by simp)

theorem updateL_keys {κ α : Type} [DecidableEq κ] (l : List (κ × α)) (k : κ) (nv : α) :
    (updateL l k nv).map Prod.fst = l.map Prod.fst := by
  induction l with
  | nil => rfl
  | cons a rest ih =>
    show (if a.1 = k then (a.1, nv) :: rest else (a.1, a.2) :: updateL rest k nv).map
      Prod.fst = _
    by_cases he : a.1 = k
    · rw [if_pos he]
      rfl
    · rw [if_neg he]
      show a.1 :: (updateL rest k nv).map Prod.fst = a.1 :: rest.map Prod.fst
      rw [ih]

theorem bumpCount_other (fm : List (Option ℕ × ℕ)) (f k : Option ℕ) (c : ℕ)
    (h : k ≠ f) : lookupL (bumpCount fm f c) k = lookupL fm k := by
  unfold bumpCount
  cases hf : lookupL fm f with
  | none =>
    rw [lookupL_append]
    cases hk : lookupL fm k with
    | none =>
      show lookupL [(f, c)] k = none
      unfold lookupL
      rw [if_neg (fun hh => h hh.symm)]
      rfl
    | some v => rfl
  | some n => exact lookupL_update_other fm f (n + c) k h

theorem bumpCount_self (fm : List (Option ℕ × ℕ)) (f : Option ℕ) (c : ℕ) :
    lookupL (bumpCount fm f c) f =
      some (match lookupL fm f with | none => c | some n => n + c) := by
  unfold bumpCount
  cases hf : lookupL fm f with
  | none =>
    rw [lookupL_append, hf]
    show lookupL [(f, c)] f = some c
    unfold lookupL
    rw [if_pos rfl]
  | some n => exact lookupL_update_self (by rw [hf]; rfl) _

theorem bumpCount_keys_nodup {fm : List (Option ℕ × ℕ)} {f : Option ℕ} {c : ℕ}
    (h : (fm.map Prod.fst).Nodup) : ((bumpCount fm f c).map Prod.fst).Nodup := by
  unfold bumpCount
  cases hf : lookupL fm f with
  | none =>
    rw [List.map_append]
    rw [List.nodup_append]
    refine ⟨h, List.nodup_singleton _, ?_⟩
    intro a ha hb
    rw [List.mem_singleton.mp hb] at ha
    exact lookupL_none_not_mem hf ha
  | some n =>
    rw [updateL_keys]
    exact h

theorem rcTotal_update {fm : List (Option ℕ × ℕ)} {f : Option ℕ} {n c : ℕ}
    (h : lookupL fm f = some n) :
    rcTotal (updateL fm f (n + c)) = rcTotal fm + c := by
  induction fm with
  | nil => exact absurd h (by simp [lookupL])
  | cons a rest ih =>
    have h' : (if a.1 = f then some a.2 else lookupL rest f) = some n := h
    by_cases he : a.1 = f
    · rw [if_pos he] at h'
      injection h' with h'
      show rcTotal (if a.1 = f then (a.1, n + c) :: rest else (a.1, a.2) :: updateL rest f (n + c)) = _
      rw [if_pos he]
      unfold rcTotal
      rw [List.map_cons, List.sum_cons, List.map_cons, List.sum_cons, h']
      omega
    · rw [if_neg he] at h'
      show rcTotal (if a.1 = f then (a.1, n + c) :: rest else (a.1, a.2) :: updateL rest f (n + c)) = _
      rw [if_neg he]
      unfold rcTotal
      rw [List.map_cons, List.sum_cons, List.map_cons, List.sum_cons]
      have := ih h'
      unfold rcTotal at this
      omega

theorem rcTotal_bump (fm : List (Option ℕ × ℕ)) (f : Option ℕ) (c : ℕ) :
    rcTotal (bumpCount fm f c) = rcTotal fm + c := by
  unfold bumpCount
  cases hf : lookupL fm f with
  | none =>
    unfold rcTotal
    rw [List.map_append, List.sum_append]
    rfl
  | some n => exact rcTotal_update hf

theorem mac_eq_new {M : RCMap} {dst cost count : ℕ} {from? : Option ℕ}
    (h : lookupL M dst = none) :
    maybe_add_paths_count M from? dst cost count = M ++ [(dst, (cost, [(from?, count)]))] := by
  unfold maybe_add_paths_count
  rw [h]

theorem mac_eq_existing {M : RCMap} {dst cost count : ℕ} {from? : Option ℕ}
    {mc : ℕ} {fm : List (Option ℕ × ℕ)} (h : lookupL M dst = some (mc, fm)) :
    maybe_add_paths_count M from? dst cost count =
      if mc = cost then updateL M dst (mc, bumpCount fm from? count) else M := by
  unfold maybe_add_paths_count
  rw [h]

theorem mac_other (M : RCMap) (from? : Option ℕ) (dst cost count : ℕ) (k : ℕ)
    (h : k ≠ dst) :
    lookupL (maybe_add_paths_count M from? dst cost count) k = lookupL M k := by
  cases hd : lookupL M dst with
  | none =>
    rw [mac_eq_new hd, lookupL_append]
    cases hk : lookupL M k with
    | none =>
      show lookupL [(dst, (cost, [(from?, count)]))] k = none
      unfold lookupL
      rw [if_neg (fun hh => h hh.symm)]
      rfl
    | some v => rfl
  | some p =>
    obtain ⟨mc, fm⟩ := p
    rw [mac_eq_existing hd]
    split
    · exact lookupL_update_other M dst _ k h
    · rfl

theorem mac_new {M : RCMap} {dst cost count : ℕ} {from? : Option ℕ}
    (h : lookupL M dst = none) :
    lookupL (maybe_add_paths_count M from? dst cost count) dst =
      some (cost, [(from?, count)]) := by
  rw [mac_eq_new h, lookupL_append, h]
  show lookupL [(dst, (cost, [(from?, count)]))] dst = _
  unfold lookupL
  rw [if_pos rfl]

theorem mac_existing {M : RCMap} {dst cost count : ℕ} {from? : Option ℕ}
    {mc : ℕ} {fm : List (Option ℕ × ℕ)} (h : lookupL M dst = some (mc, fm)) :
    lookupL (maybe_add_paths_count M from? dst cost count) dst =
      some (mc, if mc = cost then bumpCount fm from? count else fm) := by
  rw [mac_eq_existing h]
  split
  · exact lookupL_update_self (by rw [h]; rfl) _
  · exact h

theorem spcLoop_none {g : WGraph} {early : ℕ → ℕ → RCMap → Bool} {fuel : ℕ}
    {H : List SEntry} {R : RCMap} (hpm : popMin H = none) :
    spcLoop g early (fuel + 1) H R = some (R, none) := by
  unfold spcLoop
  rw [hpm]

theorem spcLoop_some {g : WGraph} {early : ℕ → ℕ → RCMap → Bool} {fuel : ℕ}
    {H : List SEntry} {R : RCMap} {key cost : ℕ} {from? : Option ℕ} {H' : List SEntry}
    (hpm : popMin H = some ((key, from?, cost), H'))
    (hearly : early key cost (maybe_add_paths_count R from? key cost
      ((from?.bind (fun f => shortest_route_count R f)).getD 1)) = false) :
    spcLoop g early (fuel + 1) H R = spcLoop g early fuel
      (if (lookupL R key).isSome then H' else
        match WG.adjacent g key with
        | none => H'
        | some adj => H' ++ adj.filterMap
            (fun ak => (WG.cost g key ak).map (fun w => (ak, some key, cost + w))))
      (maybe_add_paths_count R from? key cost
        ((from?.bind (fun f => shortest_route_count R f)).getD 1)) := by
  conv_lhs => unfold spcLoop; rw [hpm]
  dsimp only
  rw [hearly]
  simp

theorem spcLoop_some_early {g : WGraph} {early : ℕ → ℕ → RCMap → Bool} {fuel : ℕ}
    {H : List SEntry} {R : RCMap} {key cost : ℕ} {from? : Option ℕ} {H' : List SEntry}
    (hpm : popMin H = some ((key, from?, cost), H'))
    (hearly : early key cost (maybe_add_paths_count R from? key cost
      ((from?.bind (fun f => shortest_route_count R f)).getD 1)) = true) :
    spcLoop g early (fuel + 1) H R = some
      (maybe_add_paths_count R from? key cost
        ((from?.bind (fun f => shortest_route_count R f)).getD 1), some key) := by
  conv_lhs => unfold spcLoop; rw [hpm]
  dsimp only
  rw [hearly]
  simp

/-! ### Counting minimum-cost walks (specification side for C2) -/

/-- The `(predecessor, weight)` pairs of edges into `k`. -/
def predList (g : WGraph) (k : ℕ) : List (ℕ × ℕ) :=
  g.filterMap (fun km => (lookupL km.2 k).map (fun w => (km.1, w)))

/-- All walks from `s` of exactly `n` edges (as vertex lists). -/
def walksLen (g : WGraph) (s : ℕ) : ℕ → List (List ℕ)
  | 0 => [[]]
  | n + 1 => (walksLen g s n).flatMap (fun q =>
      match WG.adjacent g (chainEnd s q) with
      | none => []
      | some adj => adj.map (fun v => q ++ [v]))

/-- Number of walks from `s` to `e` of total cost exactly `d` among walks
of at most `n` edges. -/
def countWalksCost (g : WGraph) (s e d n : ℕ) : ℕ :=
  ((List.range (n + 1)).flatMap (fun ln => walksLen g s ln)).countP
    (fun p => decide (chainCost g s p = some d) && decide (chainEnd s p = e))

/-- Number of distinct walks from `s` to `e` of minimum cost `d` (with
positive edge costs a walk of cost `d` has at most `d` edges, so the
length cut-off at `d` is exhaustive). -/
def CW (g : WGraph) (s e d : ℕ) : ℕ := countWalksCost g s e d d

theorem predList_mem {g : WGraph} (hout : (g.map Prod.fst).Nodup) (k u w : ℕ) :
    (u, w) ∈ predList g k ↔ WG.cost g u k = some w := by
  constructor
  · intro h
    obtain ⟨km, hkm, he⟩ := List.mem_filterMap.mp h
    cases hl : lookupL km.2 k with
    | none =>
      rw [hl] at he
      exact absurd he (by simp)
    | some w' =>
      rw [hl] at he
      injection he with he
      have h1 : km.1 = u := congrArg Prod.fst he
      have h2 : w' = w := congrArg Prod.snd he
      unfold WG.cost
      have : lookupL g u = some km.2 := by
        rw [← h1]
        exact mem_lookupL_nodup hout (by rw [show (km.1, km.2) = km from rfl]; exact hkm)
      rw [this]
      show lookupL km.2 k = some w
      rw [hl, h2]
  · intro h
    unfold WG.cost at h
    cases hl : lookupL g u with
    | none =>
      rw [hl] at h
      exact absurd h (by simp)
    | some m =>
      rw [hl] at h
      refine List.mem_filterMap.mpr ⟨(u, m), lookupL_mem hl, ?_⟩
      show (lookupL m k).map (fun w => (u, w)) = some (u, w)
      rw [show lookupL m k = some w from h]
      rfl

theorem predList_keys_sublist (g : WGraph) (k : ℕ) :
    ((predList g k).map Prod.fst).Sublist (g.map Prod.fst) := by
  induction g with
  | nil => exact List.Sublist.refl _
  | cons km rest ih =>
    show ((List.filterMap _ (km :: rest)).map Prod.fst).Sublist _
    rw [List.filterMap_cons]
    cases hl : (lookupL km.2 k).map (fun w => (km.1, w)) with
    | none => exact List.Sublist.cons _ ih
    | some uw =>
      rw [List.map_cons]
      have h1 : uw.1 = km.1 := by
        cases hm : lookupL km.2 k with
        | none => rw [hm] at hl; exact absurd hl (by simp)
        | some w =>
          rw [hm] at hl
          injection hl with hl
          rw [← hl]
      rw [h1, List.map_cons]
      exact List.Sublist.cons₂ _ ih

theorem predList_keys_nodup {g : WGraph} (hout : (g.map Prod.fst).Nodup) (k : ℕ) :
    ((predList g k).map Prod.fst).Nodup :=
  (predList_keys_sublist g k).nodup hout

theorem walksLen_mem (g : WGraph) (s : ℕ) :
    ∀ n p, p ∈ walksLen g s n ↔ p.length = n ∧ (chainCost g s p).isSome := by
  intro n
  induction n with
  | zero =>
    intro p
    constructor
    · intro h
      rw [show walksLen g s 0 = [[]] from rfl] at h
      rw [List.mem_singleton.mp h]
      exact ⟨rfl, rfl⟩
    · intro ⟨h1, _⟩
      rw [List.length_eq_zero.mp h1]
      exact List.mem_singleton.mpr rfl
  | succ n ih =>
    intro p
    constructor
    · intro h
      rw [show walksLen g s (n+1) = (walksLen g s n).flatMap (fun q =>
        match WG.adjacent g (chainEnd s q) with
        | none => []
        | some adj => adj.map (fun v => q ++ [v])) from rfl] at h
      obtain ⟨q, hq, hp⟩ := List.mem_flatMap.mp h
      obtain ⟨hlen, hcost⟩ := (ih q).mp hq
      cases hadj : WG.adjacent g (chainEnd s q) with
      | none =>
        rw [hadj] at hp
        exact absurd hp (List.not_mem_nil p)
      | some adj =>
        rw [hadj] at hp
        obtain ⟨v, hv, hpv⟩ := List.mem_map.mp hp
        subst hpv
        constructor
        · rw [List.length_append, hlen]
          rfl
        · rw [chainCost_concat]
          cases hcq : chainCost g s q with
          | none => rw [hcq] at hcost; exact absurd hcost (by simp)
          | some cq =>
            have hedge : (WG.cost g (chainEnd s q) v).isSome := by
              unfold WG.adjacent at hadj
              cases hm : lookupL g (chainEnd s q) with
              | none => rw [hm] at hadj; exact absurd hadj (by simp)
              | some m =>
                rw [hm] at hadj
                have hadj' : m.map Prod.fst = adj := by injection hadj with h'
                unfold WG.cost
                rw [hm]
                show (lookupL m v).isSome
                refine mem_keys_isSome ?_
                rw [hadj']
                exact hv
            cases hw : WG.cost g (chainEnd s q) v with
            | none => rw [hw] at hedge; exact absurd hedge (by simp)
            | some w => rfl
    · intro ⟨hlen, hcost⟩
      have hpne : p ≠ [] := by
        intro he
        rw [he] at hlen
        exact absurd hlen (by simp)
      obtain ⟨q, v, hp⟩ := List.eq_nil_or_concat p |>.resolve_left hpne
      rw [List.concat_eq_append] at hp
      subst hp
      rw [chainCost_concat] at hcost
      cases hcq : chainCost g s q with
      | none => rw [hcq] at hcost; exact absurd hcost (by simp)
      | some cq =>
        rw [hcq] at hcost
        cases hw : WG.cost g (chainEnd s q) v with
        | none => rw [hw] at hcost; exact absurd hcost (by simp)
        | some w =>
          have hqmem : q ∈ walksLen g s n := by
            refine (ih q).mpr ⟨?_, by rw [hcq]; rfl⟩
            rw [List.length_append] at hlen
            simpa using hlen
          rw [show walksLen g s (n+1) = (walksLen g s n).flatMap (fun q =>
            match WG.adjacent g (chainEnd s q) with
            | none => []
            | some adj => adj.map (fun v => q ++ [v])) from rfl]
          refine List.mem_flatMap.mpr ⟨q, hqmem, ?_⟩
          unfold WG.cost at hw
          cases hm : lookupL g (chainEnd s q) with
          | none => rw [hm] at hw; exact absurd hw (by simp)
          | some m =>
            rw [hm] at hw
            have hadj : WG.adjacent g (chainEnd s q) = some (m.map Prod.fst) := by
              unfold WG.adjacent
              rw [hm]
              rfl
            rw [hadj]
            refine List.mem_map.mpr ⟨v, ?_, rfl⟩
            exact lookupL_some_mem_keys hw

/-- With positive edge costs, a walk's cost bounds its length. -/
theorem walk_length_le_cost {g : WGraph}
    (hpos : ∀ km ∈ g, ∀ vw ∈ km.2, 0 < vw.2) :
    ∀ (p : List ℕ) (s c : ℕ), chainCost g s p = some c → p.length ≤ c := by
  intro p
  induction p with
  | nil => intro s c _; exact Nat.zero_le c
  | cons v rest ih =>
    intro s c hc
    have hc' : (match WG.cost g s v with
      | none => none
      | some w => (chainCost g v rest).map (fun cc => w + cc)) = some c := hc
    cases hw : WG.cost g s v with
    | none => rw [hw] at hc'; exact absurd hc' (by simp)
    | some w =>
      rw [hw] at hc'
      cases hcr : chainCost g v rest with
      | none => rw [hcr] at hc'; exact absurd hc' (by simp)
      | some cr =>
        rw [hcr] at hc'
        have hcc : w + cr = c := by
          injection hc'
        have hw1 : 0 < w := by
          unfold WG.cost at hw
          cases hm : lookupL g s with
          | none => rw [hm] at hw; exact absurd hw (by simp)
          | some m =>
            rw [hm] at hw
            exact hpos (s, m) (lookupL_mem hm) (v, w) (lookupL_mem hw)
        have := ih v cr hcr
        show rest.length + 1 ≤ c
        omega

theorem countP_flatMap {α β : Type} (l : List α) (f : α → List β) (p : β → Bool) :
    (l.flatMap f).countP p = (l.map (fun x => (f x).countP p)).sum := by
  induction l with
  | nil => rfl
  | cons a rest ih =>
    rw [List.flatMap_cons, List.countP_append, List.map_cons, List.sum_cons, ih]

theorem sum_map_add {α : Type} (l : List α) (f h : α → ℕ) :
    (l.map (fun x => f x + h x)).sum = (l.map f).sum + (l.map h).sum := by
  induction l with
  | nil => rfl
  | cons a rest ih =>
    simp only [List.map_cons, List.sum_cons, ih]
    omega

theorem sum_map_swap {α β : Type} (l1 : List α) (l2 : List β) (f : α → β → ℕ) :
    (l1.map (fun a => (l2.map (f a)).sum)).sum =
      (l2.map (fun b => (l1.map (fun a => f a b)).sum)).sum := by
  induction l1 with
  | nil =>
    show 0 = (l2.map (fun b => 0)).sum
    induction l2 with
    | nil => rfl
    | cons b rest ih => simpa using ih
  | cons a rest ih =>
    rw [List.map_cons, List.sum_cons, ih, ← sum_map_add]
    simp only [List.map_cons, List.sum_cons]

theorem sum_map_zero {α : Type} {l : List α} {f : α → ℕ} (h : ∀ p ∈ l, f p = 0) :
    (l.map f).sum = 0 := by
  induction l with
  | nil => rfl
  | cons a rest ih =>
    rw [List.map_cons, List.sum_cons, h a (List.mem_cons_self _ _),
      ih (fun p hp => h p (List.mem_cons_of_mem a hp))]

theorem sum_single_key {ps : List (ℕ × ℕ)} (hnodup : (ps.map Prod.fst).Nodup)
    (u0 : ℕ) (f : ℕ × ℕ → ℕ) (hz : ∀ p ∈ ps, p.1 ≠ u0 → f p = 0) :
    (ps.map f).sum = (match lookupL ps u0 with
      | some w => f (u0, w)
      | none => 0) := by
  induction ps with
  | nil => rfl
  | cons a rest ih =>
    rw [List.map_cons, List.nodup_cons] at hnodup
    rw [List.map_cons, List.sum_cons]
    by_cases he : a.1 = u0
    · have hl : lookupL (a :: rest) u0 = some a.2 := by
        show (if a.1 = u0 then some a.2 else lookupL rest u0) = some a.2
        rw [if_pos he]
      rw [hl]
      have hrest0 : (rest.map f).sum = 0 := by
        refine sum_map_zero ?_
        intro p hp
        refine hz p (List.mem_cons_of_mem a hp) ?_
        intro hpe
        refine hnodup.1 ?_
        have hm : p.1 ∈ rest.map Prod.fst := List.mem_map.mpr ⟨p, hp, rfl⟩
        rw [he, ← hpe]
        exact hm
      rw [hrest0]
      have ha : (u0, a.2) = a := by
        rw [← he]
      show f a + 0 = f (u0, a.2)
      rw [ha]
      omega
    · have hl : lookupL (a :: rest) u0 = lookupL rest u0 := by
        show (if a.1 = u0 then some a.2 else lookupL rest u0) = _
        rw [if_neg he]
      rw [hl, hz a (List.mem_cons_self _ _) he,
        ih hnodup.2 (fun p hp hne => hz p (List.mem_cons_of_mem a hp) hne)]
      omega

theorem countP_walksLen_zero {g : WGraph} {s e d ln : ℕ}
    (hpos : ∀ km ∈ g, ∀ vw ∈ km.2, 0 < vw.2) (hln : d < ln) :
    (walksLen g s ln).countP
      (fun p => decide (chainCost g s p = some d) && decide (chainEnd s p = e)) = 0 := by
  rw [List.countP_eq_length_filter, List.length_eq_zero, List.filter_eq_nil_iff]
  intro p hp
  obtain ⟨hlen, _⟩ := (walksLen_mem g s ln p).mp hp
  intro hcond
  rw [Bool.and_eq_true, decide_eq_true_eq, decide_eq_true_eq] at hcond
  have := walk_length_le_cost hpos p s d hcond.1
  omega

theorem countWalksCost_ext {g : WGraph} {s e d n : ℕ}
    (hpos : ∀ km ∈ g, ∀ vw ∈ km.2, 0 < vw.2) (hn : d ≤ n) :
    countWalksCost g s e d n = CW g s e d := by
  unfold CW countWalksCost
  obtain ⟨m, rfl⟩ : ∃ m, n = d + m := ⟨n - d, by omega⟩
  induction m with
  | zero => rfl
  | succ m ihm =>
    rw [show d + (m + 1) + 1 = (d + m + 1) + 1 from rfl, List.range_succ,
      List.flatMap_append, List.countP_append, ihm (by omega)]
    have : ([d + m + 1].flatMap (fun ln => walksLen g s ln)).countP
        (fun p => decide (chainCost g s p = some d) && decide (chainEnd s p = e)) = 0 := by
      rw [show [d + m + 1].flatMap (fun ln => walksLen g s ln) =
        walksLen g s (d + m + 1) ++ [] from rfl, List.countP_append]
      rw [countP_walksLen_zero hpos (by omega)]
      rfl
    rw [this]
    omega

theorem predList_lookup {g : WGraph} (hout : (g.map Prod.fst).Nodup) (k u : ℕ) :
    lookupL (predList g k) u = WG.cost g u k := by
  cases hc : WG.cost g u k with
  | some w =>
    exact mem_lookupL_nodup (predList_keys_nodup hout k) ((predList_mem hout k u w).mpr hc)
  | none =>
    cases hl : lookupL (predList g k) u with
    | none => rfl
    | some w' =>
      have := (predList_mem hout k u w').mp (lookupL_mem hl)
      rw [hc] at this
      exact absurd this (by simp)

theorem countP_eq_sum_ind {α : Type} (l : List α) (p : α → Bool) :
    l.countP p = (l.map (fun x => if p x then 1 else 0)).sum := by
  induction l with
  | nil => rfl
  | cons a rest ih =>
    rw [List.countP_cons, List.map_cons, List.sum_cons, ih]
    cases hpa : p a <;> simp [hpa] <;> omega

theorem countP_eq_key (adj : List ℕ) (hnd : adj.Nodup) (k : ℕ) (C : ℕ → Bool) :
    adj.countP (fun v => C v && decide (v = k)) = if k ∈ adj ∧ C k = true then 1 else 0 := by
  induction adj with
  | nil =>
    rw [if_neg]
    · rfl
    · intro h
      exact absurd h.1 (List.not_mem_nil k)
  | cons a rest ih =>
    rw [List.nodup_cons] at hnd
    rw [List.countP_cons, ih hnd.2]
    by_cases he : a = k
    · subst he
      have hnr : a ∉ rest := hnd.1
      by_cases hc : C a = true
      · rw [if_neg (show ¬(a ∈ rest ∧ C a = true) from fun h => hnr h.1),
          if_pos (show (C a && decide (a = a)) = true by rw [hc]; simp),
          if_pos (show a ∈ a :: rest ∧ C a = true from ⟨List.mem_cons_self _ _, hc⟩)]
      · have hcf : C a = false := by
          revert hc
          cases C a
          · intro _; rfl
          · intro hc; exact absurd rfl hc
        rw [if_neg (show ¬(a ∈ rest ∧ C a = true) from fun h => hc h.2),
          if_neg (show ¬((C a && decide (a = a)) = true) by rw [hcf]; simp),
          if_neg (show ¬(a ∈ a :: rest ∧ C a = true) from fun h => hc h.2)]
    · have hba : (C a && decide (a = k)) = false := by
        rw [decide_eq_false he]
        simp
      rw [hba]
      have hmem : (k ∈ a :: rest ∧ C k = true) ↔ (k ∈ rest ∧ C k = true) := by
        constructor
        · intro h
          rcases List.mem_cons.mp h.1 with h1 | h1
          · exact absurd h1.symm he
          · exact ⟨h1, h.2⟩
        · intro h
          exact ⟨List.mem_cons_of_mem a h.1, h.2⟩
      rw [if_congr hmem rfl rfl, if_neg (show ¬(false = true) by simp)]
      omega

theorem if_pull {α : Type} (c : Prop) [Decidable c] (l : List α) (f : α → ℕ) :
    (if c then (l.map f).sum else 0) = (l.map (fun x => if c then f x else 0)).sum := by
  by_cases h : c
  · rw [if_pos h]
    congr 1
    refine List.map_congr_left ?_
    intro x _
    rw [if_pos h]
  · rw [if_neg h]
    refine (sum_map_zero ?_).symm
    intro x _
    rw [if_neg h]

/-- Contribution of a length-`n` walk prefix `q` to the number of
cost-`d` walks to `k` of length `n + 1`. -/
def stepInner (g : WGraph) (s k d : ℕ) (q : List ℕ) : ℕ :=
  match chainCost g s q, WG.cost g (chainEnd s q) k with
  | some cq, some w => if cq + w = d then 1 else 0
  | _, _ => 0

theorem countP_congr' {α : Type} {l : List α} {p q : α → Bool}
    (h : ∀ a ∈ l, p a = q a) : l.countP p = l.countP q := by
  induction l with
  | nil => rfl
  | cons a rest ih =>
    rw [List.countP_cons, List.countP_cons, h a (List.mem_cons_self _ _),
      ih (fun x hx => h x (List.mem_cons_of_mem a hx))]

theorem stepInner_ext {g : WGraph} {s : ℕ}
    (hin : ∀ km ∈ g, (km.2.map Prod.fst).Nodup) (k d : ℕ) (q : List ℕ)
    (hq : (chainCost g s q).isSome) :
    (match WG.adjacent g (chainEnd s q) with
      | none => []
      | some adj => adj.map (fun v => q ++ [v])).countP
      (fun p => decide (chainCost g s p = some d) && decide (chainEnd s p = k)) =
    stepInner g s k d q := by
  cases hcq : chainCost g s q with
  | none =>
    rw [hcq] at hq
    exact absurd hq (by simp)
  | some cq =>
    cases hm : lookupL g (chainEnd s q) with
    | none =>
      have hadj : WG.adjacent g (chainEnd s q) = none := by
        unfold WG.adjacent
        rw [hm]
        rfl
      have hck : WG.cost g (chainEnd s q) k = none := by
        unfold WG.cost
        rw [hm]
        rfl
      rw [hadj]
      unfold stepInner
      rw [hcq, hck]
      rfl
    | some m =>
      have hadj : WG.adjacent g (chainEnd s q) = some (m.map Prod.fst) := by
        unfold WG.adjacent
        rw [hm]
        rfl
      have hnd : (m.map Prod.fst).Nodup := hin (chainEnd s q, m) (lookupL_mem hm)
      rw [hadj]
      show ((m.map Prod.fst).map (fun v => q ++ [v])).countP
        (fun p => decide (chainCost g s p = some d) && decide (chainEnd s p = k)) = _
      rw [List.countP_map]
      have hcong : ∀ v ∈ m.map Prod.fst,
          ((fun p => decide (chainCost g s p = some d) && decide (chainEnd s p = k)) ∘
            (fun v => q ++ [v])) v =
          (fun v => (decide ((WG.cost g (chainEnd s q) v).map (fun w => cq + w) = some d) &&
            decide (v = k))) v := by
        intro v _
        show (decide (chainCost g s (q ++ [v]) = some d) &&
          decide (chainEnd s (q ++ [v]) = k)) = _
        have h1 : chainCost g s (q ++ [v]) =
            (WG.cost g (chainEnd s q) v).map (fun w => cq + w) := by
          rw [chainCost_concat, hcq]
          rfl
        rw [h1, chainEnd_concat]
      rw [countP_congr' hcong, countP_eq_key (m.map Prod.fst) hnd k _]
      unfold stepInner
      rw [hcq]
      cases hck : WG.cost g (chainEnd s q) k with
      | none =>
        have hkn : k ∉ m.map Prod.fst := by
          unfold WG.cost at hck
          rw [hm] at hck
          exact lookupL_none_not_mem hck
        rw [if_neg (fun h => hkn h.1)]
      | some w =>
        have hkm : k ∈ m.map Prod.fst := by
          unfold WG.cost at hck
          rw [hm] at hck
          exact lookupL_some_mem_keys hck
        show (if (k ∈ List.map Prod.fst m ∧
            decide ((some w).map (fun w' => cq + w') = some d) = true)
          then 1 else 0) = if cq + w = d then 1 else 0
        by_cases harith : cq + w = d
        · rw [if_pos ⟨hkm, by
            refine decide_eq_true ?_
            show some (cq + w) = some d
            rw [harith]⟩]
          rw [if_pos harith]
        · rw [if_neg (fun h => ?_), if_neg harith]
          have h2 := decide_eq_true_eq.mp h.2
          have h3 : cq + w = d := by
            have h4 : some (cq + w) = some d := h2
            injection h4
          exact harith h3

theorem stepInner_preds {g : WGraph} {s : ℕ}
    (hout : (g.map Prod.fst).Nodup) (k d : ℕ) (q : List ℕ) {cq : ℕ}
    (hcq : chainCost g s q = some cq) :
    ((predList g k).map (fun uw =>
      ((fun q' => if uw.2 ≤ d then
        (if (decide (chainCost g s q' = some (d - uw.2)) &&
          decide (chainEnd s q' = uw.1)) = true then 1 else 0) else 0) q))).sum =
    stepInner g s k d q := by
  rw [sum_single_key (predList_keys_nodup hout k) (chainEnd s q) _ ?hz]
  case hz =>
    intro p _ hne
    show (if p.2 ≤ d then _ else 0) = 0
    split
    · rw [if_neg]
      intro hcon
      simp only [Bool.and_eq_true, decide_eq_true_eq] at hcon
      exact hne hcon.2.symm
    · rfl
  rw [predList_lookup hout]
  unfold stepInner
  rw [hcq]
  cases hck : WG.cost g (chainEnd s q) k with
  | none => rfl
  | some w =>
    show (if w ≤ d then
        (if (decide (chainCost g s q = some (d - w)) &&
          decide (chainEnd s q = chainEnd s q)) = true then 1 else 0) else 0) =
      if cq + w = d then 1 else 0
    by_cases harith : cq + w = d
    · have hw : w ≤ d := by omega
      have hc1 : chainCost g s q = some (d - w) := by
        rw [hcq]
        congr 1
        omega
      rw [if_pos hw, if_pos (by
        rw [decide_eq_true hc1, decide_eq_true (show chainEnd s q = chainEnd s q from rfl)]
        rfl), if_pos harith]
    · by_cases hw : w ≤ d
      · have hc1 : chainCost g s q ≠ some (d - w) := by
          rw [hcq]
          intro hcon
          have : cq = d - w := by injection hcon
          omega
        rw [if_pos hw, if_neg (by
          rw [decide_eq_false hc1]
          simp), if_neg harith]
      · rw [if_neg hw, if_neg harith]

theorem step_decomp {g : WGraph} (s : ℕ)
    (hout : (g.map Prod.fst).Nodup)
    (hin : ∀ km ∈ g, (km.2.map Prod.fst).Nodup) (n k d : ℕ) :
    (walksLen g s (n + 1)).countP
      (fun p => decide (chainCost g s p = some d) && decide (chainEnd s p = k)) =
    ((predList g k).map (fun uw => if uw.2 ≤ d then
      (walksLen g s n).countP
        (fun q => decide (chainCost g s q = some (d - uw.2)) && decide (chainEnd s q = uw.1))
      else 0)).sum := by
  rw [show walksLen g s (n + 1) = (walksLen g s n).flatMap (fun q =>
    match WG.adjacent g (chainEnd s q) with
    | none => []
    | some adj => adj.map (fun v => q ++ [v])) from rfl]
  rw [countP_flatMap]
  rw [List.map_congr_left
    (fun q hq => stepInner_ext hin k d q ((walksLen_mem g s n q).mp hq).2)]
  have hR1 : ((predList g k).map (fun uw => if uw.2 ≤ d then
      (walksLen g s n).countP
        (fun q => decide (chainCost g s q = some (d - uw.2)) && decide (chainEnd s q = uw.1))
      else 0)).sum =
    ((predList g k).map (fun uw => ((walksLen g s n).map (fun q' =>
      if uw.2 ≤ d then
        (if (decide (chainCost g s q' = some (d - uw.2)) &&
          decide (chainEnd s q' = uw.1)) = true then 1 else 0) else 0)).sum)).sum := by
    congr 1
    refine List.map_congr_left ?_
    intro uw _
    rw [countP_eq_sum_ind, if_pull]
  rw [hR1, sum_map_swap]
  congr 1
  refine List.map_congr_left ?_
  intro q hq
  have hex : ∃ cq, chainCost g s q = some cq := by
    cases hcc : chainCost g s q with
    | none =>
      have := ((walksLen_mem g s n q).mp hq).2
      rw [hcc] at this
      exact absurd this (by simp)
    | some cq => exact ⟨cq, rfl⟩
  obtain ⟨cq, hcq⟩ := hex
  exact (stepInner_preds hout k d q hcq).symm

theorem predList_pos {g : WGraph} (hpos : ∀ km ∈ g, ∀ vw ∈ km.2, 0 < vw.2)
    (hout : (g.map Prod.fst).Nodup) {k : ℕ} {uw : ℕ × ℕ}
    (h : uw ∈ predList g k) : 0 < uw.2 := by
  have hc := (predList_mem hout k uw.1 uw.2).mp (by
    rw [show (uw.1, uw.2) = uw from rfl]
    exact h)
  unfold WG.cost at hc
  cases hm : lookupL g uw.1 with
  | none => rw [hm] at hc; exact absurd hc (by simp)
  | some m =>
    rw [hm] at hc
    exact hpos (uw.1, m) (lookupL_mem hm) (k, uw.2) (lookupL_mem hc)

/-- Decomposing the number of cost-`d` walks to `k` over the last edge:
the tied-predecessor recursion for path counts. -/
theorem cw_decomp {g : WGraph} {s : ℕ}
    (hpos : ∀ km ∈ g, ∀ vw ∈ km.2, 0 < vw.2)
    (hout : (g.map Prod.fst).Nodup)
    (hin : ∀ km ∈ g, (km.2.map Prod.fst).Nodup)
    (k d : ℕ) (hkd : ¬(k = s ∧ d = 0)) :
    CW g s k d = ((predList g k).map (fun uw => if uw.2 ≤ d then
      CW g s uw.1 (d - uw.2) else 0)).sum := by
  cases d with
  | zero =>
    have hL : CW g s k 0 = 0 := by
      unfold CW countWalksCost
      show ([[]] : List (List ℕ)).countP _ = 0
      rw [List.countP_cons]
      have hpred : (decide (chainCost g s ([] : List ℕ) = some 0) &&
          decide (chainEnd s ([] : List ℕ) = k)) = false := by
        by_cases hs : s = k
        · exact absurd ⟨hs.symm, rfl⟩ hkd
        · rw [decide_eq_false (show ¬(chainEnd s ([] : List ℕ) = k) from hs)]
          simp
      rw [hpred]
      rfl
    rw [hL]
    refine (sum_map_zero ?_).symm
    intro uw hw
    rw [if_neg]
    have := predList_pos hpos hout hw
    omega
  | succ d0 =>
    unfold CW countWalksCost
    rw [List.range_succ_eq_map, List.flatMap_cons, List.countP_append]
    have h0 : (walksLen g s 0).countP
        (fun p => decide (chainCost g s p = some (d0 + 1)) && decide (chainEnd s p = k)) = 0 := by
      show ([[]] : List (List ℕ)).countP _ = 0
      rw [List.countP_cons]
      have hpred : (decide (chainCost g s ([] : List ℕ) = some (d0 + 1)) &&
          decide (chainEnd s ([] : List ℕ) = k)) = false := by
        rw [decide_eq_false (show ¬(chainCost g s ([] : List ℕ) = some (d0 + 1)) by
          intro hcon
          have : (0 : ℕ) = d0 + 1 := by
            have h2 : (some 0 : Option ℕ) = some (d0 + 1) := hcon
            injection h2
          omega)]
        simp
      rw [hpred]
      rfl
    rw [h0]
    rw [List.flatMap_map, countP_flatMap]
    have hstep : ∀ n ∈ List.range (d0 + 1),
        (walksLen g s n.succ).countP
          (fun p => decide (chainCost g s p = some (d0 + 1)) && decide (chainEnd s p = k)) =
        ((predList g k).map (fun uw => if uw.2 ≤ d0 + 1 then
          (walksLen g s n).countP (fun q => decide (chainCost g s q = some (d0 + 1 - uw.2)) &&
            decide (chainEnd s q = uw.1)) else 0)).sum := by
      intro n _
      exact step_decomp s hout hin n k (d0 + 1)
    rw [List.map_congr_left hstep, sum_map_swap]
    rw [Nat.zero_add]
    congr 1
    refine List.map_congr_left ?_
    intro uw hw
    have hwpos := predList_pos hpos hout hw
    rw [← if_pull]
    by_cases hle : uw.2 ≤ d0 + 1
    · rw [if_pos hle, if_pos hle]
      have : ((List.range (d0 + 1)).map (fun n => (walksLen g s n).countP
          (fun q => decide (chainCost g s q = some (d0 + 1 - uw.2)) &&
            decide (chainEnd s q = uw.1)))).sum =
          countWalksCost g s uw.1 (d0 + 1 - uw.2) d0 := by
        unfold countWalksCost
        rw [countP_flatMap]
      rw [this, countWalksCost_ext hpos (by omega)]
      rfl
    · rw [if_neg hle, if_neg hle]

theorem CW_start (g : WGraph) (s : ℕ) : CW g s s 0 = 1 := by
  unfold CW countWalksCost
  show ([[]] : List (List ℕ)).countP _ = 1
  rw [List.countP_cons,
    decide_eq_true (show chainCost g s ([] : List ℕ) = some 0 from rfl),
    decide_eq_true (show chainEnd s ([] : List ℕ) = s from rfl)]
  rfl

theorem CW_pos {g : WGraph} (hpos : ∀ km ∈ g, ∀ vw ∈ km.2, 0 < vw.2) {s e d : ℕ} :
    0 < CW g s e d ↔ ∃ p, chainCost g s p = some d ∧ chainEnd s p = e := by
  unfold CW countWalksCost
  rw [List.countP_pos]
  constructor
  · intro ⟨p, _, hp⟩
    rw [Bool.and_eq_true, decide_eq_true_eq, decide_eq_true_eq] at hp
    exact ⟨p, hp.1, hp.2⟩
  · intro ⟨p, hc, he⟩
    refine ⟨p, ?_, ?_⟩
    · refine List.mem_flatMap.mpr ⟨p.length, ?_, ?_⟩
      · refine List.mem_range.mpr ?_
        have := walk_length_le_cost hpos p s d hc
        omega
      · exact (walksLen_mem g s p.length p).mpr ⟨rfl, by rw [hc]; rfl⟩
    · rw [Bool.and_eq_true, decide_eq_true_eq, decide_eq_true_eq]
      exact ⟨hc, he⟩

theorem exists_min_awalk {g : WGraph} {s k c : ℕ} (h : AWalk g s k c) :
    ∃ d, IsMinAWalk g s k d := by
  have hne : {c' : ℕ | AWalk g s k c'}.Nonempty := ⟨c, h⟩
  exact ⟨sInf {c' | AWalk g s k c'}, Nat.sInf_mem hne, fun c' hc' => Nat.sInf_le hc'⟩

/-! ### Count-loop invariants -/

/-- Recorded costs of the count map are exact minima over all walks
(the count map records `start ↦ 0` from the initial `None` entry). -/
def RInvA (g : WGraph) (start : ℕ) (R : RCMap) : Prop :=
  ∀ k p, lookupL R k = some p → IsMinAWalk g start k p.1

/-- The start key is recorded at cost 0 with the single precedent
`None ↦ 1`. -/
def StartInv (start : ℕ) (R : RCMap) : Prop :=
  lookupL R start = some (0, [(none, 1)])

/-- Every heap entry `(k, Some u, c)` extends a recorded key `u` by an
edge: `c` equals `u`'s recorded cost plus the edge weight. -/
def HeapInvC (g : WGraph) (start : ℕ) (H : List SEntry) (R : RCMap) : Prop :=
  ∀ e ∈ H, ∃ u pu w, e.2.1 = some u ∧ lookupL R u = some pu ∧
    WG.cost g u e.1 = some w ∧ e.2.2 = pu.1 + w

/-- Each edge out of a recorded key is pending in the heap or fully
processed: target recorded no worse, with the tied contribution
(`CW` many routes) already summed into the target's precedent map. -/
def EdgeState (g : WGraph) (start : ℕ) (H : List SEntry) (R : RCMap) : Prop :=
  ∀ u pu, lookupL R u = some pu → ∀ v w, WG.cost g u v = some w →
    ((v, some u, pu.1 + w) : SEntry) ∈ H ∨
    (∃ pv, lookupL R v = some pv ∧ pv.1 ≤ pu.1 + w ∧
      (pu.1 + w = pv.1 → lookupL pv.2 (some u) = some (CW g start u pu.1)))

/-- Precedent maps are sound: every stored contribution comes from a
recorded tied predecessor with the exact route count. -/
def CntInv (g : WGraph) (start : ℕ) (R : RCMap) : Prop :=
  ∀ k p, lookupL R k = some p →
    (k = start → p.1 = 0 ∧ p.2 = [(none, 1)]) ∧
    (k ≠ start →
      lookupL p.2 none = none ∧
      (p.2.map Prod.fst).Nodup ∧
      ∀ u c, lookupL p.2 (some u) = some c → ∃ w pu, WG.cost g u k = some w ∧
        lookupL R u = some pu ∧ pu.1 + w = p.1 ∧ c = CW g start u pu.1)

/-- Recorded costs never exceed heap entry costs (pops are monotone). -/
def GEInv (H : List SEntry) (R : RCMap) : Prop :=
  ∀ e ∈ H, ∀ k p, lookupL R k = some p → p.1 ≤ e.2.2

/-- A pending tied entry and a stored contribution are mutually
exclusive. -/
def ExclInv (H : List SEntry) (R : RCMap) : Prop :=
  ∀ k p u, lookupL R k = some p → ((k, some u, p.1) : SEntry) ∈ H →
    lookupL p.2 (some u) = none

/-- No two heap entries share the same `(key, from)` pair (each edge is
pushed at most once, at the expansion of its source). -/
def HPU (H : List SEntry) : Prop :=
  List.Pairwise (fun e1 e2 => e1.1 ≠ e2.1 ∨ e1.2.1 ≠ e2.2.1) H

theorem relax_of_edgeState {g : WGraph} {start : ℕ} {H : List SEntry} {R : RCMap}
    (hes : EdgeState g start H R) (hstart : StartInv start R) :
    RelaxInv g start H R := by
  constructor
  · intro v w hvw
    rcases hes start (0, [(none, 1)]) hstart v w hvw with h | ⟨pv, hpv, hle, _⟩
    · exact Or.inr ⟨0 + w, le_refl _, h⟩
    · exact Or.inl ⟨pv, hpv, hle⟩
  · intro u pu hpu v w hvw
    rcases hes u pu hpu v w hvw with h | ⟨pv, hpv, hle, _⟩
    · exact Or.inr ⟨pu.1 + w, le_refl _, h⟩
    · exact Or.inl ⟨pv, hpv, hle⟩

theorem popped_is_minA {g : WGraph} {start : ℕ} {H : List SEntry} {R : RCMap}
    {key u cost : ℕ} {H' : List SEntry}
    (hheap : HeapInvC g start H R) (hra : RInvA g start R)
    (hrx : RelaxInv g start H R) (hstart : StartInv start R)
    (hpm : popMin H = some ((key, some u, cost), H'))
    (hrec : lookupL R key = none) : IsMinAWalk g start key cost := by
  obtain ⟨hmem, _, _, _, hmin⟩ := popMin_spec hpm
  obtain ⟨u', pu, w, hfrom, hru, hedge, hcost⟩ := hheap _ hmem
  have hAW : AWalk g start key cost := by
    have h1 : AWalk g start u' pu.1 := (hra u' pu hru).1
    have h2 := awalk_step h1 hedge
    have hcost' : cost = pu.1 + w := hcost
    rw [hcost']
    exact nwalk_awalk h2
  refine ⟨hAW, ?_⟩
  intro c hw
  obtain ⟨p, hc, he⟩ := hw
  cases p with
  | nil =>
    exfalso
    have : start = key := he
    rw [← this] at hrec
    rw [hstart] at hrec
    exact absurd hrec (by simp)
  | cons x rest =>
    rcases walk_cut hrx (x :: rest) (by simp) c key hc he with ⟨q, hq, _⟩ | ⟨ee, hemem, hele⟩
    · rw [hrec] at hq
      exact absurd hq (by simp)
    · exact le_trans (hmin ee hemem) hele

theorem lookupL_filter_ne {κ α : Type} [DecidableEq κ] (l : List (κ × α)) (k0 k : κ)
    (h : k ≠ k0) :
    lookupL (l.filter (fun q => q.1 ≠ k0)) k = lookupL l k := by
  induction l with
  | nil => rfl
  | cons a rest ih =>
    rw [List.filter_cons]
    by_cases he : a.1 = k0
    · rw [if_neg (by simp [he])]
      have hak : a.1 ≠ k := fun hh => h (hh ▸ he)
      rw [ih]
      show _ = (if a.1 = k then some a.2 else lookupL rest k)
      rw [if_neg hak]
    · rw [if_pos (by simp [he])]
      show (if a.1 = k then some a.2 else lookupL (rest.filter (fun q => q.1 ≠ k0)) k) = _
      by_cases hak : a.1 = k
      · rw [if_pos hak]
        show _ = (if a.1 = k then some a.2 else lookupL rest k)
        rw [if_pos hak]
      · rw [if_neg hak, ih]
        show _ = (if a.1 = k then some a.2 else lookupL rest k)
        rw [if_neg hak]

theorem rcTotal_filter {fm : List (Option ℕ × ℕ)} (hnd : (fm.map Prod.fst).Nodup)
    {k0 : Option ℕ} {c : ℕ} (h : lookupL fm k0 = some c) :
    rcTotal fm = rcTotal (fm.filter (fun q => q.1 ≠ k0)) + c := by
  induction fm with
  | nil => exact absurd h (by simp [lookupL])
  | cons a rest ih =>
    rw [List.map_cons, List.nodup_cons] at hnd
    have h' : (if a.1 = k0 then some a.2 else lookupL rest k0) = some c := h
    rw [List.filter_cons]
    by_cases he : a.1 = k0
    · rw [if_pos he] at h'
      injection h' with h'
      rw [if_neg (by simp [he])]
      have hrest : rest.filter (fun q => q.1 ≠ k0) = rest := by
        refine List.filter_eq_self.mpr ?_
        intro q hq
        refine decide_eq_true ?_
        intro hq0
        exact hnd.1 (he ▸ hq0 ▸ List.mem_map.mpr ⟨q, hq, rfl⟩)
      rw [hrest]
      unfold rcTotal
      rw [List.map_cons, List.sum_cons, h']
      omega
    · rw [if_neg he] at h'
      rw [if_pos (by simp [he])]
      unfold rcTotal
      rw [List.map_cons, List.sum_cons, List.map_cons, List.sum_cons]
      have := ih hnd.2 h'
      unfold rcTotal at this
      omega

theorem sum_lookup_getD (ps : List (ℕ × ℕ)) (fm : List (Option ℕ × ℕ))
    (hnodup_ps : (ps.map Prod.fst).Nodup)
    (hnodup_fm : (fm.map Prod.fst).Nodup)
    (hsub : ∀ q ∈ fm, ∃ u, q.1 = some u ∧ u ∈ ps.map Prod.fst) :
    (ps.map (fun uw => (lookupL fm (some uw.1)).getD 0)).sum = rcTotal fm := by
  induction ps generalizing fm with
  | nil =>
    cases fm with
    | nil => rfl
    | cons q rest =>
      obtain ⟨u, _, hu⟩ := hsub q (List.mem_cons_self _ _)
      exact absurd hu (by simp)
  | cons a rest ih =>
    rw [List.map_cons, List.nodup_cons] at hnodup_ps
    rw [List.map_cons, List.sum_cons]
    cases hl : lookupL fm (some a.1) with
    | none =>
      have hsub' : ∀ q ∈ fm, ∃ u, q.1 = some u ∧ u ∈ rest.map Prod.fst := by
        intro q hq
        obtain ⟨u, hq1, hu⟩ := hsub q hq
        rcases List.mem_cons.mp hu with h1 | h1
        · exfalso
          have : some a.1 ∈ fm.map Prod.fst := by
            rw [← h1, ← hq1]
            exact List.mem_map.mpr ⟨q, hq, rfl⟩
          have := mem_keys_isSome this
          rw [hl] at this
          exact absurd this (by simp)
        · exact ⟨u, hq1, h1⟩
      rw [ih fm hnodup_ps.2 hnodup_fm hsub']
      simp
    | some c =>
      have hfm' : (fm.filter (fun q => q.1 ≠ some a.1)).map Prod.fst |>.Nodup :=
        List.Nodup.sublist ((List.filter_sublist _).map Prod.fst) hnodup_fm
      have hsub' : ∀ q ∈ fm.filter (fun q => q.1 ≠ some a.1),
          ∃ u, q.1 = some u ∧ u ∈ rest.map Prod.fst := by
        intro q hq
        have hq1 := List.mem_filter.mp hq
        obtain ⟨u, hqe, hu⟩ := hsub q hq1.1
        rcases List.mem_cons.mp hu with h1 | h1
        · exfalso
          have := hq1.2
          rw [decide_eq_true_eq] at this
          exact this (by rw [hqe, h1])
        · exact ⟨u, hqe, h1⟩
      have hcong : ∀ uw ∈ rest, (lookupL fm (some uw.1)).getD 0 =
          (lookupL (fm.filter (fun q => q.1 ≠ some a.1)) (some uw.1)).getD 0 := by
        intro uw hw
        have hne : uw.1 ≠ a.1 := by
          intro hh
          exact hnodup_ps.1 (hh ▸ List.mem_map.mpr ⟨uw, hw, rfl⟩)
        rw [lookupL_filter_ne fm (some a.1) (some uw.1) (by
          intro hh
          injection hh with hh
          exact hne hh)]
      rw [List.map_congr_left hcong, ih _ hnodup_ps.2 hfm' hsub',
        rcTotal_filter hnodup_fm hl]
      simp only [Option.getD_some]
      omega

/-- When a key's pending tied entries are all processed, its stored
total equals the true number of minimum-cost walks. -/
theorem total_eq_CW {g : WGraph} {start : ℕ} {H : List SEntry} {R : RCMap}
    (hpos : ∀ km ∈ g, ∀ vw ∈ km.2, 0 < vw.2)
    (hout : (g.map Prod.fst).Nodup)
    (hin : ∀ km ∈ g, (km.2.map Prod.fst).Nodup)
    (hra : RInvA g start R) (hcnt : CntInv g start R) (hstart : StartInv start R)
    (hes : EdgeState g start H R)
    {u : ℕ} {pu : ℕ × List (Option ℕ × ℕ)} (hu : lookupL R u = some pu)
    (hdone : ∀ u', ((u, some u', pu.1) : SEntry) ∉ H)
    (hbelow : ∀ k' d', IsMinAWalk g start k' d' → d' < pu.1 →
      ∃ q, lookupL R k' = some q) :
    rcTotal pu.2 = CW g start u pu.1 := by
  by_cases hus : u = start
  · subst hus
    have hpu : pu = (0, [(none, 1)]) := by
      have := hu.symm.trans hstart
      injection this
    rw [hpu]
    show 1 = CW g u u 0
    rw [CW_start]
  · obtain ⟨hnone, hnd, hsound⟩ := (hcnt u pu hu).2 hus
    rw [cw_decomp hpos hout hin u pu.1 (fun hh => hus hh.1)]
    have hpoint : ∀ uw ∈ predList g u,
        (if uw.2 ≤ pu.1 then CW g start uw.1 (pu.1 - uw.2) else 0) =
        (lookupL pu.2 (some uw.1)).getD 0 := by
      intro uw hw
      have hedge : WG.cost g uw.1 u = some uw.2 :=
        (predList_mem hout u uw.1 uw.2).mp (by
          rw [show (uw.1, uw.2) = uw from rfl]
          exact hw)
      have hwpos : 0 < uw.2 := predList_pos hpos hout hw
      cases hl : lookupL pu.2 (some uw.1) with
      | some c =>
        obtain ⟨w', pu', hew', hru', htie', hc'⟩ := hsound uw.1 c hl
        have hww : w' = uw.2 := by
          have := hew'.symm.trans hedge
          injection this
        rw [if_pos (by omega), hc']
        show CW g start uw.1 (pu.1 - uw.2) = CW g start uw.1 pu'.1
        rw [show pu.1 - uw.2 = pu'.1 by omega]
      | none =>
        by_cases hle : uw.2 ≤ pu.1
        · rw [if_pos hle]
          show CW g start uw.1 (pu.1 - uw.2) = 0
          by_contra hne0
          have hpos0 : 0 < CW g start uw.1 (pu.1 - uw.2) := Nat.pos_of_ne_zero hne0
          obtain ⟨p, hpc, hpe⟩ := (CW_pos hpos).mp hpos0
          have hAW : AWalk g start uw.1 (pu.1 - uw.2) := ⟨p, hpc, hpe⟩
          obtain ⟨d', hd'⟩ := exists_min_awalk hAW
          have hd'le : d' ≤ pu.1 - uw.2 := hd'.2 _ hAW
          have hge : pu.1 ≤ d' + uw.2 := by
            obtain ⟨p', hp'c, hp'e⟩ := hd'.1
            have hnw := awalk_step ⟨p', hp'c, hp'e⟩ hedge
            exact (hra u pu hu).2 _ (nwalk_awalk hnw)
          have htie : d' + uw.2 = pu.1 := by omega
          obtain ⟨q, hq⟩ := hbelow uw.1 d' hd' (by omega)
          have hqd : q.1 = d' := by
            have h1 := hra uw.1 q hq
            have h2 := h1.2 d' hd'.1
            have h3 := hd'.2 q.1 h1.1
            omega
          rcases hes uw.1 q hq u uw.2 hedge with hpend | ⟨pv, hpv, _, hcontr⟩
          · rw [hqd] at hpend
            rw [htie] at hpend
            exact hdone uw.1 hpend
          · have hpveq : pv = pu := by
              have := hpv.symm.trans hu
              injection this
            subst hpveq
            have := hcontr (by omega)
            rw [hl] at this
            exact absurd this (by simp)
        · rw [if_neg hle]
          rfl
    rw [List.map_congr_left hpoint]
    refine (sum_lookup_getD (predList g u) pu.2 (predList_keys_nodup hout u) hnd ?_).symm
    intro q hq
    have hq1 : ∃ uq, q.1 = some uq := by
      cases hqq : q.1 with
      | none =>
        exfalso
        have : (none : Option ℕ) ∈ pu.2.map Prod.fst := by
          rw [← hqq]
          exact List.mem_map.mpr ⟨q, hq, rfl⟩
        have := mem_keys_isSome this
        rw [hnone] at this
        exact absurd this (by simp)
      | some uq => exact ⟨uq, rfl⟩
    obtain ⟨uq, hqe⟩ := hq1
    refine ⟨uq, hqe, ?_⟩
    have hlq : lookupL pu.2 (some uq) = some q.2 := by
      rw [← hqe]
      exact mem_lookupL_nodup hnd (by
        rw [show (q.1, q.2) = q from rfl]
        exact hq)
    obtain ⟨w, pu', hew, _, _, _⟩ := hsound uq q.2 hlq
    have : (uq, w) ∈ predList g u := (predList_mem hout u uq w).mpr hew
    exact List.mem_map.mpr ⟨(uq, w), this, rfl⟩

theorem popMin_sublist {H : List SEntry} {eH : SEntry} {H' : List SEntry}
    (h : popMin H = some (eH, H')) : H'.Sublist H := by
  induction H generalizing eH H' with
  | nil => exact absurd h (by simp [popMin])
  | cons a rest ih =>
    rcases hr : popMin rest with _ | ⟨m, rest'⟩
    · rw [popMin_cons_none hr] at h
      injection h with h
      injection h with h1 h2
      subst h2
      exact List.nil_sublist _
    · rw [popMin_cons_some hr] at h
      split at h
      · injection h with h
        injection h with h1 h2
        subst h2
        exact List.sublist_cons_self a rest
      · injection h with h
        injection h with h1 h2
        subst h2
        exact List.Sublist.cons₂ a (ih hr)

/-- The batch of entries pushed when expanding `key` at cost `cost`. -/
def pushListC (g : WGraph) (key cost : ℕ) : List SEntry :=
  match WG.adjacent g key with
  | none => []
  | some adj => adj.filterMap
      (fun ak => (WG.cost g key ak).map (fun w => (ak, some key, cost + w)))

theorem pushC_mem {g : WGraph} {key cost : ℕ} {x : SEntry}
    (hx : x ∈ pushListC g key cost) :
    ∃ ak wv, WG.cost g key ak = some wv ∧ x = (ak, some key, cost + wv) := by
  unfold pushListC at hx
  cases hadj : WG.adjacent g key with
  | none =>
    rw [hadj] at hx
    exact absurd hx (List.not_mem_nil x)
  | some adj =>
    rw [hadj] at hx
    exact push_inv hx

theorem pushC_complete {g : WGraph} {key cost v w : ℕ}
    (hc : WG.cost g key v = some w) :
    ((v, some key, cost + w) : SEntry) ∈ pushListC g key cost := by
  unfold pushListC
  have hm : ∃ m, lookupL g key = some m := by
    unfold WG.cost at hc
    cases hm : lookupL g key with
    | none => rw [hm] at hc; exact absurd hc (by simp)
    | some m => exact ⟨m, rfl⟩
  obtain ⟨m, hm⟩ := hm
  have hadj : WG.adjacent g key = some (m.map Prod.fst) := by
    unfold WG.adjacent
    rw [hm]
    rfl
  rw [hadj]
  exact push_mem hadj hc

theorem pushC_len (g : WGraph) (key cost : ℕ) :
    (pushListC g key cost).length ≤ wgOutdeg g key := by
  unfold pushListC
  cases hadj : WG.adjacent g key with
  | none => simp
  | some adj =>
    show (adj.filterMap
      (fun ak => (WG.cost g key ak).map (fun w => (ak, some key, cost + w)))).length ≤
      wgOutdeg g key
    have h1 := List.length_filterMap_le
      (fun ak => (WG.cost g key ak).map (fun w => (ak, some key, cost + w))) adj
    have h2 : adj.length = wgOutdeg g key := by
      unfold WG.adjacent at hadj
      cases hm : lookupL g key with
      | none => rw [hm] at hadj; exact absurd hadj (by simp)
      | some m =>
        rw [hm] at hadj
        have : m.map Prod.fst = adj := by injection hadj with h
        unfold wgOutdeg
        rw [hm, ← this]
        simp
    omega

theorem pushC_keys_sublist (g : WGraph) (key cost : ℕ) {adj : List ℕ}
    (hadj : WG.adjacent g key = some adj) :
    ((pushListC g key cost).map Prod.fst).Sublist adj := by
  unfold pushListC
  rw [hadj]
  show ((adj.filterMap
    (fun ak => (WG.cost g key ak).map (fun w => (ak, some key, cost + w)))).map
    Prod.fst).Sublist adj
  clear hadj
  induction adj with
  | nil => exact List.Sublist.refl _
  | cons a rest ih =>
    rw [List.filterMap_cons]
    cases hc : (WG.cost g key a).map (fun w => (a, some key, cost + w)) with
    | none => exact List.Sublist.cons _ ih
    | some x =>
      have hx1 : x.1 = a := by
        cases hw : WG.cost g key a with
        | none => rw [hw] at hc; exact absurd hc (by simp)
        | some w =>
          rw [hw] at hc
          injection hc with hc
          rw [← hc]
      rw [List.map_cons, hx1]
      exact List.Sublist.cons₂ _ ih

theorem pushC_pairwise {g : WGraph} (key cost : ℕ)
    (hin : ∀ km ∈ g, (km.2.map Prod.fst).Nodup) :
    HPU (pushListC g key cost) := by
  have hnd : ((pushListC g key cost).map Prod.fst).Nodup := by
    cases hadj : WG.adjacent g key with
    | none =>
      unfold pushListC
      rw [hadj]
      exact List.nodup_nil
    | some adj =>
      refine (pushC_keys_sublist g key cost hadj).nodup ?_
      unfold WG.adjacent at hadj
      cases hm : lookupL g key with
      | none => rw [hm] at hadj; exact absurd hadj (by simp)
      | some m =>
        rw [hm] at hadj
        have : m.map Prod.fst = adj := by injection hadj with h
        rw [← this]
        exact hin (key, m) (lookupL_mem hm)
  have hp : List.Pairwise (fun a b : SEntry => a.1 ≠ b.1) (pushListC g key cost) :=
    (List.pairwise_map).mp hnd
  exact hp.imp (fun h => Or.inl h)

theorem popMin_pairwise_rest {Rel : SEntry → SEntry → Prop} {H : List SEntry}
    {eH : SEntry} {H' : List SEntry} (hp : List.Pairwise Rel H)
    (h : popMin H = some (eH, H')) : ∀ x ∈ H', Rel eH x ∨ Rel x eH := by
  induction H generalizing eH H' with
  | nil => exact absurd h (by simp [popMin])
  | cons a rest ih =>
    rw [List.pairwise_cons] at hp
    rcases hr : popMin rest with _ | ⟨m, rest'⟩
    · rw [popMin_cons_none hr] at h
      injection h with h
      injection h with h1 h2
      subst h1
      subst h2
      intro x hx
      exact absurd hx (List.not_mem_nil x)
    · rw [popMin_cons_some hr] at h
      obtain ⟨hm_mem, _, _, hm_sub, _⟩ := popMin_spec hr
      split at h
      · injection h with h
        injection h with h1 h2
        subst h1
        subst h2
        intro x hx
        exact Or.inl (hp.1 x hx)
      · injection h with h
        injection h with h1 h2
        subst h1
        subst h2
        intro x hx
        rcases List.mem_cons.mp hx with h1 | h1
        · subst h1
          exact Or.inr (hp.1 m hm_mem)
        · exact ih hp.2 hr x h1

theorem cost_pos {g : WGraph} (hpos : ∀ km ∈ g, ∀ vw ∈ km.2, 0 < vw.2)
    {a b w : ℕ} (h : WG.cost g a b = some w) : 0 < w := by
  unfold WG.cost at h
  cases hm : lookupL g a with
  | none => rw [hm] at h; exact absurd h (by simp)
  | some m =>
    rw [hm] at h
    exact hpos (a, m) (lookupL_mem hm) (b, w) (lookupL_mem h)

/-- Keys cheaper than every heap entry are already recorded. -/
theorem recorded_below {g : WGraph} {start : ℕ} {H : List SEntry} {R : RCMap}
    (hes : EdgeState g start H R) (hstart : StartInv start R)
    (cut : ℕ) (hcut : ∀ x ∈ H, cut ≤ x.2.2) :
    ∀ k' d', IsMinAWalk g start k' d' → d' < cut → ∃ q, lookupL R k' = some q := by
  intro k' d' hmin hlt
  obtain ⟨p, hpc, hpe⟩ := hmin.1
  cases p with
  | nil =>
    have : start = k' := hpe
    exact ⟨_, this ▸ hstart⟩
  | cons x rest =>
    rcases walk_cut (relax_of_edgeState hes hstart) (x :: rest) (by simp) d' k' hpc hpe with
      ⟨q, hq, _⟩ | ⟨e', he', hle'⟩
    · exact ⟨q, hq⟩
    · exact absurd (hcut e' he') (by omega)

/-- Main invariant argument for the counting search loop with the
`shortest_path_count` early-finish closure. -/
theorem spcLoop_correct (g : WGraph) (start e : ℕ)
    (hpos : ∀ km ∈ g, ∀ vw ∈ km.2, 0 < vw.2)
    (hout : (g.map Prod.fst).Nodup)
    (hin : ∀ km ∈ g, (km.2.map Prod.fst).Nodup) :
    ∀ (fuel : ℕ) (H : List SEntry) (R : RCMap),
      HeapInvC g start H R → RInvA g start R → StartInv start R →
      EdgeState g start H R → CntInv g start R → GEInv H R → ExclInv H R → HPU H →
      spPhi g H R < fuel →
      ∃ M ret, spcLoop g (spcEarly e) fuel H R = some (M, ret) ∧
        ((∃ c, AWalk g start e c) → ∃ pe, lookupL M e = some pe ∧
          IsMinAWalk g start e pe.1 ∧ rcTotal pe.2 = CW g start e pe.1) := by
  intro fuel
  induction fuel with
  | zero =>
    intro H R _ _ _ _ _ _ _ _ hphi
    exact absurd hphi (Nat.not_lt_zero _)
  | succ fuel ih =>
    intro H R hheap hra hstart hes hcnt hge hexcl hhpu hphi
    rcases hpm : popMin H with _ | ⟨⟨key, from?, cost⟩, H'⟩
    · have hH : H = [] := popMin_eq_none.mp hpm
      subst hH
      refine ⟨R, none, spcLoop_none hpm, ?_⟩
      intro hreach
      obtain ⟨c, hAW⟩ := hreach
      obtain ⟨d0, hd0⟩ := exists_min_awalk hAW
      obtain ⟨pe, hpe⟩ := recorded_below hes hstart (d0 + 1)
        (fun x hx => absurd hx (List.not_mem_nil x)) e d0 hd0 (by omega)
      refine ⟨pe, hpe, hra e pe hpe, ?_⟩
      refine total_eq_CW hpos hout hin hra hcnt hstart hes hpe ?_ ?_
      · intro u' hm
        exact absurd hm (List.not_mem_nil _)
      · intro k' d' hm hlt
        exact recorded_below hes hstart (d' + 1)
          (fun x hx => absurd hx (List.not_mem_nil x)) k' d' hm (by omega)
    · obtain ⟨hmem, hlen, hrem, hsubm, hminH⟩ := popMin_spec hpm
      obtain ⟨u, pu, w0, hfrom, hru, hw0, hcosteq⟩ := hheap _ hmem
      have hfrom' : from? = some u := hfrom
      subst hfrom'
      have hcost' : cost = pu.1 + w0 := hcosteq
      have hw0pos : 0 < w0 := cost_pos hpos hw0
      have hsubl := popMin_sublist hpm
      have hdoneu : ∀ u', ((u, some u', pu.1) : SEntry) ∉ H := by
        intro u' hm'
        have h2 : cost ≤ pu.1 := hminH _ hm'
        omega
      have hbelowc : ∀ k' d', IsMinAWalk g start k' d' → d' < cost →
          ∃ q, lookupL R k' = some q :=
        recorded_below hes hstart cost hminH
      have htot : rcTotal pu.2 = CW g start u pu.1 :=
        total_eq_CW hpos hout hin hra hcnt hstart hes hru hdoneu
          (fun k' d' hm hlt => hbelowc k' d' hm (by omega))
      have hrc : (((some u).bind (fun f => shortest_route_count R f)).getD 1) =
          CW g start u pu.1 := by
        show (shortest_route_count R u).getD 1 = _
        unfold shortest_route_count
        rw [hru]
        exact htot
      cases hrec : lookupL R key with
      | none =>
        have hune : u ≠ key := by
          intro hh
          rw [hh, hrec] at hru
          exact absurd hru (by simp)
        have hkeystart : key ≠ start := by
          intro hh
          rw [hh, hstart] at hrec
          exact absurd hrec (by simp)
        have hR'key : lookupL (maybe_add_paths_count R (some u) key cost
            (CW g start u pu.1)) key = some (cost, [(some u, CW g start u pu.1)]) :=
          mac_new hrec
        have hR'oth : ∀ k, k ≠ key → lookupL (maybe_add_paths_count R (some u) key cost
            (CW g start u pu.1)) k = lookupL R k :=
          fun k hk => mac_other R (some u) key cost _ k hk
        have hkeymin : IsMinAWalk g start key cost :=
          popped_is_minA hheap hra (relax_of_edgeState hes hstart) hstart hpm hrec
        have hheap2 : HeapInvC g start (H' ++ pushListC g key cost)
            (maybe_add_paths_count R (some u) key cost (CW g start u pu.1)) := by
          intro x hx
          rcases List.mem_append.mp hx with hxm | hxm
          · obtain ⟨ux, pux, wx, hxf, hxr, hxe, hxc⟩ := hheap x (hsubm x hxm)
            have hux : ux ≠ key := by
              intro hh
              rw [hh, hrec] at hxr
              exact absurd hxr (by simp)
            exact ⟨ux, pux, wx, hxf, by rw [hR'oth ux hux]; exact hxr, hxe, hxc⟩
          · obtain ⟨ak, wv, hcv, hxeq⟩ := pushC_mem hxm
            subst hxeq
            exact ⟨key, (cost, [(some u, CW g start u pu.1)]), wv, rfl, hR'key, hcv, rfl⟩
        have hra2 : RInvA g start
            (maybe_add_paths_count R (some u) key cost (CW g start u pu.1)) := by
          intro k p hp
          by_cases hk : k = key
          · subst hk
            rw [hR'key] at hp
            injection hp with hp
            rw [← hp]
            exact hkeymin
          · rw [hR'oth k hk] at hp
            exact hra k p hp
        have hstart2 : StartInv start
            (maybe_add_paths_count R (some u) key cost (CW g start u pu.1)) := by
          unfold StartInv
          rw [hR'oth start (fun hh => hkeystart hh.symm)]
          exact hstart
        have hes2 : EdgeState g start (H' ++ pushListC g key cost)
            (maybe_add_paths_count R (some u) key cost (CW g start u pu.1)) := by
          intro u' pu' hpu' v w hvw
          by_cases hu' : u' = key
          · left
            have hpu'eq : pu' = (cost, [(some u, CW g start u pu.1)]) := by
              rw [hu'] at hpu'
              have := hpu'.symm.trans hR'key
              injection this
            have hvw' : WG.cost g key v = some w := by
              rw [← hu']
              exact hvw
            rw [hpu'eq, hu']
            exact List.mem_append_right _ (pushC_complete hvw')
          · have hpu'' : lookupL R u' = some pu' := by
              rw [← hR'oth u' hu']
              exact hpu'
            rcases hes u' pu' hpu'' v w hvw with hpend | ⟨pv, hpv, hle, hcontr⟩
            · rcases hrem _ hpend with h1 | h1
              · exact Or.inl (List.mem_append_left _ h1)
              · have hv : v = key := congrArg Prod.fst h1
                have hu2 : u' = u := by
                  have := congrArg (fun x => x.2.1) h1
                  injection this
                have hcc : pu'.1 + w = cost := congrArg (fun x => x.2.2) h1
                right
                refine ⟨(cost, [(some u, CW g start u pu.1)]),
                  by rw [hv]; exact hR'key, by omega, ?_⟩
                intro _
                show lookupL [(some u, CW g start u pu.1)] (some u') =
                  some (CW g start u' pu'.1)
                have hpu'pu : pu' = pu := by
                  rw [hu2] at hpu''
                  have := hpu''.symm.trans hru
                  injection this
                rw [hu2, hpu'pu]
                unfold lookupL
                rw [if_pos rfl]
            · right
              have hvk : v ≠ key := by
                intro hh
                rw [hh, hrec] at hpv
                exact absurd hpv (by simp)
              exact ⟨pv, by rw [hR'oth v hvk]; exact hpv, hle, hcontr⟩
        have hcnt2 : CntInv g start
            (maybe_add_paths_count R (some u) key cost (CW g start u pu.1)) := by
          intro k p hp
          by_cases hk : k = key
          · subst hk
            have hpeq : p = (cost, [(some u, CW g start u pu.1)]) := by
              have := hp.symm.trans hR'key
              injection this
            constructor
            · intro hh
              exact absurd hh hkeystart
            · intro _
              refine ⟨?_, ?_, ?_⟩
              · rw [hpeq]
                show lookupL [(some u, CW g start u pu.1)] none = none
                unfold lookupL
                rw [if_neg (by simp)]
                rfl
              · rw [hpeq]
                simp
              · intro u0 c0 h0
                rw [hpeq] at h0
                have h0' : (if some u = some u0 then some (CW g start u pu.1) else none) =
                    some c0 := h0
                by_cases huu : some u = some u0
                · rw [if_pos huu] at h0'
                  injection h0' with h0'
                  have huu' : u0 = u := by
                    injection huu with huu
                    exact huu.symm
                  subst huu'
                  refine ⟨w0, pu, hw0, ?_, ?_, h0'.symm⟩
                  · rw [hR'oth u0 hune]
                    exact hru
                  · rw [hpeq]
                    show pu.1 + w0 = cost
                    omega
                · rw [if_neg huu] at h0'
                  exact absurd h0' (by simp)
          · rw [hR'oth k hk] at hp
            obtain ⟨hst, hnst⟩ := hcnt k p hp
            refine ⟨hst, fun hks => ?_⟩
            obtain ⟨hn0, hnd0, hsound0⟩ := hnst hks
            refine ⟨hn0, hnd0, fun u0 c0 h0 => ?_⟩
            obtain ⟨w', pu0, he0, hr0, ht0, hc0⟩ := hsound0 u0 c0 h0
            have hu0 : u0 ≠ key := by
              intro hh
              rw [hh, hrec] at hr0
              exact absurd hr0 (by simp)
            exact ⟨w', pu0, he0, by rw [hR'oth u0 hu0]; exact hr0, ht0, hc0⟩
        have hge2 : GEInv (H' ++ pushListC g key cost)
            (maybe_add_paths_count R (some u) key cost (CW g start u pu.1)) := by
          intro x hx k p hp
          have hxc : cost ≤ x.2.2 := by
            rcases List.mem_append.mp hx with h1 | h1
            · exact hminH x (hsubm x h1)
            · obtain ⟨ak, wv, hcv, hxeq⟩ := pushC_mem h1
              subst hxeq
              show cost ≤ cost + wv
              omega
          by_cases hk : k = key
          · subst hk
            have hpeq : p = (cost, [(some u, CW g start u pu.1)]) := by
              have := hp.symm.trans hR'key
              injection this
            rw [hpeq]
            exact hxc
          · rw [hR'oth k hk] at hp
            have h3 : p.1 ≤ cost := hge _ hmem k p hp
            omega
        have hexcl2 : ExclInv (H' ++ pushListC g key cost)
            (maybe_add_paths_count R (some u) key cost (CW g start u pu.1)) := by
          intro k p u0 hp hpend
          by_cases hk : k = key
          · subst hk
            have hpeq : p = (cost, [(some u, CW g start u pu.1)]) := by
              have := hp.symm.trans hR'key
              injection this
            rcases List.mem_append.mp hpend with h1 | h1
            · by_cases huu : u0 = u
              · exfalso
                subst huu
                rcases popMin_pairwise_rest hhpu hpm _ h1 with h2 | h2 <;>
                  rcases h2 with h3 | h3 <;> exact h3 rfl
              · rw [hpeq]
                show lookupL [(some u, CW g start u pu.1)] (some u0) = none
                unfold lookupL
                rw [if_neg (fun hh => huu (by injection hh with hh; exact hh.symm))]
                rfl
            · exfalso
              obtain ⟨ak, wv, hcv, hxeq⟩ := pushC_mem h1
              have hwvpos : 0 < wv := cost_pos hpos hcv
              have hc3 : p.1 = cost + wv := congrArg (fun x => x.2.2) hxeq
              have hc4 : p.1 = cost := by
                rw [hpeq]
              omega
          · rw [hR'oth k hk] at hp
            rcases List.mem_append.mp hpend with h1 | h1
            · exact hexcl k p u0 hp (hsubm _ h1)
            · exfalso
              obtain ⟨ak, wv, hcv, hxeq⟩ := pushC_mem h1
              have hwvpos : 0 < wv := cost_pos hpos hcv
              have hc3 : p.1 = cost + wv := congrArg (fun x => x.2.2) hxeq
              have h2 : p.1 ≤ cost := hge _ hmem k p hp
              omega
        have hhpu2 : HPU (H' ++ pushListC g key cost) := by
          unfold HPU
          rw [List.pairwise_append]
          refine ⟨List.Pairwise.sublist hsubl hhpu, pushC_pairwise key cost hin, ?_⟩
          intro x hx y hy
          obtain ⟨ux, pux, wx, hxf, hxr, _, _⟩ := hheap x (hsubm x hx)
          obtain ⟨ak, wv, hcv, hyeq⟩ := pushC_mem hy
          right
          rw [hxf, hyeq]
          intro hh
          have hh2 : ux = key := by
            injection hh
          rw [hh2, hrec] at hxr
          exact absurd hxr (by simp)
        have hphi2 : spPhi g (H' ++ pushListC g key cost)
            (maybe_add_paths_count R (some u) key cost (CW g start u pu.1)) < fuel := by
          have hrecsum : outdegSum g
              (maybe_add_paths_count R (some u) key cost (CW g start u pu.1)) +
              wgOutdeg g key ≤ outdegSum g R := by
            refine outdegSum_record g R _ key hrec ?_ hR'oth
            rw [hR'key]
            rfl
          have hpl := pushC_len g key cost
          unfold spPhi at hphi ⊢
          rw [List.length_append]
          omega
        have hearly : spcEarly e key cost (maybe_add_paths_count R (some u) key cost
            (((some u).bind (fun f => shortest_route_count R f)).getD 1)) = false := by
          rw [hrc]
          unfold spcEarly rc_shortest_cost
          rw [hR'key]
          show (key == e && decide (cost < cost)) = false
          rw [decide_eq_false (lt_irrefl cost)]
          simp
        obtain ⟨M, ret, heq, hconc⟩ := ih (H' ++ pushListC g key cost)
          (maybe_add_paths_count R (some u) key cost (CW g start u pu.1))
          hheap2 hra2 hstart2 hes2 hcnt2 hge2 hexcl2 hhpu2 hphi2
        refine ⟨M, ret, ?_, hconc⟩
        rw [spcLoop_some hpm hearly]
        have hH2 : (if (lookupL R key).isSome then H' else
            match WG.adjacent g key with
            | none => H'
            | some adj => H' ++ adj.filterMap
                (fun ak => (WG.cost g key ak).map (fun w => (ak, some key, cost + w)))) =
            H' ++ pushListC g key cost := by
          rw [hrec]
          show (match WG.adjacent g key with
            | none => H'
            | some adj => H' ++ adj.filterMap
                (fun ak => (WG.cost g key ak).map (fun w => (ak, some key, cost + w)))) = _
          unfold pushListC
          cases hadj : WG.adjacent g key with
          | none => exact (List.append_nil H').symm
          | some adj => rfl
        rw [hH2, hrc]
        exact heq
      | some pq =>
        obtain ⟨mc, fm⟩ := pq
        have hmc_le : mc ≤ cost := hge _ hmem key (mc, fm) hrec
        by_cases hmc : mc = cost
        · have hkeystart : key ≠ start := by
            intro hh
            rw [hh] at hrec
            have h2 := hrec.symm.trans hstart
            injection h2 with h2
            have h3 : mc = 0 := congrArg Prod.fst h2
            omega
          have hu_ne : u ≠ key := by
            intro hh
            rw [hh] at hru
            have h2 := hru.symm.trans hrec
            injection h2 with h2
            have h3 : pu.1 = mc := congrArg Prod.fst h2
            omega
          have hfm_u : lookupL fm (some u) = none := by
            refine hexcl key (mc, fm) u hrec ?_
            show ((key, some u, (mc, fm).1) : SEntry) ∈ H
            have : ((key, some u, (mc, fm).1) : SEntry) = (key, some u, cost) := by
              show ((key, some u, mc) : SEntry) = (key, some u, cost)
              rw [hmc]
            rw [this]
            exact hmem
          have hfm'u : lookupL (bumpCount fm (some u) (CW g start u pu.1)) (some u) =
              some (CW g start u pu.1) := by
            rw [bumpCount_self, hfm_u]
          have hfm'oth : ∀ k0, k0 ≠ some u →
              lookupL (bumpCount fm (some u) (CW g start u pu.1)) k0 = lookupL fm k0 :=
            fun k0 hk0 => bumpCount_other fm (some u) k0 _ hk0
          have hR'key : lookupL (maybe_add_paths_count R (some u) key cost
              (CW g start u pu.1)) key =
              some (mc, bumpCount fm (some u) (CW g start u pu.1)) := by
            rw [mac_existing hrec, if_pos hmc]
          have hR'oth : ∀ k, k ≠ key →
              lookupL (maybe_add_paths_count R (some u) key cost (CW g start u pu.1)) k =
              lookupL R k :=
            fun k hk => mac_other R (some u) key cost _ k hk
          have hheap2 : HeapInvC g start H'
              (maybe_add_paths_count R (some u) key cost (CW g start u pu.1)) := by
            intro x hx
            obtain ⟨ux, pux, wx, hxf, hxr, hxe, hxc⟩ := hheap x (hsubm x hx)
            by_cases hux : ux = key
            · have hpux : pux = (mc, fm) := by
                rw [hux] at hxr
                have := hxr.symm.trans hrec
                injection this
              refine ⟨ux, (mc, bumpCount fm (some u) (CW g start u pu.1)), wx, hxf, ?_, hxe, ?_⟩
              · rw [hux]
                exact hR'key
              · rw [hxc, hpux]
            · exact ⟨ux, pux, wx, hxf, by rw [hR'oth ux hux]; exact hxr, hxe, hxc⟩
          have hra2 : RInvA g start
              (maybe_add_paths_count R (some u) key cost (CW g start u pu.1)) := by
            intro k p hp
            by_cases hk : k = key
            · subst hk
              have hpeq : p = (mc, bumpCount fm (some u) (CW g start u pu.1)) := by
                have := hp.symm.trans hR'key
                injection this
              rw [hpeq]
              show IsMinAWalk g start k mc
              exact hra k (mc, fm) hrec
            · rw [hR'oth k hk] at hp
              exact hra k p hp
          have hstart2 : StartInv start
              (maybe_add_paths_count R (some u) key cost (CW g start u pu.1)) := by
            unfold StartInv
            rw [hR'oth start (fun hh => hkeystart hh.symm)]
            exact hstart
          have hes2 : EdgeState g start H'
              (maybe_add_paths_count R (some u) key cost (CW g start u pu.1)) := by
            intro u' pu' hpu' v w hvw
            by_cases hu' : u' = key
            · have hpu'eq : pu' = (mc, bumpCount fm (some u) (CW g start u pu.1)) := by
                rw [hu'] at hpu'
                have := hpu'.symm.trans hR'key
                injection this
              have hvw' : WG.cost g key v = some w := by
                rw [← hu']
                exact hvw
              rcases hes key (mc, fm) hrec v w hvw' with hpend | ⟨pv, hpv, hle, hcontr⟩
              · rcases hrem _ hpend with h1 | h1
                · left
                  rw [hpu'eq, hu']
                  exact h1
                · exfalso
                  have h2 : some key = some u := congrArg (fun x => x.2.1) h1
                  have h3 : key = u := by injection h2
                  exact hu_ne h3.symm
              · right
                by_cases hv : v = key
                · refine ⟨(mc, bumpCount fm (some u) (CW g start u pu.1)),
                    by rw [hv]; exact hR'key, ?_, ?_⟩
                  · rw [hpu'eq]
                    show mc ≤ mc + w
                    omega
                  · intro htie
                    exfalso
                    have hw' : 0 < w := cost_pos hpos hvw'
                    rw [hpu'eq] at htie
                    have h2 : mc + w = mc := htie
                    omega
                · refine ⟨pv, by rw [hR'oth v hv]; exact hpv, ?_, ?_⟩
                  · rw [hpu'eq]
                    exact hle
                  · intro htie
                    rw [hpu'eq] at htie
                    have htie' : mc + w = pv.1 := htie
                    have hold := hcontr htie'
                    rw [hpu'eq, hu']
                    show lookupL pv.2 (some key) = some (CW g start key mc)
                    exact hold
            · have hpu'' : lookupL R u' = some pu' := by
                rw [← hR'oth u' hu']
                exact hpu'
              rcases hes u' pu' hpu'' v w hvw with hpend | ⟨pv, hpv, hle, hcontr⟩
              · rcases hrem _ hpend with h1 | h1
                · exact Or.inl h1
                · right
                  have hv : v = key := congrArg Prod.fst h1
                  have hu2 : u' = u := by
                    have := congrArg (fun x => x.2.1) h1
                    injection this
                  have hcc : pu'.1 + w = cost := congrArg (fun x => x.2.2) h1
                  refine ⟨(mc, bumpCount fm (some u) (CW g start u pu.1)),
                    by rw [hv]; exact hR'key, by show mc ≤ pu'.1 + w; omega, ?_⟩
                  intro htie
                  show lookupL (bumpCount fm (some u) (CW g start u pu.1)) (some u') =
                    some (CW g start u' pu'.1)
                  have hpu'pu : pu' = pu := by
                    rw [hu2] at hpu''
                    have := hpu''.symm.trans hru
                    injection this
                  rw [hu2, hpu'pu]
                  exact hfm'u
              · right
                by_cases hv : v = key
                · have hpveq : pv = (mc, fm) := by
                    rw [hv] at hpv
                    have := hpv.symm.trans hrec
                    injection this
                  refine ⟨(mc, bumpCount fm (some u) (CW g start u pu.1)),
                    by rw [hv]; exact hR'key, ?_, ?_⟩
                  · show mc ≤ pu'.1 + w
                    rw [hpveq] at hle
                    exact hle
                  · intro htie
                    have htie2 : pu'.1 + w = pv.1 := by
                      rw [hpveq]
                      exact htie
                    have hold := hcontr htie2
                    by_cases huu : u' = u
                    · exfalso
                      rw [huu] at hold
                      rw [hpveq] at hold
                      rw [hfm_u] at hold
                      exact absurd hold (by simp)
                    · show lookupL (bumpCount fm (some u) (CW g start u pu.1)) (some u') =
                        some (CW g start u' pu'.1)
                      rw [hfm'oth (some u') (fun hh => huu (by injection hh))]
                      rw [hpveq] at hold
                      exact hold
                · exact ⟨pv, by rw [hR'oth v hv]; exact hpv, hle, hcontr⟩
          have hcnt2 : CntInv g start
              (maybe_add_paths_count R (some u) key cost (CW g start u pu.1)) := by
            intro k p hp
            by_cases hk : k = key
            · subst hk
              have hpeq : p = (mc, bumpCount fm (some u) (CW g start u pu.1)) := by
                have := hp.symm.trans hR'key
                injection this
              obtain ⟨hn0, hnd0, hsound0⟩ := (hcnt k (mc, fm) hrec).2 hkeystart
              constructor
              · intro hh
                exact absurd hh hkeystart
              · intro _
                refine ⟨?_, ?_, ?_⟩
                · rw [hpeq]
                  show lookupL (bumpCount fm (some u) (CW g start u pu.1)) none = none
                  rw [hfm'oth none (by simp)]
                  exact hn0
                · rw [hpeq]
                  exact bumpCount_keys_nodup hnd0
                · intro u0 c0 h0
                  rw [hpeq] at h0
                  have h0' : lookupL (bumpCount fm (some u) (CW g start u pu.1)) (some u0) =
                      some c0 := h0
                  by_cases huu : u0 = u
                  · subst huu
                    rw [hfm'u] at h0'
                    injection h0' with h0'
                    refine ⟨w0, pu, hw0, ?_, ?_, h0'.symm⟩
                    · rw [hR'oth u0 hu_ne]
                      exact hru
                    · rw [hpeq]
                      show pu.1 + w0 = mc
                      omega
                  · rw [hfm'oth (some u0) (fun hh => huu (by injection hh))] at h0'
                    obtain ⟨w', pu0, he0, hr0, ht0, hc0⟩ := hsound0 u0 c0 h0'
                    by_cases hu0k : u0 = k
                    · have hpu0eq : pu0 = (mc, fm) := by
                        rw [hu0k] at hr0
                        have := hr0.symm.trans hrec
                        injection this
                      refine ⟨w', (mc, bumpCount fm (some u) (CW g start u pu.1)), he0, ?_, ?_, ?_⟩
                      · rw [hu0k]
                        exact hR'key
                      · rw [hpeq]
                        show mc + w' = mc
                        rw [hpu0eq] at ht0
                        exact ht0
                      · rw [hc0, hpu0eq]
                    · exact ⟨w', pu0, he0, by rw [hR'oth u0 hu0k]; exact hr0, by rw [hpeq]; exact ht0, hc0⟩
            · rw [hR'oth k hk] at hp
              obtain ⟨hst, hnst⟩ := hcnt k p hp
              refine ⟨hst, fun hks => ?_⟩
              obtain ⟨hn0, hnd0, hsound0⟩ := hnst hks
              refine ⟨hn0, hnd0, fun u0 c0 h0 => ?_⟩
              obtain ⟨w', pu0, he0, hr0, ht0, hc0⟩ := hsound0 u0 c0 h0
              by_cases hu0k : u0 = key
              · have hpu0eq : pu0 = (mc, fm) := by
                  rw [hu0k] at hr0
                  have := hr0.symm.trans hrec
                  injection this
                refine ⟨w', (mc, bumpCount fm (some u) (CW g start u pu.1)), he0, ?_, ?_, ?_⟩
                · rw [hu0k]
                  exact hR'key
                · show mc + w' = p.1
                  rw [hpu0eq] at ht0
                  exact ht0
                · rw [hc0, hpu0eq]
              · exact ⟨w', pu0, he0, by rw [hR'oth u0 hu0k]; exact hr0, ht0, hc0⟩
          have hge2 : GEInv H'
              (maybe_add_paths_count R (some u) key cost (CW g start u pu.1)) := by
            intro x hx k p hp
            by_cases hk : k = key
            · subst hk
              have hpeq : p = (mc, bumpCount fm (some u) (CW g start u pu.1)) := by
                have := hp.symm.trans hR'key
                injection this
              rw [hpeq]
              show mc ≤ x.2.2
              have := hge x (hsubm x hx) k (mc, fm) hrec
              exact this
            · rw [hR'oth k hk] at hp
              exact hge x (hsubm x hx) k p hp
          have hexcl2 : ExclInv H'
              (maybe_add_paths_count R (some u) key cost (CW g start u pu.1)) := by
            intro k p u0 hp hpend
            by_cases hk : k = key
            · subst hk
              have hpeq : p = (mc, bumpCount fm (some u) (CW g start u pu.1)) := by
                have := hp.symm.trans hR'key
                injection this
              by_cases huu : u0 = u
              · exfalso
                subst huu
                have hpend' : ((k, some u0, cost) : SEntry) ∈ H' := by
                  have h2 : p.1 = mc := by
                    rw [hpeq]
                  rw [h2, hmc] at hpend
                  exact hpend
                rcases popMin_pairwise_rest hhpu hpm _ hpend' with h2 | h2 <;>
                  rcases h2 with h3 | h3 <;> exact h3 rfl
              · rw [hpeq]
                show lookupL (bumpCount fm (some u) (CW g start u pu.1)) (some u0) = none
                rw [hfm'oth (some u0) (fun hh => huu (by injection hh))]
                refine hexcl k (mc, fm) u0 hrec ?_
                have h2 : p.1 = mc := by
                  rw [hpeq]
                rw [h2] at hpend
                exact hsubm _ hpend
            · rw [hR'oth k hk] at hp
              exact hexcl k p u0 hp (hsubm _ hpend)
          have hhpu2 : HPU H' := List.Pairwise.sublist hsubl hhpu
          have hphi2 : spPhi g H'
              (maybe_add_paths_count R (some u) key cost (CW g start u pu.1)) < fuel := by
            have hmono : outdegSum g
                (maybe_add_paths_count R (some u) key cost (CW g start u pu.1)) ≤
                outdegSum g R := by
              refine outdegSum_mono g R _ ?_
              intro k hk
              by_cases hkk : k = key
              · subst hkk
                rw [hR'key] at hk
                exact absurd hk (by simp)
              · rw [← hR'oth k hkk]
                exact hk
            unfold spPhi at hphi ⊢
            omega
          have hearly : spcEarly e key cost (maybe_add_paths_count R (some u) key cost
              (((some u).bind (fun f => shortest_route_count R f)).getD 1)) = false := by
            rw [hrc]
            unfold spcEarly rc_shortest_cost
            rw [hR'key]
            show (key == e && decide (mc < cost)) = false
            rw [decide_eq_false (show ¬(mc < cost) by omega)]
            simp
          obtain ⟨M, ret, heq, hconc⟩ := ih H'
            (maybe_add_paths_count R (some u) key cost (CW g start u pu.1))
            hheap2 hra2 hstart2 hes2 hcnt2 hge2 hexcl2 hhpu2 hphi2
          refine ⟨M, ret, ?_, hconc⟩
          rw [spcLoop_some hpm hearly]
          have hH2 : (if (lookupL R key).isSome then H' else
              match WG.adjacent g key with
              | none => H'
              | some adj => H' ++ adj.filterMap
                  (fun ak => (WG.cost g key ak).map (fun w => (ak, some key, cost + w)))) =
              H' := by
            rw [hrec]
            simp
          rw [hH2, hrc]
          exact heq
        · have hmclt : mc < cost := by omega
          have hR'eqB2 : maybe_add_paths_count R (some u) key cost (CW g start u pu.1) = R := by
            rw [mac_eq_existing hrec, if_neg hmc]
          have hheap2 : HeapInvC g start H' R := fun x hx => hheap x (hsubm x hx)
          have hes2 : EdgeState g start H' R := by
            intro u' pu' hpu' v w hvw
            rcases hes u' pu' hpu' v w hvw with hpend | hrecd
            · rcases hrem _ hpend with h1 | h1
              · exact Or.inl h1
              · right
                have hv : v = key := congrArg Prod.fst h1
                have hcc : pu'.1 + w = cost := congrArg (fun x => x.2.2) h1
                refine ⟨(mc, fm), by rw [hv]; exact hrec, by show mc ≤ pu'.1 + w; omega, ?_⟩
                intro htie
                exfalso
                have h2 : pu'.1 + w = mc := htie
                omega
            · exact Or.inr hrecd
          have hge2 : GEInv H' R := fun x hx k p hp => hge x (hsubm x hx) k p hp
          have hexcl2 : ExclInv H' R := fun k p u0 hp hpend => hexcl k p u0 hp (hsubm _ hpend)
          have hhpu2 : HPU H' := List.Pairwise.sublist hsubl hhpu
          have hphi2 : spPhi g H' R < fuel := by
            unfold spPhi at hphi ⊢
            omega
          by_cases hke : key = e
          · have hearlyT : spcEarly e key cost (maybe_add_paths_count R (some u) key cost
                (((some u).bind (fun f => shortest_route_count R f)).getD 1)) = true := by
              rw [hrc, hR'eqB2]
              unfold spcEarly rc_shortest_cost
              rw [hrec]
              show (key == e && decide (mc < cost)) = true
              rw [hke, decide_eq_true hmclt]
              simp
            refine ⟨R, some key, ?_, ?_⟩
            · rw [spcLoop_some_early hpm hearlyT, hrc, hR'eqB2]
            · intro _
              have hrece : lookupL R e = some (mc, fm) := by
                rw [← hke]
                exact hrec
              refine ⟨(mc, fm), hrece, hra e _ hrece, ?_⟩
              refine total_eq_CW hpos hout hin hra hcnt hstart hes2 hrece ?_ ?_
              · intro u' hm'
                have h2 : cost ≤ mc := hminH _ (hsubm _ hm')
                omega
              · intro k' d' hm hlt
                refine recorded_below hes2 hstart cost
                  (fun x hx => hminH x (hsubm x hx)) k' d' hm ?_
                have h2 : d' < mc := hlt
                omega
          · have hearlyF : spcEarly e key cost (maybe_add_paths_count R (some u) key cost
                (((some u).bind (fun f => shortest_route_count R f)).getD 1)) = false := by
              rw [hrc, hR'eqB2]
              unfold spcEarly rc_shortest_cost
              rw [hrec]
              show (key == e && decide (mc < cost)) = false
              simp [hke]
            obtain ⟨M, ret, heq, hconc⟩ := ih H' R hheap2 hra hstart hes2 hcnt hge2
              hexcl2 hhpu2 hphi2
            refine ⟨M, ret, ?_, hconc⟩
            rw [spcLoop_some hpm hearlyF]
            have hH2 : (if (lookupL R key).isSome then H' else
                match WG.adjacent g key with
                | none => H'
                | some adj => H' ++ adj.filterMap
                    (fun ak => (WG.cost g key ak).map (fun w => (ak, some key, cost + w)))) =
                H' := by
              rw [hrec]
              simp
            rw [hH2, hrc, hR'eqB2]
            exact heq

theorem chainEnd_mem : ∀ (p : List ℕ) (s : ℕ), p ≠ [] → chainEnd s p ∈ p := by
  intro p
  induction p with
  | nil => intro s h; exact absurd rfl h
  | cons v rest ih =>
    intro s _
    show chainEnd v rest ∈ v :: rest
    by_cases hr : rest = []
    · subst hr
      show v ∈ [v]
      exact List.mem_singleton.mpr rfl
    · exact List.mem_cons_of_mem v (ih v hr)

/-- Claim C2, amended: with positive edge costs and well-formed adjacency
lists, `shortest_path_count(start, e, 0)` returns the number of distinct
minimum-cost walks from `start` to `e` (computed by `CW` at the minimum
cost `d`), provided the fuel covers the loop's termination measure. -/
theorem claim_C2_amended (g : WGraph) (start e d fuel : ℕ)
    (hpos : ∀ km ∈ g, ∀ vw ∈ km.2, 0 < vw.2)
    (hout : (g.map Prod.fst).Nodup)
    (hin : ∀ km ∈ g, (km.2.map Prod.fst).Nodup)
    (hd : IsMinAWalk g start e d)
    (hfuel : 2 + wgOutdeg g start + (g.map (fun km => km.2.length)).sum ≤ fuel) :
    shortest_path_count g start e 0 fuel = some (some (CW g start e d)) := by
  obtain ⟨fuel', rfl⟩ : ∃ f', fuel = f' + 1 := ⟨fuel - 1, by omega⟩
  have hpm0 : popMin [((start : ℕ), (none : Option ℕ), (0 : ℕ))] =
      some ((start, none, 0), []) := rfl
  have hR1 : maybe_add_paths_count [] (none : Option ℕ) start 0 1 =
      [(start, (0, [(none, 1)]))] := by
    rw [mac_eq_new (show lookupL ([] : RCMap) start = none from rfl)]
    rfl
  have hlookR1 : lookupL [((start : ℕ), ((0 : ℕ), [((none : Option ℕ), (1 : ℕ))]))] start =
      some (0, [(none, 1)]) := by
    unfold lookupL
    rw [if_pos rfl]
  have hlookother : ∀ k, k ≠ start →
      lookupL [((start : ℕ), ((0 : ℕ), [((none : Option ℕ), (1 : ℕ))]))] k = none := by
    intro k hk
    show (if start = k then some ((0 : ℕ), [((none : Option ℕ), (1 : ℕ))])
      else lookupL [] k) = none
    rw [if_neg (fun hh => hk hh.symm)]
    rfl
  have hearly0 : spcEarly e start 0 (maybe_add_paths_count [] none start 0
      (((none : Option ℕ).bind (fun f => shortest_route_count [] f)).getD 1)) = false := by
    show spcEarly e start 0 (maybe_add_paths_count [] none start 0 1) = false
    rw [hR1]
    unfold spcEarly rc_shortest_cost
    rw [hlookR1]
    show (start == e && decide ((0 : ℕ) < 0)) = false
    simp
  have hstep : shortest_paths_to_many_with_count g start (spcEarly e) 0 (fuel' + 1) =
      spcLoop g (spcEarly e) fuel' (pushListC g start 0) [(start, (0, [(none, 1)]))] := by
    unfold shortest_paths_to_many_with_count
    rw [spcLoop_some hpm0 hearly0]
    have h2 : (if (lookupL ([] : RCMap) start).isSome then ([] : List SEntry) else
        match WG.adjacent g start with
        | none => []
        | some adj => [] ++ adj.filterMap
            (fun ak => (WG.cost g start ak).map (fun w => (ak, some start, 0 + w)))) =
        pushListC g start 0 := by
      show (match WG.adjacent g start with
        | none => ([] : List SEntry)
        | some adj => [] ++ adj.filterMap
            (fun ak => (WG.cost g start ak).map (fun w => (ak, some start, 0 + w)))) = _
      unfold pushListC
      cases WG.adjacent g start with
      | none => rfl
      | some adj => rfl
    rw [h2]
    show spcLoop g (spcEarly e) fuel' (pushListC g start 0)
      (maybe_add_paths_count [] none start 0 1) = _
    rw [hR1]
  have hstart1 : StartInv start [(start, (0, [(none, 1)]))] := hlookR1
  have hmin0 : IsMinAWalk g start start 0 := ⟨awalk_refl g start, fun c _ => Nat.zero_le c⟩
  have hra1 : RInvA g start [(start, (0, [(none, 1)]))] := by
    intro k p hp
    by_cases hk : k = start
    · rw [hk] at hp ⊢
      have hpeq : p = (0, [(none, 1)]) := by
        have := hp.symm.trans hlookR1
        injection this
      rw [hpeq]
      exact hmin0
    · rw [hlookother k hk] at hp
      exact absurd hp (by simp)
  have hheap1 : HeapInvC g start (pushListC g start 0) [(start, (0, [(none, 1)]))] := by
    intro x hx
    obtain ⟨ak, wv, hcv, hxeq⟩ := pushC_mem hx
    subst hxeq
    exact ⟨start, (0, [(none, 1)]), wv, rfl, hlookR1, hcv, rfl⟩
  have hes1 : EdgeState g start (pushListC g start 0) [(start, (0, [(none, 1)]))] := by
    intro u pu hpu v w hvw
    by_cases hu : u = start
    · left
      have hpueq : pu = (0, [(none, 1)]) := by
        rw [hu] at hpu
        have := hpu.symm.trans hlookR1
        injection this
      have hvw' : WG.cost g start v = some w := by
        rw [← hu]
        exact hvw
      rw [hpueq, hu]
      exact pushC_complete hvw'
    · rw [hlookother u hu] at hpu
      exact absurd hpu (by simp)
  have hcnt1 : CntInv g start [(start, (0, [(none, 1)]))] := by
    intro k p hp
    by_cases hk : k = start
    · constructor
      · intro _
        have hpeq : p = (0, [(none, 1)]) := by
          rw [hk] at hp
          have := hp.symm.trans hlookR1
          injection this
        rw [hpeq]
        exact ⟨rfl, rfl⟩
      · intro hks
        exact absurd hk hks
    · rw [hlookother k hk] at hp
      exact absurd hp (by simp)
  have hge1 : GEInv (pushListC g start 0) [(start, (0, [(none, 1)]))] := by
    intro x hx k p hp
    by_cases hk : k = start
    · have hpeq : p = (0, [(none, 1)]) := by
        rw [hk] at hp
        have := hp.symm.trans hlookR1
        injection this
      rw [hpeq]
      exact Nat.zero_le _
    · rw [hlookother k hk] at hp
      exact absurd hp (by simp)
  have hexcl1 : ExclInv (pushListC g start 0) [(start, (0, [(none, 1)]))] := by
    intro k p u0 hp hpend
    by_cases hk : k = start
    · have hpeq : p = (0, [(none, 1)]) := by
        rw [hk] at hp
        have := hp.symm.trans hlookR1
        injection this
      rw [hpeq]
      show lookupL [((none : Option ℕ), (1 : ℕ))] (some u0) = none
      unfold lookupL
      rw [if_neg (by simp)]
      rfl
    · rw [hlookother k hk] at hp
      exact absurd hp (by simp)
  have hhpu1 : HPU (pushListC g start 0) := pushC_pairwise start 0 hin
  have hphi1 : spPhi g (pushListC g start 0)
      ([(start, (0, [(none, 1)]))] : RCMap) < fuel' := by
    have hlen1 := pushC_len g start 0
    have hrec1 : outdegSum g ([(start, (0, [(none, 1)]))] : RCMap) + wgOutdeg g start ≤
        outdegSum g ([] : RCMap) := by
      refine outdegSum_record g [] ([(start, (0, [(none, 1)]))] : RCMap) start rfl ?_ ?_
      · rw [hlookR1]
        rfl
      · intro k hk
        rw [hlookother k hk]
        rfl
    have hempty := outdegSum_empty (α := ℕ × List (Option ℕ × ℕ)) g
    unfold spPhi
    omega
  obtain ⟨M, ret, heq, hconc⟩ := spcLoop_correct g start e hpos hout hin fuel'
    (pushListC g start 0) [(start, (0, [(none, 1)]))]
    hheap1 hra1 hstart1 hes1 hcnt1 hge1 hexcl1 hhpu1 hphi1
  obtain ⟨pe, hpe, hmin, htoteq⟩ := hconc ⟨d, hd.1⟩
  have hd' : pe.1 = d := le_antisymm (hmin.2 d hd.1) (hd.2 pe.1 hmin.1)
  unfold shortest_path_count
  rw [hstep, heq]
  show some (shortest_route_count M e) = some (some (CW g start e d))
  unfold shortest_route_count
  rw [hpe]
  show some (some (rcTotal pe.2)) = _
  rw [htoteq, hd']

/-- Claim C2, counterexample: with a zero-cost 2-cycle `0 ↔ 1` the code
reports 2 shortest routes from 0 to 0, but the only duplicate-free path
from 0 back to 0 is the empty one (of cost 0): the count map counts
walks, double-counting through the zero-cost cycle. -/
theorem claim_C2_counterexample :
    shortest_path_count [(0, [(1, 0)]), (1, [(0, 0)])] 0 0 0 10 = some (some 2) ∧
    (∀ p : List ℕ, chainEnd 0 p = 0 → (0 :: p).Nodup → p = []) ∧
    chainCost [(0, [(1, 0)]), (1, [(0, 0)])] 0 [] = some 0 ∧
    chainEnd 0 ([] : List ℕ) = 0 := by
  refine ⟨rfl, ?_, rfl, rfl⟩
  intro p hend hnd
  by_contra hne
  have hm : (0 : ℕ) ∈ p := hend ▸ chainEnd_mem p 0 hne
  rw [List.nodup_cons] at hnd
  exact hnd.1 hm

/-- Claim C2, witness: on the 2x2 diamond-of-diamonds graph (all edge
costs 1) the amended theorem applies with minimum cost 4 and yields
`Some(Some 4))` — four distinct minimum-cost routes, not 2. -/
theorem claim_C2_witness :
    (∀ km ∈ ([(0, [(1, 1), (2, 1)]), (1, [(3, 1)]), (2, [(3, 1)]), (3, [(4, 1), (5, 1)]),
        (4, [(6, 1)]), (5, [(6, 1)]), (6, [])] : WGraph), ∀ vw ∈ km.2, 0 < vw.2) ∧
    IsMinAWalk [(0, [(1, 1), (2, 1)]), (1, [(3, 1)]), (2, [(3, 1)]), (3, [(4, 1), (5, 1)]),
        (4, [(6, 1)]), (5, [(6, 1)]), (6, [])] 0 6 4 ∧
    shortest_path_count [(0, [(1, 1), (2, 1)]), (1, [(3, 1)]), (2, [(3, 1)]),
        (3, [(4, 1), (5, 1)]), (4, [(6, 1)]), (5, [(6, 1)]), (6, [])] 0 6 0 40 =
      some (some (CW [(0, [(1, 1), (2, 1)]), (1, [(3, 1)]), (2, [(3, 1)]),
        (3, [(4, 1), (5, 1)]), (4, [(6, 1)]), (5, [(6, 1)]), (6, [])] 0 6 4)) ∧
    CW [(0, [(1, 1), (2, 1)]), (1, [(3, 1)]), (2, [(3, 1)]), (3, [(4, 1), (5, 1)]),
        (4, [(6, 1)]), (5, [(6, 1)]), (6, [])] 0 6 4 = 4 := by
  have hposd : ∀ km ∈ ([(0, [(1, 1), (2, 1)]), (1, [(3, 1)]), (2, [(3, 1)]),
      (3, [(4, 1), (5, 1)]), (4, [(6, 1)]), (5, [(6, 1)]), (6, [])] : WGraph),
      ∀ vw ∈ km.2, 0 < vw.2 := by decide
  have hall : ∀ n ∈ List.range 4, ∀ p ∈ walksLen [(0, [(1, 1), (2, 1)]), (1, [(3, 1)]),
      (2, [(3, 1)]), (3, [(4, 1), (5, 1)]), (4, [(6, 1)]), (5, [(6, 1)]), (6, [])] 0 n,
      chainEnd 0 p ≠ 6 := by decide
  have hmin : IsMinAWalk [(0, [(1, 1), (2, 1)]), (1, [(3, 1)]), (2, [(3, 1)]),
      (3, [(4, 1), (5, 1)]), (4, [(6, 1)]), (5, [(6, 1)]), (6, [])] 0 6 4 := by
    constructor
    · exact ⟨[1, 3, 4, 6], by decide, rfl⟩
    · intro c hc
      obtain ⟨p, hpc, hpe⟩ := hc
      by_contra hlt
      have hlen := walk_length_le_cost hposd p 0 c hpc
      have hmem := (walksLen_mem [(0, [(1, 1), (2, 1)]), (1, [(3, 1)]), (2, [(3, 1)]),
        (3, [(4, 1), (5, 1)]), (4, [(6, 1)]), (5, [(6, 1)]), (6, [])] 0 p.length p).mpr
        ⟨rfl, by rw [hpc]; rfl⟩
      exact hall p.length (List.mem_range.mpr (by omega)) p hmem hpe
  refine ⟨hposd, hmin, ?_, by decide⟩
  exact claim_C2_amended [(0, [(1, 1), (2, 1)]), (1, [(3, 1)]), (2, [(3, 1)]),
    (3, [(4, 1), (5, 1)]), (4, [(6, 1)]), (5, [(6, 1)]), (6, [])] 0 6 4 40
    hposd (by decide) (by decide) hmin (by decide)
